import Mathlib

/-
Verification of the incremental stable-identity projection engine
(bzr-svn file id mapping, src/fileids.py and collaborators).

Paths are modelled as lists of characters (Python strings), the file id
map as a function from paths to optional entries (Python dict semantics:
unordered, keyed mapping), and the Python assertions of
SimpleFileIdMap._apply_changes as error values of type ConsistencyError.
-/

abbrev Pathname : Type := List Char

/-- Python string comparison (lexicographic by character code), as used by
list.sort() on the changed paths and on the changeset keys. -/
def lexLe : Pathname → Pathname → Bool
  | [], _ => true
  | _ :: _, [] => false
  | x :: xs, y :: ys =>
    if x.toNat < y.toNat then true
    else if y.toNat < x.toNat then false
    else lexLe xs ys

/-- Insert into a sorted list (used to model Python list.sort()). -/
def insertBy {α : Type} (le : α → α → Bool) (x : α) : List α → List α
  | [] => [x]
  | y :: ys => if le x y then x :: y :: ys else y :: insertBy le x ys

/-- Python list.sort(): a stable sort; modelled as insertion sort so that
it computes by kernel reduction.  Only the sortedness and the permutation
property matter (the keys sorted are dict keys, hence distinct). -/
def sortBy {α : Type} (le : α → α → Bool) : List α → List α
  | [] => []
  | x :: xs => insertBy le x (sortBy le xs)

theorem insertBy_perm {α : Type} (le : α → α → Bool) (x : α) (l : List α) :
    (insertBy le x l).Perm (x :: l) := by
  induction l with
  | nil => exact List.Perm.refl _
  | cons y ys ih =>
    rw [insertBy]
    by_cases h : le x y
    · rw [if_pos h]
    · rw [if_neg h]
      exact (ih.cons y).trans (List.Perm.swap x y ys)

theorem sortBy_perm {α : Type} (le : α → α → Bool) (l : List α) :
    (sortBy le l).Perm l := by
  induction l with
  | nil => exact List.Perm.refl _
  | cons x xs ih =>
    exact (insertBy_perm le x (sortBy le xs)).trans (ih.cons x)

/-- Revision identifiers: either bzrlib NULL_REVISION (stored for the
synthetic genesis root entry) or an svn revision id generated by
generate_svn_revision_id from (uuid, branch path, revision number).  The
string codec lives in the repository module, which is not part of the
sources here; per the spec the encoding is reversible, so revision ids are
modelled by their decoded contents.  The string wire format itself is
modelled separately below for the codec round-trip claim. -/
inductive Revid : Type
  | null : Revid
  | svn (uuid : List Char) (branch : Pathname) (revnum : Nat) : Revid
deriving DecidableEq, Repr

/-- generate_svn_revision_id (missing repository module, called at
src/fileids.py lines 63, 118, 135): build the revision id of
(uuid, revnum, branch). -/
def generate_svn_revision_id (uuid : List Char) (revnum : Nat) (branch : Pathname) : Revid :=
  Revid.svn uuid branch revnum

/-- MAPPING_VERSION of the missing repository module; per the spec the
current mapping generation is version 3. -/
def MAPPING_VERSION : Nat := 3

/-- Modelled from the spec: generate_svn_file_id (src/fileids.py lines 31-41)
formats (MAPPING_VERSION, revnum, uuid, escaped branch, escaped path) into
the string svn-v%d:%d@%s-%s-%s, where escape_svn_path comes from the missing
repository module; the spec states the escaping of path-reserved characters
is reversible, so the file id string determines and is determined by this
tuple, and we model it as the tuple. -/
structure FileId where
  ver : Nat
  revnum : Nat
  uuid : List Char
  branch : Pathname
  path : Pathname
deriving DecidableEq, Repr

def generate_svn_file_id (uuid : List Char) (revnum : Nat) (branch : Pathname) (path : Pathname) : FileId :=
  ⟨MAPPING_VERSION, revnum, uuid, branch, path⟩

/-- generate_file_id (src/fileids.py lines 44-46): parse the revision id via
parse_svn_revision_id (missing repository module; it fails on non-svn ids)
and derive the file id from its uuid, revnum and branch plus the given path.
The engine only ever calls this with svn revision ids; the null branch
returns a dummy value that no theorem depends on. -/
def generate_file_id : Revid → Pathname → FileId
  | .svn uuid branch revnum, path => generate_svn_file_id uuid revnum branch path
  | .null, path => ⟨0, 0, [], [], path⟩

/-- An entry of the file id map: (file id, revision that last touched the path). -/
abbrev Entry : Type := FileId × Revid

/-- The file id map (PathState of the spec): Python dict from path to entry,
modelled extensionally as a function. -/
abbrev PathState : Type := Pathname → Option Entry

def emptyState : PathState := fun _ => none

def upd (m : PathState) (k : Pathname) (v : Entry) : PathState :=
  fun q => if q = k then some v else m q

def del (m : PathState) (k : Pathname) : PathState :=
  fun q => if q = k then none else m q

/-- src/fileids.py lines 197-200: delete all children of p, i.e. every key
starting with p + "/". -/
def delTree (m : PathState) (p : Pathname) : PathState :=
  fun q => if (p ++ ['/']).isPrefixOf q then none else m q

/-- Python p.split("/") on a path. -/
def splitSlash : Pathname → List Pathname
  | [] => [[]]
  | c :: cs =>
    if c = '/' then [] :: splitSlash cs
    else
      match splitSlash cs with
      | [] => [[c]]
      | q :: qs => (c :: q) :: qs

/-- Python "/".join(ps). -/
def joinSlash : List Pathname → Pathname
  | [] => []
  | [p] => p
  | p :: ps => p ++ '/' :: joinSlash ps

/-- The ancestor list walked by _apply_changes (src/fileids.py lines 218-220):
parts = p.split("/"); parents "/".join(parts[0:len(parts)-i]) for
i in range(1, len(parts)).  Nearest parent first; the branch root "" is
never an element of this list. -/
def ancestors (p : Pathname) : List Pathname :=
  let parts := splitSlash p
  (List.range (parts.length - 1)).map (fun i => joinSlash (parts.take (parts.length - 1 - i)))

/-- Python s.replace(old, new, 1): replace the leftmost occurrence of old by
new, if any (an empty old matches at the start of s). -/
def replaceOnce (old new : Pathname) : Pathname → Pathname
  | [] => if old = [] then new else []
  | c :: cs =>
    if old.isPrefixOf (c :: cs) then new ++ (c :: cs).drop old.length
    else c :: replaceOnce old new cs

/-- The three assertions of SimpleFileIdMap._apply_changes (src/fileids.py
lines 195, 214, 221), modelled as error values per spec section 9. -/
inductive ConsistencyError : Type
  | deleteAbsent (p : Pathname)
  | modifyAbsent (p : Pathname)
  | parentAbsent (parent : Pathname) (p : Pathname)
deriving DecidableEq, Repr

/-- new_file_id of _apply_changes (src/fileids.py lines 185-189): a
caller-supplied rename override for the path wins, otherwise a fresh id is
derived from the current revision id and the path. -/
def new_file_id (renames : Pathname → Option FileId) (revid : Revid) (path : Pathname) : FileId :=
  match renames path with
  | some f => f
  | none => generate_file_id revid path

/-- src/fileids.py lines 217-224: mark all parent paths of p as changed,
nearest first, stopping at a parent that already carries the current
revision id; a missing parent is an assertion failure. -/
def touchParents (revid : Revid) (p : Pathname) :
    List Pathname → PathState → Except ConsistencyError PathState
  | [], m => .ok m
  | a :: rest, m =>
    match m a with
    | none => .error (.parentAbsent a p)
    | some e =>
      if e.2 = revid then .ok m
      else touchParents revid p rest (upd m a (e.1, revid))

/-- A branch-local change as consumed by _apply_changes: the action
character together with the optional (copy source path, copy source
revision id). -/
abbrev LocalChange : Type := Char × Option (Pathname × Revid)

/-- One iteration of the loop over changed paths in
SimpleFileIdMap._apply_changes (src/fileids.py lines 192-224): the
delete/replace pre-step, the add/replace step with copy-source child
propagation, the modify step, and the ancestor touch walk. -/
def applyOne (find_children : Pathname → Revid → List Pathname)
    (renames : Pathname → Option FileId) (revid : Revid) (m : PathState)
    (pc : Pathname × LocalChange) : Except ConsistencyError PathState := do
  let p := pc.1
  let act := pc.2.1
  let copysrc := pc.2.2
  let m1 ←
    (if act = 'D' ∨ act = 'R' then
       match m p with
       | none => Except.error (ConsistencyError.deleteAbsent p)
       | some _ => Except.ok (delTree (del m p) p)
     else Except.ok m)
  let m2 ←
    (if act = 'A' ∨ act = 'R' then
       let mA := upd m1 p (new_file_id renames revid p, revid)
       match copysrc with
       | none => Except.ok mA
       | some sr =>
         Except.ok ((find_children sr.1 sr.2).foldl
           (fun acc c => upd acc (replaceOnce sr.1 p c) (new_file_id renames revid c, revid)) mA)
     else if act = 'M' then
       match m1 p with
       | none => Except.error (ConsistencyError.modifyAbsent p)
       | some e => Except.ok (upd m1 p (e.1, revid))
     else Except.ok m1)
  touchParents revid p (ancestors p) m2

/-- Process a list of changed paths in the given order. -/
def applyList (fc : Pathname → Revid → List Pathname) (renames : Pathname → Option FileId)
    (revid : Revid) : List (Pathname × LocalChange) → PathState →
    Except ConsistencyError PathState
  | [], m => .ok m
  | pc :: rest, m => do
    let m1 ← applyOne fc renames revid m pc
    applyList fc renames revid rest m1

/-- SimpleFileIdMap._apply_changes (src/fileids.py lines 183-225): process
the changed paths in ascending lexical order. -/
def apply_changes (fc : Pathname → Revid → List Pathname) (renames : Pathname → Option FileId)
    (revid : Revid) (changes : List (Pathname × LocalChange)) (m : PathState) :
    Except ConsistencyError PathState :=
  applyList fc renames revid (sortBy (fun a b => lexLe a.1 b.1) changes) m

/-- Look a path up in the result of an application; none if it failed. -/
def resLookup (r : Except ConsistencyError PathState) (p : Pathname) : Option (Option Entry) :=
  match r with
  | .ok m => some (m p)
  | .error _ => none

example : splitSlash ('a' :: '/' :: 'b' :: []) = [['a'], ['b']] := by decide
example : ancestors ('a' :: '/' :: 'b' :: '/' :: 'c' :: []) =
    [('a' :: '/' :: 'b' :: []), ['a']] := by decide
example : ancestors ['a'] = [] := by decide
example : ancestors [] = [] := by decide
example : replaceOnce ['a'] ['b'] ('a' :: '/' :: 'x' :: []) = ('b' :: '/' :: 'x' :: []) := by decide
example : replaceOnce [] ['b'] ['x'] = ('b' :: 'x' :: []) := by decide

/-- A branch scheme: unprefix splits a repository-global path into
(branch path, branch-local path); is_branch recognizes branch paths. -/
structure Scheme where
  unprefix : Pathname → Pathname × Pathname
  is_branch : Pathname → Bool

/-- A raw repository-global change as stored in the svn log: the action
character and the optional (copyfrom path, copyfrom revision number). -/
abbrev RawChange : Type := Char × Option (Pathname × Nat)

/-- Python dict insertion on an association list: overwrite an existing
binding in place, otherwise append. -/
def insertA (l : List (Pathname × LocalChange)) (k : Pathname) (v : LocalChange) :
    List (Pathname × LocalChange) :=
  match l with
  | [] => [(k, v)]
  | kv :: rest => if kv.1 = k then (k, v) :: rest else kv :: insertA rest k v

/-- Association-list lookup (Python dict access). -/
def lookupA (l : List (Pathname × LocalChange)) (k : Pathname) : Option LocalChange :=
  match l with
  | [] => none
  | kv :: rest => if kv.1 = k then some kv.2 else lookupA rest k

/-- The body of the loop of get_local_changes (src/fileids.py lines 53-66)
for one raw entry: the stripped destination path and the rewritten change
data. -/
def localizeChange (scheme : Scheme) (uuid : List Char)
    (p : Pathname) (data : RawChange) : Pathname × LocalChange :=
  let new_p := (scheme.unprefix p).2
  match data.2 with
  | none => (new_p, (data.1, none))
  | some cr =>
    let u := scheme.unprefix cr.1
    if u.2 = [] ∧ new_p = [] then (new_p, ('M', none))
    else (new_p, (data.1, some (u.2, generate_svn_revision_id uuid cr.2 u.1)))

/-- get_local_changes (src/fileids.py lines 49-67): iterate the raw
changeset in ascending lexical order of global path, strip branch prefixes
and rewrite copy sources, building the branch-local changeset dict. -/
def get_local_changes (scheme : Scheme) (uuid : List Char)
    (paths : List (Pathname × RawChange)) : List (Pathname × LocalChange) :=
  (sortBy (fun a b => lexLe a.1 b.1) paths).foldl
    (fun acc pd =>
      let nd := localizeChange scheme uuid pd.1 pd.2
      insertA acc nd.1 nd.2) []

/-- The history walker used by get_map (self._log): follow_history yields,
newest first, (branch path, raw changeset, revision number) triples for a
branch ancestry; find_children enumerates the live paths below a
repository-global path at a revision. -/
structure Log where
  scheme : Scheme
  follow_history : Pathname → Nat → List (Pathname × List (Pathname × RawChange) × Nat)
  find_children : Pathname → Nat → List Pathname

/-- The find_children closure of get_map (src/fileids.py lines 165-168):
parse the copy revision id, enumerate the children of branch/path at that
revision and strip their branch prefix.  parse_svn_revision_id fails on
non-svn ids; the engine only builds svn copy revision ids, so the null
branch yields nothing. -/
def findChildrenVia (log : Log) (path : Pathname) : Revid → List Pathname
  | .svn _ bp revnum =>
    (log.find_children (bp ++ '/' :: path) revnum).map (fun p => (log.scheme.unprefix p).2)
  | .null => []

/-- The filemap table of FileIdMap: rows (snapshot revision id, filename,
entry); FileIdMap.save inserts one row per map entry and FileIdMap.load
collects the rows of a revision id into a dict. -/
abbrev Cache : Type := List (Revid × Pathname × Entry)

def emptyCache : Cache := []

/-- FileIdMap.load (src/fileids.py lines 94-99): the rows of one revision id. -/
def load (cache : Cache) (revid : Revid) : List (Pathname × Entry) :=
  cache.filterMap (fun r => if r.1 = revid then some r.2 else none)

/-- Build the dict a sequence of rows denotes. -/
def rowsToState (rows : List (Pathname × Entry)) : PathState :=
  rows.foldl (fun m r => upd m r.1 r.2) emptyState

/-- Errors out of get_map: a consistency error from _apply_changes, or a
failure of the final cache save (the sqlite calls in FileIdMap.save,
src/fileids.py lines 88-92, raising); get_map has no handler around the
save, so such an exception propagates. -/
inductive GetMapError : Type
  | consistency (e : ConsistencyError)
  | cacheSaveFailed
deriving DecidableEq, Repr

/-- The backward walk of get_map (src/fileids.py lines 134-143): follow the
history newest first, accumulating (revision id, raw changeset) todo pairs
until some revision has a nonempty cached map; returns the todo list
(newest first) and the cache hit, if any. -/
def findCached (cache : Cache) (uuid : List Char) :
    List (Pathname × List (Pathname × RawChange) × Nat) →
    List (Revid × List (Pathname × RawChange)) × Option (List (Pathname × Entry))
  | [] => ([], none)
  | e :: rest =>
    let revid := generate_svn_revision_id uuid e.2.2 e.1
    let rows := load cache revid
    if rows = [] then
      let r := findCached cache uuid rest
      ((revid, e.2.1) :: r.1, r.2)
    else ([], some rows)

/-- The initial map of get_map when no cached revision was found
(src/fileids.py lines 145-149): a single genesis root entry if the scheme
recognizes the empty branch path, the empty map otherwise. -/
def genesisState (log : Log) (uuid : List Char) : PathState :=
  if log.scheme.is_branch [] then
    upd emptyState [] (generate_svn_file_id uuid 0 [] [], Revid.null)
  else emptyState

/-- The forward fold of get_map (src/fileids.py lines 155-173): normalize
each raw changeset with get_local_changes and apply it with
_apply_changes, threading the map. -/
def foldTodo (log : Log) (uuid : List Char)
    (renames_cb : Revid → Pathname → Option FileId) :
    List (Revid × List (Pathname × RawChange)) → PathState →
    Except ConsistencyError PathState
  | [], m => .ok m
  | e :: rest, m => do
    let changes := get_local_changes log.scheme uuid e.2
    let m1 ← apply_changes (findChildrenVia log) (renames_cb e.1) e.1 changes m
    foldTodo log uuid renames_cb rest m1

/-- FileIdMap.get_map for a given already-walked history list
(src/fileids.py lines 126-179).  saveFails models the final save call
raising; the code does not catch it, so it aborts the call. -/
def getMapAux (log : Log) (cache : Cache) (saveFails : Bool) (uuid : List Char)
    (renames_cb : Revid → Pathname → Option FileId)
    (hist : List (Pathname × List (Pathname × RawChange) × Nat)) :
    Except GetMapError PathState :=
  let fc := findCached cache uuid hist
  let start : PathState :=
    match fc.2 with
    | some rows => rowsToState rows
    | none => genesisState log uuid
  if fc.1.isEmpty then .ok start
  else
    match foldTodo log uuid renames_cb fc.1.reverse start with
    | .error e => .error (.consistency e)
    | .ok m => if saveFails then .error .cacheSaveFailed else .ok m

/-- FileIdMap.get_map (src/fileids.py lines 122-179). -/
def get_map (log : Log) (cache : Cache) (saveFails : Bool) (uuid : List Char)
    (revnum : Nat) (branch : Pathname)
    (renames_cb : Revid → Pathname → Option FileId) : Except GetMapError PathState :=
  if revnum = 0 then .ok emptyState
  else getMapAux log cache saveFails uuid renames_cb (log.follow_history branch revnum)

theorem lookupA_insertA_self (l : List (Pathname × LocalChange)) (k : Pathname)
    (v : LocalChange) : lookupA (insertA l k v) k = some v := by
  induction l with
  | nil => simp [insertA, lookupA]
  | cons kv rest ih =>
    by_cases h : kv.1 = k
    · simp [insertA, h, lookupA]
    · simp [insertA, h, lookupA, ih]

theorem lookupA_insertA_ne (l : List (Pathname × LocalChange)) (k k2 : Pathname)
    (v : LocalChange) (h : k ≠ k2) : lookupA (insertA l k v) k2 = lookupA l k2 := by
  induction l with
  | nil => simp [insertA, lookupA, h]
  | cons kv rest ih =>
    by_cases hk : kv.1 = k
    · simp [insertA, hk, lookupA, h]
    · simp [insertA, hk, lookupA, ih]

theorem localizeChange_fst (scheme : Scheme) (uuid : List Char) (p : Pathname)
    (data : RawChange) : (localizeChange scheme uuid p data).1 = (scheme.unprefix p).2 := by
  rcases data with ⟨a, _ | cr⟩
  · rfl
  · simp only [localizeChange]
    split <;> rfl

theorem glc_foldl_preserve (scheme : Scheme) (uuid : List Char)
    (l : List (Pathname × RawChange)) (acc : List (Pathname × LocalChange)) (k : Pathname)
    (h : ∀ pd ∈ l, (scheme.unprefix pd.1).2 ≠ k) :
    lookupA (l.foldl (fun acc pd =>
      let nd := localizeChange scheme uuid pd.1 pd.2
      insertA acc nd.1 nd.2) acc) k = lookupA acc k := by
  induction l generalizing acc with
  | nil => rfl
  | cons pd rest ih =>
    simp only [List.foldl_cons]
    rw [ih _ (fun x hx => h x (List.mem_cons_of_mem _ hx))]
    rw [localizeChange_fst]
    exact lookupA_insertA_ne _ _ _ _ (h pd (List.mem_cons_self _ _))

theorem glc_foldl_lookup (scheme : Scheme) (uuid : List Char)
    (l : List (Pathname × RawChange)) (acc : List (Pathname × LocalChange))
    (p : Pathname) (data : RawChange)
    (hmem : (p, data) ∈ l)
    (hnodup : (l.map Prod.fst).Nodup)
    (hcoll : ∀ q d, (q, d) ∈ l → (scheme.unprefix q).2 = (scheme.unprefix p).2 → q = p) :
    lookupA (l.foldl (fun acc pd =>
      let nd := localizeChange scheme uuid pd.1 pd.2
      insertA acc nd.1 nd.2) acc) (scheme.unprefix p).2 =
      some (localizeChange scheme uuid p data).2 := by
  induction l generalizing acc with
  | nil => cases hmem
  | cons pd rest ih =>
    simp only [List.map_cons, List.nodup_cons] at hnodup
    rcases List.mem_cons.mp hmem with heq | hrest
    · subst heq
      simp only [List.foldl_cons]
      rw [glc_foldl_preserve]
      · rw [localizeChange_fst, lookupA_insertA_self]
      · intro x hx hkey
        have hxp : x.1 = p := hcoll x.1 x.2 (List.mem_cons_of_mem _ hx) hkey
        refine hnodup.1 ?_
        show p ∈ List.map Prod.fst rest
        rw [← hxp]
        exact List.mem_map_of_mem Prod.fst hx
    · have hpd : (scheme.unprefix pd.1).2 ≠ (scheme.unprefix p).2 := by
        intro hkey
        have hpd1 : pd.1 = p := hcoll pd.1 pd.2 (List.mem_cons_self _ _) hkey
        refine hnodup.1 ?_
        rw [hpd1]
        exact List.mem_map_of_mem Prod.fst hrest
      simp only [List.foldl_cons]
      exact ih _ hrest hnodup.2 (fun q d hq => hcoll q d (List.mem_cons_of_mem _ hq))

theorem get_local_changes_lookup (scheme : Scheme) (uuid : List Char)
    (paths : List (Pathname × RawChange)) (p : Pathname) (data : RawChange)
    (hmem : (p, data) ∈ paths)
    (hnodup : (paths.map Prod.fst).Nodup)
    (hcoll : ∀ q d, (q, d) ∈ paths → (scheme.unprefix q).2 = (scheme.unprefix p).2 → q = p) :
    lookupA (get_local_changes scheme uuid paths) (scheme.unprefix p).2 =
      some (localizeChange scheme uuid p data).2 := by
  have hperm : (sortBy (fun a b => lexLe a.1 b.1) paths).Perm paths :=
    sortBy_perm _ paths
  refine glc_foldl_lookup scheme uuid _ [] p data ?_ ?_ ?_
  · exact hperm.mem_iff.mpr hmem
  · exact ((hperm.map Prod.fst).nodup_iff).mpr hnodup
  · intro q d hq
    exact hcoll q d (hperm.mem_iff.mp hq)

theorem isPrefixOf_append_self (l t : List Char) : l.isPrefixOf (l ++ t) = true := by
  rw [ List.isPrefixOf_iff_prefix]
  exact List.prefix_append l t

theorem replaceOnce_child (old new rest : Pathname) :
    replaceOnce old new (old ++ '/' :: rest) = new ++ '/' :: rest := by
  cases old with
  | nil => simp [replaceOnce]
  | cons o os =>
    show replaceOnce (o :: os) new (o :: (os ++ '/' :: rest)) = new ++ '/' :: rest
    rw [replaceOnce]
    rw [show o :: (os ++ '/' :: rest) = (o :: os) ++ '/' :: rest from rfl]
    rw [isPrefixOf_append_self]
    simp [List.drop_left]

theorem except_bind_ok {ε α β : Type} (x : Except ε α) (f : α → Except ε β) (b : β)
    (h : x >>= f = .ok b) : ∃ a, x = .ok a ∧ f a = .ok b := by
  cases x with
  | error e => exact absurd h (by simp [Bind.bind, Except.bind])
  | ok a => exact ⟨a, rfl, by simpa [Bind.bind, Except.bind] using h⟩

theorem touchParents_lookup_not_mem (revid : Revid) (p : Pathname) (l : List Pathname)
    (m m' : PathState) (k : Pathname) (h : touchParents revid p l m = .ok m')
    (hk : k ∉ l) : m' k = m k := by
  induction l generalizing m with
  | nil =>
    cases h
    rfl
  | cons a rest ih =>
    rw [touchParents] at h
    cases hma : m a with
    | none => rw [hma] at h; cases h
    | some e =>
      rw [hma] at h
      dsimp only at h
      by_cases he : e.2 = revid
      · rw [if_pos he] at h
        cases h
        rfl
      · rw [if_neg he] at h
        have hk2 : k ∉ rest := fun hx => hk (List.mem_cons_of_mem _ hx)
        rw [ih _ h hk2, upd]
        rw [if_neg (fun hek : k = a => hk (hek ▸ List.mem_cons_self _ _))]

theorem foldl_upd_skip {α : Type} (wkey : α → Pathname) (wval : α → Entry)
    (l : List α) (m : PathState) (key : Pathname)
    (h : ∀ c ∈ l, wkey c ≠ key) :
    (l.foldl (fun acc c => upd acc (wkey c) (wval c)) m) key = m key := by
  induction l generalizing m with
  | nil => rfl
  | cons c0 rest ih =>
    simp only [List.foldl_cons]
    rw [ih _ (fun c hc => h c (List.mem_cons_of_mem _ hc)), upd]
    rw [if_neg (fun he : key = wkey c0 => (h c0 (List.mem_cons_self _ _)) he.symm)]

theorem foldl_upd_lookup {α : Type} (wkey : α → Pathname) (wval : α → Entry)
    (l : List α) (m : PathState) (key : Pathname) (v : Entry)
    (hw : ∃ c ∈ l, wkey c = key)
    (hv : ∀ c ∈ l, wkey c = key → wval c = v) :
    (l.foldl (fun acc c => upd acc (wkey c) (wval c)) m) key = some v := by
  induction l generalizing m with
  | nil => rcases hw with ⟨c, hc, _⟩; cases hc
  | cons c0 rest ih =>
    simp only [List.foldl_cons]
    by_cases hrest : ∃ c ∈ rest, wkey c = key
    · exact ih _ hrest (fun c hc => hv c (List.mem_cons_of_mem _ hc))
    · rcases hw with ⟨c, hc, hck⟩
      have hc0 : wkey c0 = key := by
        rcases List.mem_cons.mp hc with rfl | hcr
        · exact hck
        · exact absurd ⟨c, hcr, hck⟩ hrest
      rw [foldl_upd_skip _ _ _ _ _ (fun x hx he => hrest ⟨x, hx, he⟩), upd]
      rw [if_pos hc0.symm, hv c0 (List.mem_cons_self _ _) hc0]

theorem splitSlash_ne_nil (p : Pathname) : splitSlash p ≠ [] := by
  cases p with
  | nil => intro h; simp [splitSlash] at h
  | cons c cs =>
    intro h
    rw [splitSlash] at h
    by_cases hc : c = '/'
    · rw [if_pos hc] at h; simp at h
    · rw [if_neg hc] at h
      cases hs : splitSlash cs with
      | nil => rw [hs] at h; simp at h
      | cons q qs => rw [hs] at h; simp at h

theorem joinSlash_cons_cons (c : Char) (q : Pathname) (qs : List Pathname) :
    joinSlash ((c :: q) :: qs) = c :: joinSlash (q :: qs) := by
  cases qs with
  | nil => rfl
  | cons r rs => rfl

theorem joinSlash_splitSlash (p : Pathname) : joinSlash (splitSlash p) = p := by
  induction p with
  | nil => rfl
  | cons c cs ih =>
    rw [splitSlash]
    by_cases hc : c = '/'
    · rw [if_pos hc]
      cases hs : splitSlash cs with
      | nil => exact absurd hs (splitSlash_ne_nil cs)
      | cons q qs =>
        rw [hs] at ih
        show joinSlash ([] :: q :: qs) = c :: cs
        rw [show joinSlash ([] :: q :: qs) = [] ++ '/' :: joinSlash (q :: qs) from rfl]
        rw [List.nil_append, ih, hc]
    · rw [if_neg hc]
      cases hs : splitSlash cs with
      | nil => exact absurd hs (splitSlash_ne_nil cs)
      | cons q qs =>
        rw [hs] at ih
        show joinSlash ((c :: q) :: qs) = c :: cs
        rw [joinSlash_cons_cons, ih]

theorem joinSlash_length (l : List Pathname) :
    (joinSlash l).length = (l.map List.length).sum + (l.length - 1) := by
  induction l with
  | nil => rfl
  | cons p ps ih =>
    cases ps with
    | nil => simp [joinSlash]
    | cons q qs =>
      rw [show joinSlash (p :: q :: qs) = p ++ '/' :: joinSlash (q :: qs) from rfl]
      simp only [List.length_append, List.length_cons, List.map_cons, List.sum_cons] at *
      omega

theorem joinSlash_take_length_le (l : List Pathname) (k : Nat) :
    (joinSlash (l.take k)).length ≤ (joinSlash l).length := by
  rw [joinSlash_length, joinSlash_length]
  have h1 : ((l.take k).map List.length).sum ≤ (l.map List.length).sum := by
    rw [List.map_take]
    exact List.Sublist.sum_le_sum (List.take_sublist k _) (fun a _ => Nat.zero_le a)
  have h2 : (l.take k).length ≤ l.length := by
    rw [List.length_take]
    omega
  omega

theorem ancestors_length_le (p a : Pathname) (h : a ∈ ancestors p) :
    a.length ≤ p.length := by
  simp only [ancestors, List.mem_map, List.mem_range] at h
  rcases h with ⟨i, _, rfl⟩
  calc (joinSlash ((splitSlash p).take ((splitSlash p).length - 1 - i))).length
      ≤ (joinSlash (splitSlash p)).length := joinSlash_take_length_le _ _
    _ = p.length := by rw [joinSlash_splitSlash]

theorem append_child_not_mem_ancestors (p rest : Pathname) :
    (p ++ '/' :: rest) ∉ ancestors p := by
  intro h
  have hle := ancestors_length_le p _ h
  simp [List.length_append] at hle

theorem applyOne_add_copy (fc : Pathname → Revid → List Pathname)
    (rn : Pathname → Option FileId) (revid : Revid) (m : PathState)
    (p src : Pathname) (srev : Revid) :
    applyOne fc rn revid m (p, ('A', some (src, srev))) =
      touchParents revid p (ancestors p)
        ((fc src srev).foldl
          (fun acc c => upd acc (replaceOnce src p c) (new_file_id rn revid c, revid))
          (upd m p (new_file_id rn revid p, revid))) := rfl

theorem applyOne_add_nocopy (fc : Pathname → Revid → List Pathname)
    (rn : Pathname → Option FileId) (revid : Revid) (m : PathState) (p : Pathname) :
    applyOne fc rn revid m (p, ('A', none)) =
      touchParents revid p (ancestors p)
        (upd m p (new_file_id rn revid p, revid)) := rfl

theorem applyList_singleton (fc : Pathname → Revid → List Pathname)
    (rn : Pathname → Option FileId) (revid : Revid) (x : Pathname × LocalChange)
    (m : PathState) : applyList fc rn revid [x] m = applyOne fc rn revid m x := by
  rw [applyList]
  cases h : applyOne fc rn revid m x with
  | error e => rfl
  | ok a => rfl

theorem apply_changes_singleton (fc : Pathname → Revid → List Pathname)
    (rn : Pathname → Option FileId) (revid : Revid) (x : Pathname × LocalChange)
    (m : PathState) : apply_changes fc rn revid [x] m = applyOne fc rn revid m x := by
  rw [apply_changes]
  exact applyList_singleton fc rn revid x m

/-- Claim C2: copy propagation.  For every state at revision r (each stored
file id was derived at a revision number at most r) containing a and a/x,
applying a changeset at revision r+1 that adds b with copy source a (the
child finder enumerating a/x among the descendants of a) succeeds and
yields b and b/x present, both last touched by the revision identifier of
r+1, with identifiers distinct from the identifiers of a and a/x. -/
theorem C2_copy_propagation (fc : Pathname → Revid → List Pathname)
    (m : PathState) (uuid : List Char) (bbr : Pathname) (r : Nat) (srev : Revid)
    (ida idax : FileId) (ta tax : Revid)
    (ha : m ['a'] = some (ida, ta))
    (hax : m ('a' :: '/' :: 'x' :: []) = some (idax, tax))
    (hbound : ∀ k e, m k = some e → e.1.revnum ≤ r)
    (hch : ('a' :: '/' :: 'x' :: []) ∈ fc ['a'] srev)
    (hform : ∀ c ∈ fc ['a'] srev, ∃ rest, c = 'a' :: '/' :: rest) :
    ∃ m', apply_changes fc (fun _ => none) (Revid.svn uuid bbr (r + 1))
        [(['b'], ('A', some (['a'], srev)))] m = .ok m' ∧
      m' ['b'] = some (generate_svn_file_id uuid (r + 1) bbr ['b'],
        Revid.svn uuid bbr (r + 1)) ∧
      m' ('b' :: '/' :: 'x' :: []) =
        some (generate_svn_file_id uuid (r + 1) bbr ('a' :: '/' :: 'x' :: []),
          Revid.svn uuid bbr (r + 1)) ∧
      generate_svn_file_id uuid (r + 1) bbr ['b'] ≠ ida ∧
      generate_svn_file_id uuid (r + 1) bbr ['b'] ≠ idax ∧
      generate_svn_file_id uuid (r + 1) bbr ('a' :: '/' :: 'x' :: []) ≠ ida ∧
      generate_svn_file_id uuid (r + 1) bbr ('a' :: '/' :: 'x' :: []) ≠ idax := by
  have hda : ida.revnum ≤ r := hbound _ _ ha
  have hdax : idax.revnum ≤ r := hbound _ _ hax
  have hskip : ∀ c ∈ fc ['a'] srev, replaceOnce ['a'] ['b'] c ≠ ['b'] := by
    intro c hc
    rcases hform c hc with ⟨rest, rfl⟩
    rw [show ('a' :: '/' :: rest : Pathname) = ['a'] ++ '/' :: rest from rfl]
    rw [replaceOnce_child]
    simp
  rw [apply_changes_singleton, applyOne_add_copy]
  rw [show ancestors ['b'] = [] from rfl, touchParents]
  refine ⟨_, rfl, ?_, ?_, ?_, ?_, ?_, ?_⟩
  · have h1 := foldl_upd_skip (fun c => replaceOnce ['a'] ['b'] c)
      (fun c => (new_file_id (fun _ => none) (Revid.svn uuid bbr (r + 1)) c,
        Revid.svn uuid bbr (r + 1)))
      (fc ['a'] srev)
      (upd m ['b'] (new_file_id (fun _ => none) (Revid.svn uuid bbr (r + 1)) ['b'],
        Revid.svn uuid bbr (r + 1)))
      ['b'] hskip
    refine h1.trans ?_
    rw [upd, if_pos rfl]
    rfl
  · have h2 := foldl_upd_lookup (fun c => replaceOnce ['a'] ['b'] c)
      (fun c => (new_file_id (fun _ => none) (Revid.svn uuid bbr (r + 1)) c,
        Revid.svn uuid bbr (r + 1)))
      (fc ['a'] srev)
      (upd m ['b'] (new_file_id (fun _ => none) (Revid.svn uuid bbr (r + 1)) ['b'],
        Revid.svn uuid bbr (r + 1)))
      ('b' :: '/' :: 'x' :: [])
      (generate_svn_file_id uuid (r + 1) bbr ('a' :: '/' :: 'x' :: []),
        Revid.svn uuid bbr (r + 1))
      ⟨('a' :: '/' :: 'x' :: []), hch, by decide⟩
      ?_
    · exact h2
    · intro c hc hck
      rcases hform c hc with ⟨rest, rfl⟩
      have hck2 : replaceOnce ['a'] ['b'] (['a'] ++ '/' :: rest) =
          ('b' :: '/' :: 'x' :: []) := hck
      rw [replaceOnce_child] at hck2
      have h3 := @List.append_cancel_left Char ['b'] ('/' :: rest) ('/' :: 'x' :: []) hck2
      injection h3 with h4 h5
      subst h5
      rfl
  · intro heq
    have hr : (generate_svn_file_id uuid (r + 1) bbr ['b']).revnum = ida.revnum := by
      rw [heq]
    simp [generate_svn_file_id] at hr
    omega
  · intro heq
    have hr : (generate_svn_file_id uuid (r + 1) bbr ['b']).revnum = idax.revnum := by
      rw [heq]
    simp [generate_svn_file_id] at hr
    omega
  · intro heq
    have hr : (generate_svn_file_id uuid (r + 1) bbr ('a' :: '/' :: 'x' :: [])).revnum
        = ida.revnum := by rw [heq]
    simp [generate_svn_file_id] at hr
    omega
  · intro heq
    have hr : (generate_svn_file_id uuid (r + 1) bbr ('a' :: '/' :: 'x' :: [])).revnum
        = idax.revnum := by rw [heq]
    simp [generate_svn_file_id] at hr
    omega

/-- Witness for claim C2 at a concrete two-entry state and one-revision
history. -/
theorem C2_copy_propagation_witness :
    ∃ m', apply_changes (fun _ _ => [('a' :: '/' :: 'x' :: [])]) (fun _ => none)
        (Revid.svn ['u'] [] 2)
        [(['b'], ('A', some (['a'], Revid.svn ['u'] [] 1)))]
        (upd (upd emptyState ['a']
            (generate_svn_file_id ['u'] 1 [] ['a'], Revid.svn ['u'] [] 1))
          ('a' :: '/' :: 'x' :: [])
          (generate_svn_file_id ['u'] 1 [] ('a' :: '/' :: 'x' :: []),
            Revid.svn ['u'] [] 1)) = .ok m' ∧
      m' ['b'] = some (generate_svn_file_id ['u'] 2 [] ['b'], Revid.svn ['u'] [] 2) ∧
      m' ('b' :: '/' :: 'x' :: []) =
        some (generate_svn_file_id ['u'] 2 [] ('a' :: '/' :: 'x' :: []),
          Revid.svn ['u'] [] 2) ∧
      generate_svn_file_id ['u'] 2 [] ['b'] ≠ generate_svn_file_id ['u'] 1 [] ['a'] ∧
      generate_svn_file_id ['u'] 2 [] ['b'] ≠
        generate_svn_file_id ['u'] 1 [] ('a' :: '/' :: 'x' :: []) ∧
      generate_svn_file_id ['u'] 2 [] ('a' :: '/' :: 'x' :: []) ≠
        generate_svn_file_id ['u'] 1 [] ['a'] ∧
      generate_svn_file_id ['u'] 2 [] ('a' :: '/' :: 'x' :: []) ≠
        generate_svn_file_id ['u'] 1 [] ('a' :: '/' :: 'x' :: []) := by
  refine C2_copy_propagation (fun _ _ => [('a' :: '/' :: 'x' :: [])]) _ ['u'] [] 1
    (Revid.svn ['u'] [] 1)
    (generate_svn_file_id ['u'] 1 [] ['a'])
    (generate_svn_file_id ['u'] 1 [] ('a' :: '/' :: 'x' :: []))
    (Revid.svn ['u'] [] 1) (Revid.svn ['u'] [] 1)
    (by decide) (by decide) ?_ (by simp) ?_
  · intro k e h
    simp only [upd, emptyState] at h
    split_ifs at h with h1 h2
    · injection h with h3
      subst h3
      decide
    · injection h with h3
      subst h3
      decide
  · intro c hc
    simp at hc
    subst hc
    exact ⟨['x'], rfl⟩

/-- Claim C10: during copy propagation, the identifier registered for a
propagated destination path (the source child with its source prefix
replaced by the destination) is derived from the current revision id and
the source child path, and the rename override table is consulted under
the source child path, not under the destination path. -/
theorem C10_copy_child_identifier (fc : Pathname → Revid → List Pathname)
    (rn : Pathname → Option FileId) (revid : Revid) (m m' : PathState)
    (p src rest : Pathname) (srev : Revid)
    (hform : ∀ c ∈ fc src srev, ∃ t, c = src ++ '/' :: t)
    (hch : (src ++ '/' :: rest) ∈ fc src srev)
    (hok : apply_changes fc rn revid [(p, ('A', some (src, srev)))] m = .ok m') :
    m' (p ++ '/' :: rest) = some (new_file_id rn revid (src ++ '/' :: rest), revid) := by
  rw [apply_changes_singleton, applyOne_add_copy] at hok
  have hnm := touchParents_lookup_not_mem _ _ _ _ _ _ hok
    (append_child_not_mem_ancestors p rest)
  rw [hnm]
  refine foldl_upd_lookup (fun c => replaceOnce src p c)
    (fun c => (new_file_id rn revid c, revid)) (fc src srev) _ _ _
    ⟨src ++ '/' :: rest, hch, replaceOnce_child src p rest⟩ ?_
  intro c hc hck
  rcases hform c hc with ⟨t, rfl⟩
  have hck2 : replaceOnce src p (src ++ '/' :: t) = (p ++ '/' :: rest) := hck
  rw [replaceOnce_child] at hck2
  have h3 := @List.append_cancel_left Char p ('/' :: t) ('/' :: rest) hck2
  injection h3 with h4 h5
  subst h5
  rfl

/-- Witness for claim C10: a rename override keyed by the source child path
is what the propagated destination receives. -/
theorem C10_copy_child_identifier_witness :
    ∃ m', apply_changes (fun _ _ => [('a' :: '/' :: 'x' :: [])])
        (fun q => if q = ('a' :: '/' :: 'x' :: [])
                  then some ⟨9, 9, ['z'], [], ['z']⟩ else none)
        (Revid.svn ['u'] [] 2)
        [(['b'], ('A', some (['a'], Revid.svn ['u'] [] 1)))] emptyState = .ok m' ∧
      m' ('b' :: '/' :: 'x' :: []) =
        some (⟨9, 9, ['z'], [], ['z']⟩, Revid.svn ['u'] [] 2) := by
  have hok := (apply_changes_singleton (fun _ _ => [('a' :: '/' :: 'x' :: [])])
      (fun q => if q = ('a' :: '/' :: 'x' :: [])
                then some ⟨9, 9, ['z'], [], ['z']⟩ else none)
      (Revid.svn ['u'] [] 2) (['b'], ('A', some (['a'], Revid.svn ['u'] [] 1)))
      emptyState).trans rfl
  refine ⟨_, hok, ?_⟩
  refine C10_copy_child_identifier _ _ _ _ _ ['b'] ['a'] ['x'] _ ?_ ?_ hok
  · intro c hc
    simp at hc
    subst hc
    exact ⟨['x'], rfl⟩
  · simp

/-- Claim C5: whole-branch copy normalization.  For a raw changeset entry
with a copy source whose stripped source and stripped destination both
resolve to the branch root, the normalizer emits a Modify of the root and
discards the copy source; for every other entry the action is preserved,
a present copy source is rewritten to (source local path, source revision
identifier), and an entry without a copy source keeps no copy source. -/
theorem C5_whole_branch_copy_normalization (scheme : Scheme) (uuid : List Char)
    (paths : List (Pathname × RawChange)) (p : Pathname) (data : RawChange)
    (hmem : (p, data) ∈ paths)
    (hnodup : (paths.map Prod.fst).Nodup)
    (hcoll : ∀ q d, (q, d) ∈ paths →
      (scheme.unprefix q).2 = (scheme.unprefix p).2 → q = p) :
    (∀ cr, data.2 = some cr →
      ((scheme.unprefix cr.1).2 = [] ∧ (scheme.unprefix p).2 = [] →
        lookupA (get_local_changes scheme uuid paths) (scheme.unprefix p).2 =
          some ('M', none)) ∧
      (¬ ((scheme.unprefix cr.1).2 = [] ∧ (scheme.unprefix p).2 = []) →
        lookupA (get_local_changes scheme uuid paths) (scheme.unprefix p).2 =
          some (data.1, some ((scheme.unprefix cr.1).2,
            generate_svn_revision_id uuid cr.2 (scheme.unprefix cr.1).1)))) ∧
    (data.2 = none →
      lookupA (get_local_changes scheme uuid paths) (scheme.unprefix p).2 =
        some (data.1, none)) := by
  have h := get_local_changes_lookup scheme uuid paths p data hmem hnodup hcoll
  refine ⟨?_, ?_⟩
  · intro cr hcr
    refine ⟨?_, ?_⟩
    · intro hroot
      rw [h]
      rcases data with ⟨a, o⟩
      cases hcr
      simp only [localizeChange]
      rw [if_pos ⟨hroot.1, hroot.2⟩]
    · intro hnroot
      rw [h]
      rcases data with ⟨a, o⟩
      cases hcr
      simp only [localizeChange]
      rw [if_neg hnroot]
  · intro hn
    rw [h]
    rcases data with ⟨a, o⟩
    cases hn
    rfl

/-- Witness for claim C5: a one-entry raw changeset performing a
whole-branch copy is rewritten to a Modify of the root. -/
theorem C5_whole_branch_copy_normalization_witness :
    lookupA (get_local_changes ⟨fun p => ([], p), fun _ => true⟩ ['u']
      [([], ('A', some (([] : Pathname), 5)))]) [] = some ('M', none) := by
  have h := C5_whole_branch_copy_normalization ⟨fun p => ([], p), fun _ => true⟩ ['u']
    [([], ('A', some (([] : Pathname), 5)))] [] ('A', some (([] : Pathname), 5))
    (by simp) (by simp) ?_
  · exact (h.1 ([], 5) rfl).1 ⟨rfl, rfl⟩
  · intro q d hq _
    simp at hq
    exact hq.1

/-- The todo list get_map accumulates when nothing is cached: one
(revision id, raw changeset) pair per walked history element, newest
first. -/
def todoOf (uuid : List Char)
    (hist : List (Pathname × List (Pathname × RawChange) × Nat)) :
    List (Revid × List (Pathname × RawChange)) :=
  hist.map (fun e => (generate_svn_revision_id uuid e.2.2 e.1, e.2.1))

/-- Full replay of a walked history suffix: fold it, oldest first, over
the genesis state. -/
def replayFrom (log : Log) (uuid : List Char)
    (rcb : Revid → Pathname → Option FileId)
    (hist : List (Pathname × List (Pathname × RawChange) × Nat)) :
    Except ConsistencyError PathState :=
  foldTodo log uuid rcb (todoOf uuid hist).reverse (genesisState log uuid)

/-- A cache holds only correctly computed snapshots for a walked history:
whatever rows it has for a walked revision id are either absent or denote
exactly the state that replaying the history up to and including that
revision produces. -/
def cacheCorrect (log : Log) (uuid : List Char)
    (rcb : Revid → Pathname → Option FileId) (cache : Cache)
    (hist : List (Pathname × List (Pathname × RawChange) × Nat)) : Prop :=
  ∀ l1 e l2, hist = l1 ++ e :: l2 →
    load cache (generate_svn_revision_id uuid e.2.2 e.1) = [] ∨
    ∃ ms, replayFrom log uuid rcb (e :: l2) = .ok ms ∧
      rowsToState (load cache (generate_svn_revision_id uuid e.2.2 e.1)) = ms

theorem foldTodo_append (log : Log) (uuid : List Char)
    (rcb : Revid → Pathname → Option FileId)
    (l1 l2 : List (Revid × List (Pathname × RawChange))) (m : PathState) :
    foldTodo log uuid rcb (l1 ++ l2) m =
      (foldTodo log uuid rcb l1 m).bind (foldTodo log uuid rcb l2) := by
  induction l1 generalizing m with
  | nil => rfl
  | cons e rest ih =>
    simp only [List.cons_append, foldTodo]
    cases h : apply_changes (findChildrenVia log) (rcb e.1) e.1
        (get_local_changes log.scheme uuid e.2) m with
    | error er => rfl
    | ok a => exact ih a

theorem load_emptyCache (revid : Revid) : load emptyCache revid = [] := rfl

theorem findCached_none (cache : Cache) (uuid : List Char)
    (hist : List (Pathname × List (Pathname × RawChange) × Nat))
    (h : ∀ e ∈ hist, load cache (generate_svn_revision_id uuid e.2.2 e.1) = []) :
    findCached cache uuid hist = (todoOf uuid hist, none) := by
  induction hist with
  | nil => rfl
  | cons e rest ih =>
    rw [findCached]
    simp only
    rw [h e (List.mem_cons_self _ _), if_pos rfl]
    rw [ih (fun x hx => h x (List.mem_cons_of_mem _ hx))]
    rfl

theorem findCached_cases (cache : Cache) (uuid : List Char)
    (hist : List (Pathname × List (Pathname × RawChange) × Nat)) :
    findCached cache uuid hist = (todoOf uuid hist, none) ∨
    ∃ l1 e l2, hist = l1 ++ e :: l2 ∧
      load cache (generate_svn_revision_id uuid e.2.2 e.1) ≠ [] ∧
      findCached cache uuid hist =
        (todoOf uuid l1, some (load cache (generate_svn_revision_id uuid e.2.2 e.1))) := by
  induction hist with
  | nil => left; rfl
  | cons e rest ih =>
    by_cases h : load cache (generate_svn_revision_id uuid e.2.2 e.1) = []
    · rcases ih with h2 | ⟨l1, e2, l2, hsp, hne, heq⟩
      · left
        rw [findCached]
        simp only
        rw [h, if_pos rfl, h2]
        rfl
      · right
        refine ⟨e :: l1, e2, l2, by rw [hsp]; rfl, hne, ?_⟩
        rw [findCached]
        simp only
        rw [h, if_pos rfl, heq]
        rfl
    · right
      refine ⟨[], e, rest, rfl, h, ?_⟩
      rw [findCached]
      simp only
      rw [if_neg h]
      rfl

theorem foldTodo_split (log : Log) (uuid : List Char)
    (rcb : Revid → Pathname → Option FileId)
    (l1 : List (Pathname × List (Pathname × RawChange) × Nat))
    (e : Pathname × List (Pathname × RawChange) × Nat)
    (l2 : List (Pathname × List (Pathname × RawChange) × Nat)) (ms : PathState)
    (hrep : replayFrom log uuid rcb (e :: l2) = .ok ms) :
    foldTodo log uuid rcb (todoOf uuid (l1 ++ e :: l2)).reverse (genesisState log uuid) =
      foldTodo log uuid rcb (todoOf uuid l1).reverse ms := by
  rw [show todoOf uuid (l1 ++ e :: l2) = todoOf uuid l1 ++ todoOf uuid (e :: l2) from
    List.map_append _ _ _]
  rw [List.reverse_append, foldTodo_append]
  rw [show foldTodo log uuid rcb (todoOf uuid (e :: l2)).reverse (genesisState log uuid) =
    replayFrom log uuid rcb (e :: l2) from rfl]
  rw [hrep]
  rfl

theorem getMapAux_cache_transparent (log : Log) (cache : Cache) (uuid : List Char)
    (rcb : Revid → Pathname → Option FileId)
    (hist : List (Pathname × List (Pathname × RawChange) × Nat))
    (hcorrect : cacheCorrect log uuid rcb cache hist) :
    getMapAux log cache false uuid rcb hist =
      getMapAux log emptyCache false uuid rcb hist := by
  rcases findCached_cases cache uuid hist with hwa | ⟨l1, e, l2, hsplit, hne, hwa⟩
  · have hcold := findCached_none emptyCache uuid hist (fun x _ => rfl)
    simp only [getMapAux]
    rw [hwa, hcold]
  · subst hsplit
    have hcold := findCached_none emptyCache uuid (l1 ++ e :: l2) (fun x _ => rfl)
    rcases hcorrect l1 e l2 rfl with hc | ⟨ms, hrep, hrows⟩
    · exact absurd hc hne
    simp only [getMapAux]
    rw [hwa, hcold]
    dsimp only
    rw [hrows]
    cases l1 with
    | nil =>
      rw [foldTodo_split log uuid rcb [] e l2 ms hrep]
      rfl
    | cons a as =>
      rw [foldTodo_split log uuid rcb (a :: as) e l2 ms hrep]
      rfl

/-- Claim C1: cache transparency.  For a fixed history, get_map with a
cache pre-warmed with any subset of correctly computed snapshots returns
the same result as get_map with an empty cache. -/
theorem C1_cache_transparency (log : Log) (cache : Cache) (uuid : List Char)
    (revnum : Nat) (branch : Pathname) (rcb : Revid → Pathname → Option FileId)
    (hcorrect : cacheCorrect log uuid rcb cache (log.follow_history branch revnum)) :
    get_map log cache false uuid revnum branch rcb =
      get_map log emptyCache false uuid revnum branch rcb := by
  simp only [get_map]
  by_cases h0 : revnum = 0
  · rw [if_pos h0, if_pos h0]
  · rw [if_neg h0, if_neg h0]
    exact getMapAux_cache_transparent log cache uuid rcb _ hcorrect

/-- A one-revision sample fixture: the identity branch scheme on the root
branch, a history whose single revision 1 adds the path a, and no
children anywhere. -/
def sampleScheme : Scheme := ⟨fun p => ([], p), fun _ => true⟩

def sampleLog : Log :=
  ⟨sampleScheme, fun _ _ => [([], [(['a'], ('A', none))], 1)], fun _ _ => []⟩

/-- A cache holding exactly the snapshot of sampleLog at revision 1. -/
def sampleCache : Cache :=
  [(Revid.svn ['u'] [] 1, ([], (generate_svn_file_id ['u'] 0 [] [], Revid.null))),
   (Revid.svn ['u'] [] 1,
     (['a'], (generate_svn_file_id ['u'] 1 [] ['a'], Revid.svn ['u'] [] 1)))]

theorem sampleCache_correct :
    cacheCorrect sampleLog ['u'] (fun _ _ => none) sampleCache
      (sampleLog.follow_history [] 1) := by
  intro l1 e l2 h
  cases l1 with
  | nil =>
    have h2 : e = ([], [(['a'], ('A', none))], 1) ∧
        l2 = ([] : List (Pathname × List (Pathname × RawChange) × Nat)) := by
      rw [List.nil_append] at h
      injection h with h3 h4
      exact ⟨h3.symm, h4.symm⟩
    rcases h2 with ⟨rfl, rfl⟩
    right
    exact ⟨_, rfl, rfl⟩
  | cons a as =>
    rw [show (a :: as) ++ e :: l2 = a :: (as ++ e :: l2) from rfl] at h
    injection h with h3 h4
    cases as with
    | nil => simp at h4
    | cons b bs => simp at h4

/-- Witness for claim C1: a concrete warm cache holding the correct
snapshot of the sample history gives the same get_map result as the empty
cache. -/
theorem C1_cache_transparency_witness :
    cacheCorrect sampleLog ['u'] (fun _ _ => none) sampleCache
      (sampleLog.follow_history [] 1) ∧
    get_map sampleLog sampleCache false ['u'] 1 [] (fun _ _ => none) =
      get_map sampleLog emptyCache false ['u'] 1 [] (fun _ _ => none) :=
  ⟨sampleCache_correct,
    C1_cache_transparency sampleLog sampleCache ['u'] 1 [] (fun _ _ => none)
      sampleCache_correct⟩

/-- Counterexample for claim C9 as stated: on the sample history the fold
completes (with a working save the map is returned), yet when the final
cache save fails the projection call itself fails with that error instead
of returning the PathState. -/
theorem C9_save_failure_counterexample :
    (∃ m, get_map sampleLog emptyCache false ['u'] 1 [] (fun _ _ => none) = .ok m) ∧
    get_map sampleLog emptyCache true ['u'] 1 [] (fun _ _ => none) =
      .error .cacheSaveFailed :=
  ⟨⟨_, rfl⟩, rfl⟩

/-- Claim C9 amended: a failure of the final cache save is fatal.  When
the walk leaves a nonempty todo list and the fold completes, a failing
save makes get_map fail with the save error; the computed PathState is
not returned (FileIdMap.save has no exception handling around it). -/
theorem C9_save_failure_propagates (log : Log) (cache : Cache) (uuid : List Char)
    (revnum : Nat) (branch : Pathname) (rcb : Revid → Pathname → Option FileId)
    (todo : List (Revid × List (Pathname × RawChange)))
    (t : Revid × List (Pathname × RawChange))
    (ts : List (Revid × List (Pathname × RawChange)))
    (hit : Option (List (Pathname × Entry))) (start m : PathState)
    (h0 : revnum ≠ 0)
    (hfc : findCached cache uuid (log.follow_history branch revnum) = (todo, hit))
    (htodo : todo = t :: ts)
    (hstart : start = (match hit with
      | some rows => rowsToState rows
      | none => genesisState log uuid))
    (hfold : foldTodo log uuid rcb todo.reverse start = .ok m) :
    get_map log cache true uuid revnum branch rcb = .error .cacheSaveFailed := by
  subst htodo
  simp only [get_map, if_neg h0, getMapAux]
  rw [hfc]
  dsimp only
  rw [show ((t :: ts : List (Revid × List (Pathname × RawChange))).isEmpty) = false from rfl]
  rw [if_neg Bool.false_ne_true]
  cases hit with
  | some rows =>
    have hstart2 : start = rowsToState rows := hstart
    dsimp only
    rw [← hstart2, hfold]
    rfl
  | none =>
    have hstart2 : start = genesisState log uuid := hstart
    dsimp only
    rw [← hstart2, hfold]
    rfl

/-- Witness for the amended claim C9 at the sample history. -/
theorem C9_save_failure_propagates_witness :
    get_map sampleLog emptyCache true ['u'] 1 [] (fun _ _ => none) =
      .error .cacheSaveFailed := by
  refine C9_save_failure_propagates sampleLog emptyCache ['u'] 1 [] (fun _ _ => none)
    [(Revid.svn ['u'] [] 1, [(['a'], ('A', none))])]
    (Revid.svn ['u'] [] 1, [(['a'], ('A', none))]) [] none
    (genesisState sampleLog ['u']) _ (by decide) rfl rfl rfl rfl

/-- Modelled from the spec: escape_svn_path of the missing repository
module escapes the path-reserved characters (the separators the revision
id encoding itself uses) reversibly; modelled as percent-escaping of the
separators dash, at, colon and of the escape character itself. -/
def escapeChar (c : Char) : List Char :=
  if c = '-' then ['%', '2', 'D']
  else if c = '@' then ['%', '4', '0']
  else if c = ':' then ['%', '3', 'A']
  else if c = '%' then ['%', '2', '5']
  else [c]

def escape_svn_path : Pathname → List Char
  | [] => []
  | c :: cs => escapeChar c ++ escape_svn_path cs

def unhexChar (h1 h2 : Char) : Char :=
  if h1 = '2' ∧ h2 = 'D' then '-'
  else if h1 = '4' ∧ h2 = '0' then '@'
  else if h1 = '3' ∧ h2 = 'A' then ':'
  else if h1 = '2' ∧ h2 = '5' then '%'
  else '?'

def unescape_svn_path : List Char → List Char
  | [] => []
  | c :: rest =>
    if c = '%' then
      match rest with
      | h1 :: h2 :: rest2 => unhexChar h1 h2 :: unescape_svn_path rest2
      | r => r
    else c :: unescape_svn_path rest

theorem unescape_hex (h1 h2 : Char) (rest : List Char) :
    unescape_svn_path ('%' :: h1 :: h2 :: rest) =
      unhexChar h1 h2 :: unescape_svn_path rest := by
  simp [unescape_svn_path]

theorem unescape_cons_ne (c : Char) (rest : List Char) (h : ¬ c = '%') :
    unescape_svn_path (c :: rest) = c :: unescape_svn_path rest := by
  cases rest with
  | nil => simp [unescape_svn_path, h]
  | cons a as =>
    cases as with
    | nil => simp [unescape_svn_path, h]
    | cons b bs => simp [unescape_svn_path, h]

theorem unescape_escape (p : Pathname) : unescape_svn_path (escape_svn_path p) = p := by
  induction p with
  | nil => rfl
  | cons c cs ih =>
    rw [escape_svn_path]
    by_cases h1 : c = '-'
    · subst h1
      rw [show escapeChar '-' ++ escape_svn_path cs =
        '%' :: '2' :: 'D' :: escape_svn_path cs from rfl]
      rw [unescape_hex, ih]
      rfl
    · by_cases h2 : c = '@'
      · subst h2
        rw [show escapeChar '@' ++ escape_svn_path cs =
          '%' :: '4' :: '0' :: escape_svn_path cs from rfl]
        rw [unescape_hex, ih]
        rfl
      · by_cases h3 : c = ':'
        · subst h3
          rw [show escapeChar ':' ++ escape_svn_path cs =
            '%' :: '3' :: 'A' :: escape_svn_path cs from rfl]
          rw [unescape_hex, ih]
          rfl
        · by_cases h4 : c = '%'
          · subst h4
            rw [show escapeChar '%' ++ escape_svn_path cs =
              '%' :: '2' :: '5' :: escape_svn_path cs from rfl]
            rw [unescape_hex, ih]
            rfl
          · rw [show escapeChar c = [c] from by
              rw [escapeChar, if_neg h1, if_neg h2, if_neg h3, if_neg h4]]
            rw [show ([c] : List Char) ++ escape_svn_path cs =
              c :: escape_svn_path cs from rfl]
            rw [unescape_cons_ne c _ h4, ih]

theorem escapeChar_no_sep (x : Char) :
    ∀ c ∈ escapeChar x, c ≠ '-' ∧ c ≠ '@' ∧ c ≠ ':' := by
  intro c hc
  rw [escapeChar] at hc
  split_ifs at hc with k1 k2 k3 k4
  · simp at hc
    rcases hc with rfl | rfl | rfl <;> exact ⟨by decide, by decide, by decide⟩
  · simp at hc
    rcases hc with rfl | rfl | rfl <;> exact ⟨by decide, by decide, by decide⟩
  · simp at hc
    rcases hc with rfl | rfl | rfl <;> exact ⟨by decide, by decide, by decide⟩
  · simp at hc
    rcases hc with rfl | rfl | rfl <;> exact ⟨by decide, by decide, by decide⟩
  · simp at hc
    subst hc
    exact ⟨k1, k2, k3⟩

theorem escape_no_sep (p : Pathname) :
    ∀ c ∈ escape_svn_path p, c ≠ '-' ∧ c ≠ '@' ∧ c ≠ ':' := by
  induction p with
  | nil => intro c hc; cases hc
  | cons x xs ih =>
    intro c hc
    rw [escape_svn_path] at hc
    rcases List.mem_append.mp hc with hl | hr
    · exact escapeChar_no_sep x c hl
    · exact ih c hr

def digitToChar : Nat → Char
  | 0 => '0'
  | 1 => '1'
  | 2 => '2'
  | 3 => '3'
  | 4 => '4'
  | 5 => '5'
  | 6 => '6'
  | 7 => '7'
  | 8 => '8'
  | 9 => '9'
  | _ => '?'

def charToDigit (c : Char) : Nat :=
  if c = '0' then 0 else if c = '1' then 1 else if c = '2' then 2
  else if c = '3' then 3 else if c = '4' then 4 else if c = '5' then 5
  else if c = '6' then 6 else if c = '7' then 7 else if c = '8' then 8
  else if c = '9' then 9 else 10

def isDigitChar (c : Char) : Bool :=
  c == '0' || c == '1' || c == '2' || c == '3' || c == '4' ||
  c == '5' || c == '6' || c == '7' || c == '8' || c == '9'

/-- Decimal rendering of a natural number. -/
def natToChars (n : Nat) : List Char :=
  if n = 0 then ['0'] else ((Nat.digits 10 n).map digitToChar).reverse

/-- Decimal parsing of a digit string. -/
def charsToNat (ds : List Char) : Nat :=
  Nat.ofDigits 10 (ds.reverse.map charToDigit)

theorem charToDigit_digitToChar (d : Nat) (h : d < 10) :
    charToDigit (digitToChar d) = d := by
  interval_cases d <;> rfl

theorem digitToChar_isDigit (d : Nat) (h : d < 10) :
    isDigitChar (digitToChar d) = true := by
  interval_cases d <;> rfl

theorem charsToNat_natToChars (n : Nat) : charsToNat (natToChars n) = n := by
  by_cases h : n = 0
  · subst h
    decide
  · rw [natToChars, if_neg h, charsToNat, List.reverse_reverse, List.map_map]
    have hmap : ∀ d ∈ Nat.digits 10 n, (charToDigit ∘ digitToChar) d = id d := by
      intro d hd
      exact charToDigit_digitToChar d (Nat.digits_lt_base (by norm_num) hd)
    rw [List.map_congr_left hmap, List.map_id, Nat.ofDigits_digits]

theorem natToChars_digits (n : Nat) : ∀ c ∈ natToChars n, isDigitChar c = true := by
  intro c hc
  rw [natToChars] at hc
  by_cases h : n = 0
  · rw [if_pos h] at hc
    simp at hc
    subst hc
    rfl
  · rw [if_neg h] at hc
    rw [List.mem_reverse, List.mem_map] at hc
    rcases hc with ⟨d, hd, rfl⟩
    exact digitToChar_isDigit d (Nat.digits_lt_base (by norm_num) hd)

/-- Take the leading run of decimal digits. -/
def spanDigits : List Char → List Char × List Char
  | [] => ([], [])
  | c :: cs =>
    if isDigitChar c then (c :: (spanDigits cs).1, (spanDigits cs).2)
    else ([], c :: cs)

theorem spanDigits_exact (ds : List Char) (s : Char) (t : List Char)
    (hds : ∀ c ∈ ds, isDigitChar c = true) (hs : isDigitChar s = false) :
    spanDigits (ds ++ s :: t) = (ds, s :: t) := by
  induction ds with
  | nil => simp [spanDigits, hs]
  | cons c cs ih =>
    rw [List.cons_append, spanDigits, if_pos (hds c (List.mem_cons_self _ _))]
    rw [ih (fun x hx => hds x (List.mem_cons_of_mem _ hx))]

def notDash (c : Char) : Bool := ! (c == '-')

/-- Split a string at its last dash: (part before, part after). -/
def splitLastDash (s : List Char) : Option (List Char × List Char) :=
  match s.reverse.dropWhile notDash with
  | [] => none
  | _ :: before => some (before.reverse, (s.reverse.takeWhile notDash).reverse)

theorem dropWhile_append_all (p : Char → Bool) (l1 l2 : List Char)
    (h : ∀ c ∈ l1, p c = true) :
    (l1 ++ l2).dropWhile p = l2.dropWhile p := by
  induction l1 with
  | nil => rfl
  | cons c cs ih =>
    rw [List.cons_append, List.dropWhile_cons, if_pos (h c (List.mem_cons_self _ _))]
    exact ih (fun x hx => h x (List.mem_cons_of_mem _ hx))

theorem takeWhile_append_all (p : Char → Bool) (l1 : List Char) (s : Char)
    (l2 : List Char) (h : ∀ c ∈ l1, p c = true) (hs : p s = false) :
    (l1 ++ s :: l2).takeWhile p = l1 := by
  induction l1 with
  | nil => simp [List.takeWhile_cons, hs]
  | cons c cs ih =>
    rw [List.cons_append, List.takeWhile_cons, if_pos (h c (List.mem_cons_self _ _))]
    rw [ih (fun x hx => h x (List.mem_cons_of_mem _ hx))]

theorem splitLastDash_exact (u esc : List Char) (h : ∀ c ∈ esc, ¬ c = '-') :
    splitLastDash (u ++ '-' :: esc) = some (u, esc) := by
  have hrev : (u ++ '-' :: esc).reverse = esc.reverse ++ '-' :: u.reverse := by
    rw [List.reverse_append, List.reverse_cons, List.append_assoc]
    rfl
  have hall : ∀ c ∈ esc.reverse, notDash c = true := by
    intro c hc
    have hne := h c (List.mem_reverse.mp hc)
    rw [notDash]
    simp [hne]
  rw [splitLastDash, hrev]
  rw [dropWhile_append_all notDash _ _ hall]
  rw [show List.dropWhile notDash ('-' :: u.reverse) = '-' :: u.reverse from by
    rw [List.dropWhile_cons]
    rfl]
  rw [takeWhile_append_all notDash _ _ _ hall (by rfl)]
  simp

/-- The codec failure for a string the decoder does not recognize. -/
inductive ParseError : Type
  | unrecognized
deriving DecidableEq, Repr

/-- Modelled from the spec: the wire form of a revision identifier of the
missing repository module codec is
svn-v(version):(revnum)@(repoId)-(escapedBranchPath); the spec documents
this shape, reversible escaping of the separators, versions 1 to 3 being
decodable, and ParseError on an unrecognized prefix. -/
def encode_revision_id (repoId : List Char) (branch : Pathname) (revnum : Nat)
    (version : Nat) : List Char :=
  ['s', 'v', 'n', '-', 'v'] ++ natToChars version ++ ':' :: natToChars revnum ++
    '@' :: repoId ++ '-' :: escape_svn_path branch

/-- Consume an expected literal character. -/
def expectChar (c : Char) : List Char → Option (List Char)
  | x :: rest => if x = c then some rest else none
  | [] => none

/-- Modelled from the spec: decoding after the version tag and colon: the
revision number up to the at sign, then the repository id up to the last
dash, then the escaped branch path. -/
def decodeAfterVersion (v : Nat) (r2 : List Char) :
    Except ParseError (List Char × Pathname × Nat × Nat) :=
  match expectChar '@' (spanDigits r2).2 with
  | some rest4 =>
    match splitLastDash rest4 with
    | some ue => .ok (ue.1, unescape_svn_path ue.2, charsToNat (spanDigits r2).1, v)
    | none => .error .unrecognized
  | none => .error .unrecognized

/-- Modelled from the spec: decoding after the literal svn-v tag: the
version number up to the colon, then the rest; versions 1 to 3 are the
supported generations. -/
def decodeAfterTag (r : List Char) :
    Except ParseError (List Char × Pathname × Nat × Nat) :=
  match expectChar ':' (spanDigits r).2 with
  | some rest2 =>
    if charsToNat (spanDigits r).1 = 1 ∨ charsToNat (spanDigits r).1 = 2 ∨
        charsToNat (spanDigits r).1 = 3 then
      decodeAfterVersion (charsToNat (spanDigits r).1) rest2
    else .error .unrecognized
  | none => .error .unrecognized

/-- Modelled from the spec: decode(string) of the revision identifier
codec; a string without the svn-v tag, or with an unsupported version, is
a ParseError. -/
def decode_revision_id (s : List Char) :
    Except ParseError (List Char × Pathname × Nat × Nat) :=
  if (['s', 'v', 'n', '-', 'v'] : List Char).isPrefixOf s then
    decodeAfterTag (s.drop 5)
  else .error .unrecognized

theorem decodeAfterVersion_exact (v revnum : Nat) (repoId : List Char)
    (branch : Pathname) :
    decodeAfterVersion v (natToChars revnum ++ '@' :: (repoId ++ '-' ::
      escape_svn_path branch)) = .ok (repoId, branch, revnum, v) := by
  have hspan := spanDigits_exact (natToChars revnum) '@'
    (repoId ++ '-' :: escape_svn_path branch) (natToChars_digits revnum) (by rfl)
  rw [decodeAfterVersion, hspan]
  dsimp only [expectChar]
  rw [if_pos rfl]
  dsimp only
  rw [splitLastDash_exact repoId (escape_svn_path branch)
    (fun c hc => (escape_no_sep branch c hc).1)]
  dsimp only
  rw [unescape_escape, charsToNat_natToChars]

theorem decodeAfterTag_exact (vnum : Nat) (rest2 : List Char) :
    decodeAfterTag (natToChars vnum ++ ':' :: rest2) =
      if charsToNat (natToChars vnum) = 1 ∨ charsToNat (natToChars vnum) = 2 ∨
          charsToNat (natToChars vnum) = 3 then
        decodeAfterVersion (charsToNat (natToChars vnum)) rest2
      else .error .unrecognized := by
  have hspan := spanDigits_exact (natToChars vnum) ':' rest2
    (natToChars_digits vnum) (by rfl)
  rw [decodeAfterTag, hspan]
  dsimp only [expectChar]
  rw [if_pos rfl]

/-- Claim C8: the revision identifier codec round trip.  For every
repository id, branch path and revision number and every supported
mapping version 1, 2 or 3, decoding the encoding returns exactly the
encoded tuple; and decoding any string that does not begin with the
version tag signals ParseError. -/
theorem C8_codec_round_trip :
    (∀ repoId branch revnum v, v = 1 ∨ v = 2 ∨ v = 3 →
      decode_revision_id (encode_revision_id repoId branch revnum v) =
        .ok (repoId, branch, revnum, v)) ∧
    (∀ s, (['s', 'v', 'n', '-', 'v'] : List Char).isPrefixOf s = false →
      decode_revision_id s = .error .unrecognized) := by
  constructor
  · intro repoId branch revnum v hv
    have hpre : (['s', 'v', 'n', '-', 'v'] : List Char).isPrefixOf
        (encode_revision_id repoId branch revnum v) = true := by
      rw [encode_revision_id]
      exact isPrefixOf_append_self _ _
    rw [decode_revision_id, if_pos hpre]
    have hdrop : (encode_revision_id repoId branch revnum v).drop 5 =
        natToChars v ++ ':' :: (natToChars revnum ++ '@' :: (repoId ++ '-' ::
          escape_svn_path branch)) := by
      rw [encode_revision_id]
      refine (List.drop_left (['s', 'v', 'n', '-', 'v'] : List Char)
        (natToChars v ++ ':' :: natToChars revnum ++ '@' :: repoId ++ '-' ::
          escape_svn_path branch)).trans ?_
      simp
    rw [hdrop, decodeAfterTag_exact]
    rw [charsToNat_natToChars]
    rw [if_pos hv]
    exact decodeAfterVersion_exact v revnum repoId branch
  · intro s hs
    rw [decode_revision_id, if_neg ?_]
    rw [hs]
    exact Bool.false_ne_true

/-- Witness for claim C8 at a concrete identifier for each supported
version, and at a concrete unrecognized string. -/
theorem C8_codec_round_trip_witness :
    (decode_revision_id (encode_revision_id ['u', '-', 'x'] ['t', '-', 'r'] 42 1) =
      .ok (['u', '-', 'x'], ['t', '-', 'r'], 42, 1)) ∧
    (decode_revision_id (encode_revision_id [] [] 0 2) = .ok ([], [], 0, 2)) ∧
    (decode_revision_id (encode_revision_id ['u'] ['b'] 7 3) =
      .ok (['u'], ['b'], 7, 3)) ∧
    decode_revision_id ['x', 'y'] = .error .unrecognized := by
  refine ⟨?_, ?_, ?_, ?_⟩
  · exact C8_codec_round_trip.1 ['u', '-', 'x'] ['t', '-', 'r'] 42 1 (by decide)
  · exact C8_codec_round_trip.1 [] [] 0 2 (by decide)
  · exact C8_codec_round_trip.1 ['u'] ['b'] 7 3 (by decide)
  · exact C8_codec_round_trip.2 ['x', 'y'] (by decide)

theorem lexLe_refl (a : Pathname) : lexLe a a = true := by
  induction a with
  | nil => rfl
  | cons x xs ih =>
    rw [lexLe]
    simp [ih]

theorem lexLe_total (a b : Pathname) : lexLe a b = true ∨ lexLe b a = true := by
  induction a generalizing b with
  | nil => left; rfl
  | cons x xs ih =>
    cases b with
    | nil => right; rfl
    | cons y ys =>
      rcases Nat.lt_trichotomy x.toNat y.toNat with h | h | h
      · left
        rw [lexLe, if_pos h]
      · rcases ih ys with h2 | h2
        · left
          rw [lexLe, if_neg (by omega), if_neg (by omega)]
          exact h2
        · right
          rw [lexLe, if_neg (by omega), if_neg (by omega)]
          exact h2
      · right
        rw [lexLe, if_pos h]

theorem lexLe_trans (a b c : Pathname) (h1 : lexLe a b = true)
    (h2 : lexLe b c = true) : lexLe a c = true := by
  induction a generalizing b c with
  | nil => rfl
  | cons x xs ih =>
    cases b with
    | nil => exact absurd h1 (by rw [lexLe]; simp)
    | cons y ys =>
      cases c with
      | nil => exact absurd h2 (by rw [lexLe]; simp)
      | cons z zs =>
        rw [lexLe] at h1 h2 ⊢
        by_cases hxy : x.toNat < y.toNat
        · by_cases hyz : y.toNat < z.toNat
          · rw [if_pos (by omega)]
          · rw [if_neg hyz] at h2
            by_cases hzy : z.toNat < y.toNat
            · rw [if_pos hzy] at h2
              cases h2
            · rw [if_neg hzy] at h2
              rw [if_pos (by omega)]
        · rw [if_neg hxy] at h1
          by_cases hyx : y.toNat < x.toNat
          · rw [if_pos hyx] at h1
            cases h1
          · rw [if_neg hyx] at h1
            by_cases hyz : y.toNat < z.toNat
            · rw [if_pos (by omega)]
            · rw [if_neg hyz] at h2
              by_cases hzy : z.toNat < y.toNat
              · rw [if_pos hzy] at h2
                cases h2
              · rw [if_neg hzy] at h2
                rw [if_neg (by omega), if_neg (by omega)]
                exact ih ys zs h1 h2

theorem lexLe_antisymm (a b : Pathname) (h1 : lexLe a b = true)
    (h2 : lexLe b a = true) : a = b := by
  induction a generalizing b with
  | nil =>
    cases b with
    | nil => rfl
    | cons y ys => exact absurd h2 (by rw [lexLe]; simp)
  | cons x xs ih =>
    cases b with
    | nil => exact absurd h1 (by rw [lexLe]; simp)
    | cons y ys =>
      rw [lexLe] at h1 h2
      by_cases hxy : x.toNat < y.toNat
      · rw [if_neg (by omega)] at h2
        rw [if_pos (by omega)] at h2
        cases h2
      · by_cases hyx : y.toNat < x.toNat
        · rw [if_neg (by omega), if_pos hyx] at h1
          cases h1
        · rw [if_neg hxy, if_neg hyx] at h1
          rw [if_neg hyx, if_neg hxy] at h2
          have hn : x.toNat = y.toNat := by omega
          have hchar : x = y := Char.ext (UInt32.ext hn)
          rw [hchar, ih ys h1 h2]

theorem lexLe_append (a t : Pathname) : lexLe a (a ++ t) = true := by
  induction a with
  | nil => rfl
  | cons x xs ih =>
    rw [List.cons_append, lexLe]
    simp [ih]

theorem insertBy_pairwise {α : Type} (le : α → α → Bool)
    (htrans : ∀ a b c, le a b = true → le b c = true → le a c = true)
    (htot : ∀ a b, le a b = true ∨ le b a = true) (x : α) (l : List α)
    (hl : l.Pairwise (fun a b => le a b = true)) :
    (insertBy le x l).Pairwise (fun a b => le a b = true) := by
  induction l with
  | nil => simp [insertBy]
  | cons y ys ih =>
    rw [List.pairwise_cons] at hl
    rw [insertBy]
    by_cases h : le x y
    · rw [if_pos h]
      rw [List.pairwise_cons]
      constructor
      · intro b hb
        rcases List.mem_cons.mp hb with rfl | hb2
        · exact h
        · exact htrans x y b h (hl.1 b hb2)
      · rw [List.pairwise_cons]
        exact hl
    · rw [if_neg h]
      have hyx : le y x = true := by
        rcases htot x y with h2 | h2
        · exact absurd h2 h
        · exact h2
      rw [List.pairwise_cons]
      constructor
      · intro b hb
        have hmem := (insertBy_perm le x ys).mem_iff.mp hb
        rcases List.mem_cons.mp hmem with rfl | hb2
        · exact hyx
        · exact hl.1 b hb2
      · exact ih hl.2

theorem sortBy_pairwise {α : Type} (le : α → α → Bool)
    (htrans : ∀ a b c, le a b = true → le b c = true → le a c = true)
    (htot : ∀ a b, le a b = true ∨ le b a = true) (l : List α) :
    (sortBy le l).Pairwise (fun a b => le a b = true) := by
  induction l with
  | nil => simp [sortBy]
  | cons x xs ih => exact insertBy_pairwise le htrans htot x (sortBy le xs) ih

theorem slashPrefix_comparable (a s b t : Pathname)
    (h : a ++ '/' :: s = b ++ '/' :: t) :
    a = b ∨ (∃ r, b = a ++ '/' :: r) ∨ (∃ r, a = b ++ '/' :: r) := by
  have ha : a <+: (a ++ '/' :: s) := List.prefix_append a _
  have hb : b <+: (a ++ '/' :: s) := by
    rw [h]
    exact List.prefix_append b _
  rcases List.prefix_or_prefix_of_prefix ha hb with hab | hba
  · rcases hab with ⟨u, hu⟩
    rw [← hu] at h
    rw [List.append_assoc] at h
    have h2 := List.append_cancel_left h
    cases u with
    | nil =>
      left
      rw [← hu, List.append_nil]
    | cons c u2 =>
      right; left
      rw [List.cons_append] at h2
      injection h2 with h3 h4
      exact ⟨u2, by rw [← hu, ← h3]⟩
  · rcases hba with ⟨u, hu⟩
    rw [← hu, List.append_assoc] at h
    have h2 := (List.append_cancel_left h).symm
    cases u with
    | nil =>
      left
      rw [← hu, List.append_nil]
    | cons c u2 =>
      right; right
      rw [List.cons_append] at h2
      injection h2 with h3 h4
      exact ⟨u2, by rw [← hu, ← h3]⟩

theorem joinSlash_cons_ne_nil (x : Pathname) (ys : List Pathname) (h : ys ≠ []) :
    joinSlash (x :: ys) = x ++ '/' :: joinSlash ys := by
  cases ys with
  | nil => exact absurd rfl h
  | cons r rs => rfl

theorem take_ne_nil (j : Nat) (l : List Pathname) (hj : 1 ≤ j) (hl : l ≠ []) :
    l.take j ≠ [] := by
  cases l with
  | nil => exact absurd rfl hl
  | cons x xs =>
    cases j with
    | zero => omega
    | succ j2 => simp

theorem joinSlash_take_slash (l : List Pathname) (k : Nat) (h1 : 1 ≤ k)
    (h2 : k < l.length) :
    ∃ r, joinSlash l = joinSlash (l.take k) ++ '/' :: r := by
  induction l generalizing k with
  | nil => simp at h2
  | cons x rest ih =>
    cases k with
    | zero => omega
    | succ j =>
      have hrest : rest ≠ [] := by
        intro hr
        rw [hr] at h2
        simp at h2
      by_cases hj0 : j = 0
      · subst hj0
        refine ⟨joinSlash rest, ?_⟩
        rw [joinSlash_cons_ne_nil x rest hrest]
        rw [show (x :: rest).take 1 = [x] from by simp]
        rfl
      · have hj1 : 1 ≤ j := by omega
        have hj2 : j < rest.length := by
          simp at h2
          omega
        obtain ⟨r, hr⟩ := ih j hj1 hj2
        refine ⟨r, ?_⟩
        rw [joinSlash_cons_ne_nil x rest hrest, hr]
        rw [show (x :: rest).take (j + 1) = x :: rest.take j from by simp]
        rw [joinSlash_cons_ne_nil x (rest.take j) (take_ne_nil j rest hj1 hrest)]
        simp

theorem joinSlash_take_mono (l : List Pathname) (k k2 : Nat) (h : k ≤ k2) :
    (joinSlash (l.take k)).length ≤ (joinSlash (l.take k2)).length := by
  have h2 := joinSlash_take_length_le (l.take k2) k
  rw [List.take_take, min_eq_left h] at h2
  exact h2

theorem splitSlash_slash_cons (t : Pathname) :
    splitSlash ('/' :: t) = [] :: splitSlash t := by
  rw [splitSlash, if_pos rfl]

theorem splitSlash_cons_ne (c : Char) (t : Pathname) (hc : ¬ c = '/')
    (q : Pathname) (qs : List Pathname) (h : splitSlash t = q :: qs) :
    splitSlash (c :: t) = (c :: q) :: qs := by
  rw [splitSlash, if_neg hc, h]

theorem slashPrefix_is_take (p t : Pathname) :
    ∃ k, 1 ≤ k ∧ k < (splitSlash (p ++ '/' :: t)).length ∧
      p = joinSlash ((splitSlash (p ++ '/' :: t)).take k) := by
  induction p with
  | nil =>
    rw [List.nil_append, splitSlash_slash_cons]
    refine ⟨1, le_refl 1, ?_, rfl⟩
    have := splitSlash_ne_nil t
    cases hs : splitSlash t with
    | nil => exact absurd hs this
    | cons q qs => simp [hs]
  | cons c cs ih =>
    obtain ⟨k, hk1, hk2, hkp⟩ := ih
    by_cases hc : c = '/'
    · subst hc
      rw [List.cons_append, splitSlash_slash_cons]
      refine ⟨k + 1, by omega, by simp; omega, ?_⟩
      rw [show (([] : Pathname) :: splitSlash (cs ++ '/' :: t)).take (k + 1) =
        [] :: (splitSlash (cs ++ '/' :: t)).take k from by simp]
      rw [joinSlash_cons_ne_nil [] _ (take_ne_nil k _ hk1 (splitSlash_ne_nil _))]
      rw [← hkp]
      rfl
    · cases hs : splitSlash (cs ++ '/' :: t) with
      | nil => exact absurd hs (splitSlash_ne_nil _)
      | cons q qs =>
        rw [List.cons_append, splitSlash_cons_ne c _ hc q qs hs]
        rw [hs] at hk2 hkp
        cases hk : k with
        | zero => omega
        | succ j =>
          refine ⟨k, hk1, by rw [hk]; simp; rw [hk] at hk2; simp at hk2; omega, ?_⟩
          rw [hk] at hkp ⊢
          rw [show ((c :: q) :: qs).take (j + 1) = (c :: q) :: qs.take j from by simp]
          rw [show (q :: qs).take (j + 1) = q :: qs.take j from by simp] at hkp
          rw [joinSlash_cons_cons]
          rw [← hkp]

theorem ancestors_mem_slash (q a : Pathname) (h : a ∈ ancestors q) :
    ∃ r, q = a ++ '/' :: r := by
  have hn : 0 < (splitSlash q).length := List.length_pos.mpr (splitSlash_ne_nil q)
  simp only [ancestors, List.mem_map, List.mem_range] at h
  rcases h with ⟨i, hi, rfl⟩
  obtain ⟨r, hr⟩ := joinSlash_take_slash (splitSlash q)
    ((splitSlash q).length - 1 - i) (by omega) (by omega)
  refine ⟨r, ?_⟩
  calc q = joinSlash (splitSlash q) := (joinSlash_splitSlash q).symm
    _ = _ := hr

theorem ancestors_head (q : Pathname) (h2 : 2 ≤ (splitSlash q).length) :
    ∃ rest, ancestors q =
      joinSlash ((splitSlash q).take ((splitSlash q).length - 1)) :: rest := by
  obtain ⟨k, hk⟩ : ∃ k, (splitSlash q).length - 1 = k + 1 :=
    ⟨(splitSlash q).length - 2, by omega⟩
  simp only [ancestors]
  rw [hk, List.range_succ_eq_map, List.map_cons]
  refine ⟨List.map (fun i => joinSlash (List.take (k + 1 - i) (splitSlash q)))
    (List.map Nat.succ (List.range k)), ?_⟩
  simp

theorem ancestors_child_head (p t : Pathname) :
    ∃ a1 rest, ancestors (p ++ '/' :: t) = a1 :: rest ∧
      (a1 = p ∨ ∃ r, a1 = p ++ '/' :: r) := by
  obtain ⟨k, hk1, hk2, hkp⟩ := slashPrefix_is_take p t
  have h2 : 2 ≤ (splitSlash (p ++ '/' :: t)).length := by omega
  obtain ⟨rest, hanc⟩ := ancestors_head (p ++ '/' :: t) h2
  refine ⟨_, rest, hanc, ?_⟩
  obtain ⟨r1, hr1⟩ := joinSlash_take_slash (splitSlash (p ++ '/' :: t))
    ((splitSlash (p ++ '/' :: t)).length - 1) (by omega) (by omega)
  have hq : joinSlash ((splitSlash (p ++ '/' :: t)).take
      ((splitSlash (p ++ '/' :: t)).length - 1)) ++ '/' :: r1 = p ++ '/' :: t := by
    rw [← hr1]
    exact joinSlash_splitSlash _
  rcases slashPrefix_comparable _ r1 p t hq with hc | hc | hc
  · left
    exact hc
  · exfalso
    rcases hc with ⟨r2, hr2⟩
    have hlen1 : p.length ≤ (joinSlash ((splitSlash (p ++ '/' :: t)).take
        ((splitSlash (p ++ '/' :: t)).length - 1))).length := by
      have he : p.length =
          (joinSlash ((splitSlash (p ++ '/' :: t)).take k)).length :=
        congrArg List.length hkp
      rw [he]
      exact joinSlash_take_mono (splitSlash (p ++ '/' :: t)) k
        ((splitSlash (p ++ '/' :: t)).length - 1) (by omega)
    have hl2 := congrArg List.length hr2
    simp only [List.length_append, List.length_cons] at hl2
    omega
  · right
    exact hc

/-- Membership in the subtree rooted at p: the path p itself or any path of
the form p + "/" + rest (the keys scrubbed by the delete pre-step). -/
def inSubtree (p q : Pathname) : Prop := q = p ∨ ∃ r, q = p ++ '/' :: r

/-- The state maps no key of the subtree rooted at p. -/
def subtreeFree (p : Pathname) (m : PathState) : Prop :=
  ∀ q, inSubtree p q → m q = none

theorem isPrefixOf_longer_false (l t : List Char) (h : t.length < l.length) :
    l.isPrefixOf t = false := by
  induction l generalizing t with
  | nil => simp at h
  | cons c cs ih =>
    cases t with
    | nil => rfl
    | cons d ds =>
      simp only [List.length_cons] at h
      show (c == d && cs.isPrefixOf ds) = false
      rw [ih ds (by omega)]
      simp

theorem delTree_del_subtreeFree (m : PathState) (p : Pathname) :
    subtreeFree p (delTree (del m p) p) := by
  intro k hk
  rcases hk with hk1 | ⟨w, hk1⟩
  · rw [hk1]
    have h1 : (p ++ ['/']).isPrefixOf p = false :=
      isPrefixOf_longer_false _ _ (by simp)
    simp [delTree, del, h1]
  · rw [hk1]
    have h1 : (p ++ ['/']).isPrefixOf (p ++ '/' :: w) = true := by
      have he : p ++ '/' :: w = (p ++ ['/']) ++ w := by simp
      rw [he]
      exact isPrefixOf_append_self _ _
    simp [delTree, h1]

theorem delTree_del_preserves_none (m : PathState) (x k : Pathname)
    (h : m k = none) : delTree (del m x) x k = none := by
  show (if (x ++ ['/']).isPrefixOf k then none else if k = x then none else m k) = none
  split_ifs <;> first | rfl | exact h

theorem upd_none_ne (m : PathState) (q k : Pathname) (v : Entry)
    (hne : k ≠ q) (h : m k = none) : upd m q v k = none := by
  show (if k = q then some v else m k) = none
  rw [if_neg hne]
  exact h

theorem touchParents_preserves_none (revid : Revid) (p0 : Pathname)
    (l : List Pathname) (m m' : PathState) (k : Pathname)
    (h : touchParents revid p0 l m = .ok m') (hk : m k = none) : m' k = none := by
  induction l generalizing m with
  | nil => cases h; exact hk
  | cons a rest ih =>
    rw [touchParents] at h
    cases hma : m a with
    | none => rw [hma] at h; cases h
    | some e =>
      rw [hma] at h
      dsimp only at h
      by_cases he : e.2 = revid
      · rw [if_pos he] at h
        cases h
        exact hk
      · rw [if_neg he] at h
        refine ih _ h ?_
        show (if k = a then some (e.1, revid) else m k) = none
        rw [if_neg ?_]
        · exact hk
        · intro hek
          rw [hek, hma] at hk
          cases hk

/-- applyOne written out as the three bound phases (pure unfolding). -/
theorem applyOne_eq (fc : Pathname → Revid → List Pathname)
    (rn : Pathname → Option FileId) (revid : Revid) (m : PathState)
    (q : Pathname) (data : LocalChange) :
    applyOne fc rn revid m (q, data) =
      ((if data.1 = 'D' ∨ data.1 = 'R' then
          match m q with
          | none => Except.error (ConsistencyError.deleteAbsent q)
          | some _ => Except.ok (delTree (del m q) q)
        else Except.ok m) >>= fun m1 =>
       (if data.1 = 'A' ∨ data.1 = 'R' then
          match data.2 with
          | none => Except.ok (upd m1 q (new_file_id rn revid q, revid))
          | some sr =>
            Except.ok ((fc sr.1 sr.2).foldl
              (fun acc c => upd acc (replaceOnce sr.1 q c)
                (new_file_id rn revid c, revid))
              (upd m1 q (new_file_id rn revid q, revid)))
        else if data.1 = 'M' then
          match m1 q with
          | none => Except.error (ConsistencyError.modifyAbsent q)
          | some e => Except.ok (upd m1 q (e.1, revid))
        else Except.ok m1) >>= fun m2 =>
       touchParents revid q (ancestors q) m2) := rfl

/-- A delete entry reduces to the scrub followed by the ancestor touch. -/
theorem applyOne_delete_eq (fc : Pathname → Revid → List Pathname)
    (rn : Pathname → Option FileId) (revid : Revid) (m : PathState)
    (p : Pathname) (cs : Option (Pathname × Revid)) :
    applyOne fc rn revid m (p, ('D', cs)) =
      (match m p with
       | none => Except.error (ConsistencyError.deleteAbsent p)
       | some _ => Except.ok (delTree (del m p) p)) >>= fun m1 =>
        touchParents revid p (ancestors p) m1 := rfl

/-- Keys of the whole subtree of p avoid the region written while processing
a change at a path q that is sorted at or after p yet outside p's subtree. -/
theorem subtree_outside_region (p q : Pathname) (hle : lexLe p q = true)
    (hnsub : ¬ inSubtree p q) (k : Pathname) (hk : inSubtree p k) :
    k ≠ q ∧ ∀ rest, k ≠ q ++ '/' :: rest := by
  have hqp : ∀ r, p ≠ q ++ '/' :: r := by
    intro r hpr
    have h2 : lexLe q p = true := by
      rw [hpr]
      exact lexLe_append q ('/' :: r)
    have h3 := lexLe_antisymm p q hle h2
    rw [h3] at hpr
    have hlen := congrArg List.length hpr
    rw [List.length_append, List.length_cons] at hlen
    omega
  constructor
  · intro hkq
    rw [hkq] at hk
    exact hnsub hk
  · intro rest hkr
    rcases hk with hk1 | ⟨w, hk1⟩
    · rw [hk1] at hkr
      exact hqp rest hkr
    · rw [hk1] at hkr
      rcases slashPrefix_comparable p w q rest hkr with h1 | ⟨r, h1⟩ | ⟨r, h1⟩
      · exact hnsub (Or.inl h1.symm)
      · exact hnsub (Or.inr ⟨r, h1⟩)
      · exact hqp r h1

/-- Processing a change at a path outside the subtree of p, sorted at or
after p, keeps the subtree of p unmapped. -/
theorem applyOne_preserves_subtreeFree (fc : Pathname → Revid → List Pathname)
    (rn : Pathname → Option FileId) (revid : Revid) (p q : Pathname)
    (data : LocalChange) (m m' : PathState)
    (hfc : ∀ s r c, c ∈ fc s r → ∃ rest, c = s ++ '/' :: rest)
    (hfree : subtreeFree p m) (hle : lexLe p q = true)
    (hnsub : ¬ inSubtree p q)
    (hok : applyOne fc rn revid m (q, data) = .ok m') :
    subtreeFree p m' := by
  intro k hk
  obtain ⟨hkq, hkr⟩ := subtree_outside_region p q hle hnsub k hk
  rw [applyOne_eq] at hok
  obtain ⟨m1, h1, hrest⟩ := except_bind_ok _ _ _ hok
  obtain ⟨m2, h2, h3⟩ := except_bind_ok _ _ _ hrest
  have hm1 : m1 k = none := by
    by_cases hact : data.1 = 'D' ∨ data.1 = 'R'
    · rw [if_pos hact] at h1
      cases hmq : m q with
      | none => rw [hmq] at h1; cases h1
      | some e =>
        rw [hmq] at h1
        cases h1
        exact delTree_del_preserves_none m q k (hfree k hk)
    · rw [if_neg hact] at h1
      cases h1
      exact hfree k hk
  have hm2 : m2 k = none := by
    by_cases hact2 : data.1 = 'A' ∨ data.1 = 'R'
    · rw [if_pos hact2] at h2
      cases hcs : data.2 with
      | none =>
        rw [hcs] at h2
        cases h2
        exact upd_none_ne m1 q k _ hkq hm1
      | some sr =>
        rw [hcs] at h2
        cases h2
        have hskip : ∀ c ∈ fc sr.1 sr.2,
            (fun c => replaceOnce sr.1 q c) c ≠ k := by
          intro c hc
          obtain ⟨rest, hce⟩ := hfc sr.1 sr.2 c hc
          show replaceOnce sr.1 q c ≠ k
          rw [hce, replaceOnce_child]
          exact fun he => (hkr rest) he.symm
        rw [foldl_upd_skip (fun c => replaceOnce sr.1 q c)
          (fun c => (new_file_id rn revid c, revid)) (fc sr.1 sr.2)
          (upd m1 q (new_file_id rn revid q, revid)) k hskip]
        exact upd_none_ne m1 q k _ hkq hm1
    · rw [if_neg hact2] at h2
      by_cases hact3 : data.1 = 'M'
      · rw [if_pos hact3] at h2
        cases hmq : m1 q with
        | none => rw [hmq] at h2; cases h2
        | some e =>
          rw [hmq] at h2
          cases h2
          exact upd_none_ne m1 q k _ hkq hm1
      · rw [if_neg hact3] at h2
        cases h2
        exact hm1
  exact touchParents_preserves_none revid q (ancestors q) m2 m' k h3 hm2

/-- A change at a path strictly inside an already scrubbed subtree cannot
succeed: delete/replace and modify fail on the absent key, and add fails
when the ancestor walk reaches the nearest parent, which is itself inside
the scrubbed subtree. -/
theorem applyOne_proper_subtree_absurd (fc : Pathname → Revid → List Pathname)
    (rn : Pathname → Option FileId) (revid : Revid) (p t : Pathname)
    (data : LocalChange) (m m' : PathState)
    (hfc : ∀ s r c, c ∈ fc s r → ∃ rest, c = s ++ '/' :: rest)
    (hfree : subtreeFree p m)
    (hok : applyOne fc rn revid m (p ++ '/' :: t, data) = .ok m') : False := by
  have hq : m (p ++ '/' :: t) = none := hfree _ (Or.inr ⟨t, rfl⟩)
  rw [applyOne_eq] at hok
  obtain ⟨m1, h1, hrest⟩ := except_bind_ok _ _ _ hok
  obtain ⟨m2, h2, h3⟩ := except_bind_ok _ _ _ hrest
  have hm1 : m1 = m := by
    by_cases hact : data.1 = 'D' ∨ data.1 = 'R'
    · rw [if_pos hact, hq] at h1
      cases h1
    · rw [if_neg hact] at h1
      cases h1
      rfl
  rw [hm1] at h2
  obtain ⟨a1, rest, hanc, ha1⟩ := ancestors_child_head p t
  have ha1free : m a1 = none := by
    rcases ha1 with h5 | ⟨r, h5⟩
    · rw [h5]; exact hfree p (Or.inl rfl)
    · rw [h5]; exact hfree _ (Or.inr ⟨r, rfl⟩)
  have ha1mem : a1 ∈ ancestors (p ++ '/' :: t) := by
    rw [hanc]; exact List.mem_cons_self _ _
  obtain ⟨w, hw⟩ := ancestors_mem_slash (p ++ '/' :: t) a1 ha1mem
  have ha1ne : a1 ≠ p ++ '/' :: t := by
    intro he
    rw [← he] at hw
    have hlen := congrArg List.length hw
    rw [List.length_append, List.length_cons] at hlen
    omega
  have hm2a1 : m2 a1 = none := by
    by_cases hact2 : data.1 = 'A' ∨ data.1 = 'R'
    · rw [if_pos hact2] at h2
      cases hcs : data.2 with
      | none =>
        rw [hcs] at h2
        cases h2
        exact upd_none_ne m _ a1 _ ha1ne ha1free
      | some sr =>
        rw [hcs] at h2
        cases h2
        have hskip : ∀ c ∈ fc sr.1 sr.2,
            (fun c => replaceOnce sr.1 (p ++ '/' :: t) c) c ≠ a1 := by
          intro c hc
          obtain ⟨r2, hce⟩ := hfc sr.1 sr.2 c hc
          show replaceOnce sr.1 (p ++ '/' :: t) c ≠ a1
          rw [hce, replaceOnce_child]
          intro he
          rw [← he] at hw
          have hlen := congrArg List.length hw
          simp only [List.length_append, List.length_cons] at hlen
          omega
        rw [foldl_upd_skip (fun c => replaceOnce sr.1 (p ++ '/' :: t) c)
          (fun c => (new_file_id rn revid c, revid)) (fc sr.1 sr.2)
          (upd m (p ++ '/' :: t) (new_file_id rn revid (p ++ '/' :: t), revid))
          a1 hskip]
        exact upd_none_ne m _ a1 _ ha1ne ha1free
    · rw [if_neg hact2] at h2
      by_cases hact3 : data.1 = 'M'
      · rw [if_pos hact3, hq] at h2
        cases h2
      · rw [if_neg hact3] at h2
        cases h2
        exact ha1free
  rw [hanc, touchParents, hm2a1] at h3
  cases h3

theorem applyList_append_ok (fc : Pathname → Revid → List Pathname)
    (rn : Pathname → Option FileId) (revid : Revid)
    (l1 l2 : List (Pathname × LocalChange)) (m mf : PathState)
    (h : applyList fc rn revid (l1 ++ l2) m = .ok mf) :
    ∃ mid, applyList fc rn revid l1 m = .ok mid ∧
      applyList fc rn revid l2 mid = .ok mf := by
  induction l1 generalizing m with
  | nil => exact ⟨m, rfl, h⟩
  | cons x xs ih =>
    rw [List.cons_append, applyList] at h
    obtain ⟨m1, h1, h2⟩ := except_bind_ok _ _ _ h
    obtain ⟨mid, h3, h4⟩ := ih m1 h2
    refine ⟨mid, ?_, h4⟩
    rw [applyList, h1]
    exact h3

/-- Once the subtree of p is unmapped, processing any tail of changes whose
paths are sorted at or after p (and differ from p) either fails or keeps
the subtree of p unmapped. -/
theorem applyList_subtreeFree (fc : Pathname → Revid → List Pathname)
    (rn : Pathname → Option FileId) (revid : Revid) (p : Pathname)
    (hfc : ∀ s r c, c ∈ fc s r → ∃ rest, c = s ++ '/' :: rest) :
    ∀ (l : List (Pathname × LocalChange)) (m mf : PathState),
      subtreeFree p m →
      (∀ y ∈ l, lexLe p y.1 = true ∧ y.1 ≠ p) →
      applyList fc rn revid l m = .ok mf → subtreeFree p mf := by
  intro l
  induction l with
  | nil =>
    intro m mf hfree _ h
    cases h
    exact hfree
  | cons x xs ih =>
    intro m mf hfree hcond h
    rw [applyList] at h
    obtain ⟨m1, h1, h2⟩ := except_bind_ok _ _ _ h
    by_cases hsub : inSubtree p x.1
    · rcases hsub with hx | ⟨t, hx⟩
      · exact absurd hx (hcond x (List.mem_cons_self _ _)).2
      · exfalso
        have h1b : applyOne fc rn revid m (p ++ '/' :: t, x.2) = .ok m1 := by
          rw [← hx]
          exact h1
        exact applyOne_proper_subtree_absurd fc rn revid p t x.2 m m1 hfc hfree h1b
    · have hfree1 : subtreeFree p m1 :=
        applyOne_preserves_subtreeFree fc rn revid p x.1 x.2 m m1 hfc hfree
          (hcond x (List.mem_cons_self _ _)).1 hsub h1
      exact ih m1 mf hfree1 (fun y hy => hcond y (List.mem_cons_of_mem _ hy)) h2

/-- Claim C3: prefix deletion.  If the changeset contains a Delete of path p
(dict keys being distinct, and the child finder only returning descendants
of the copy source) and apply_changes succeeds, then the resulting state
maps neither p nor any key starting with p followed by "/". -/
theorem C3_prefix_deletion (fc : Pathname → Revid → List Pathname)
    (rn : Pathname → Option FileId) (revid : Revid)
    (changes : List (Pathname × LocalChange)) (m mf : PathState)
    (p : Pathname) (cs : Option (Pathname × Revid))
    (hfc : ∀ s r c, c ∈ fc s r → ∃ rest, c = s ++ '/' :: rest)
    (hmem : (p, ('D', cs)) ∈ changes)
    (hnodup : (changes.map Prod.fst).Nodup)
    (hok : apply_changes fc rn revid changes m = .ok mf) :
    subtreeFree p mf := by
  rw [apply_changes] at hok
  have hmemS : (p, ('D', cs)) ∈ sortBy (fun a b => lexLe a.1 b.1) changes :=
    (sortBy_perm (fun a b => lexLe a.1 b.1) changes).mem_iff.mpr hmem
  obtain ⟨l1, l2, hsplit⟩ := List.append_of_mem hmemS
  have hpwS := sortBy_pairwise (fun a b => lexLe a.1 b.1)
    (fun a b c h1 h2 => lexLe_trans a.1 b.1 c.1 h1 h2)
    (fun a b => lexLe_total a.1 b.1) changes
  have hndS : ((sortBy (fun a b => lexLe a.1 b.1) changes).map Prod.fst).Nodup :=
    (((sortBy_perm (fun a b => lexLe a.1 b.1) changes).map Prod.fst).nodup_iff).mpr hnodup
  rw [hsplit] at hok hpwS hndS
  obtain ⟨mid, hA, hB⟩ :=
    applyList_append_ok fc rn revid l1 ((p, ('D', cs)) :: l2) m mf hok
  rw [applyList] at hB
  obtain ⟨mid2, hD, hrest⟩ := except_bind_ok _ _ _ hB
  rw [applyOne_delete_eq] at hD
  cases hmp : mid p with
  | none =>
    rw [hmp] at hD
    cases hD
  | some e =>
    rw [hmp] at hD
    have hD2 : touchParents revid p (ancestors p) (delTree (del mid p) p)
        = .ok mid2 := hD
    have hfree2 : subtreeFree p mid2 := fun k hk =>
      touchParents_preserves_none revid p (ancestors p) _ mid2 k hD2
        (delTree_del_subtreeFree mid p k hk)
    have hcond : ∀ y ∈ l2, lexLe p y.1 = true ∧ y.1 ≠ p := by
      intro y hy
      constructor
      · have h5 := (List.pairwise_append.mp hpwS).2.1
        rw [List.pairwise_cons] at h5
        exact h5.1 y hy
      · intro he
        rw [List.map_append, List.map_cons] at hndS
        have h6 := hndS.of_append_right
        rw [List.nodup_cons] at h6
        have h7 : y.1 ∈ l2.map Prod.fst := List.mem_map_of_mem Prod.fst hy
        rw [he] at h7
        exact h6.1 h7
    exact applyList_subtreeFree fc rn revid p hfc l2 mid2 mf hfree2 hcond hrest

def c3state : PathState := fun q =>
  if q = ['a'] then some (generate_svn_file_id ['u'] 1 [] ['a'], Revid.null)
  else if q = ('a' :: '/' :: 'x' :: []) then
    some (generate_svn_file_id ['u'] 1 [] ('a' :: '/' :: 'x' :: []), Revid.null)
  else none

def c3changes : List (Pathname × LocalChange) :=
  [(['a'], ('D', none))]

def c3result : PathState := delTree (del c3state ['a']) ['a']

/-- Witness for C3: deleting "a" from a state holding "a" and "a/x" succeeds
and the result maps neither key. -/
theorem C3_prefix_deletion_witness :
    apply_changes (fun _ _ => []) (fun _ => none) (Revid.svn ['u'] [] 2)
      c3changes c3state = .ok c3result ∧
    c3result ('a' :: '/' :: 'x' :: []) = none ∧
    c3result ['a'] = none := by
  refine ⟨rfl, ?_, ?_⟩
  · exact C3_prefix_deletion (fun _ _ => []) (fun _ => none) (Revid.svn ['u'] [] 2)
      c3changes c3state c3result ['a'] none
      (fun s r c hc => absurd hc (List.not_mem_nil c))
      (by decide) (by decide) rfl
      ('a' :: '/' :: 'x' :: []) (Or.inr ⟨['x'], rfl⟩)
  · exact C3_prefix_deletion (fun _ _ => []) (fun _ => none) (Revid.svn ['u'] [] 2)
      c3changes c3state c3result ['a'] none
      (fun s r c hc => absurd hc (List.not_mem_nil c))
      (by decide) (by decide) rfl
      ['a'] (Or.inl rfl)

theorem splitSlash_single (x : Pathname) (hx : '/' ∉ x) : splitSlash x = [x] := by
  induction x with
  | nil => rfl
  | cons c cs ih =>
    have hc : ¬ c = '/' := fun he => hx (by rw [← he]; exact List.mem_cons_self _ _)
    have ih2 := ih (fun hm => hx (List.mem_cons_of_mem _ hm))
    rw [splitSlash_cons_ne c cs hc cs [] ih2]

theorem splitSlash_append (a b : Pathname) :
    splitSlash (a ++ '/' :: b) = splitSlash a ++ splitSlash b := by
  induction a with
  | nil => rw [List.nil_append, splitSlash_slash_cons]; rfl
  | cons c cs ih =>
    by_cases hc : c = '/'
    · subst hc
      rw [List.cons_append, splitSlash_slash_cons, ih, splitSlash_slash_cons]
      rfl
    · cases hs : splitSlash cs with
      | nil => exact absurd hs (splitSlash_ne_nil cs)
      | cons q qs =>
        rw [List.cons_append]
        rw [splitSlash_cons_ne c (cs ++ '/' :: b) hc q (qs ++ splitSlash b)
          (by rw [ih, hs]; rfl)]
        rw [splitSlash_cons_ne c cs hc q qs hs]
        rfl

/-- Every pathname is slash-free or splits off a slash-free last component. -/
theorem pathname_decomp_last (q : Pathname) :
    ('/' ∉ q) ∨ ∃ q1 t, q = q1 ++ '/' :: t ∧ '/' ∉ t := by
  induction q with
  | nil => left; simp
  | cons c cs ih =>
    rcases ih with hfree | ⟨q1, t, hsplit, hfree2⟩
    · by_cases hc : c = '/'
      · right
        exact ⟨[], cs, by rw [hc]; rfl, hfree⟩
      · left
        intro hm
        rcases List.mem_cons.mp hm with he | he
        · exact hc he.symm
        · exact hfree he
    · right
      exact ⟨c :: q1, t, by rw [hsplit]; rfl, hfree2⟩

theorem ancestors_single (t : Pathname) (ht : '/' ∉ t) : ancestors t = [] := by
  simp [ancestors, splitSlash_single t ht]

theorem ancestors_append_single (q t : Pathname) (ht : '/' ∉ t) :
    ancestors (q ++ '/' :: t) = q :: ancestors q := by
  have hps : splitSlash (q ++ '/' :: t) = splitSlash q ++ [t] := by
    rw [splitSlash_append, splitSlash_single t ht]
  have hlen : (splitSlash q ++ [t]).length = (splitSlash q).length + 1 := by simp
  obtain ⟨a, ha⟩ : ∃ a, (splitSlash q).length = a + 1 := by
    have := List.length_pos.mpr (splitSlash_ne_nil q)
    exact ⟨(splitSlash q).length - 1, by omega⟩
  simp only [ancestors, hps, hlen]
  rw [show (splitSlash q).length + 1 - 1 = (splitSlash q).length from by omega]
  rw [ha, List.range_succ_eq_map, List.map_cons]
  refine List.cons_eq_cons.mpr ⟨?_, ?_⟩
  · rw [show a + 1 - 0 = (splitSlash q).length from by omega, List.take_left,
      joinSlash_splitSlash]
  · rw [List.map_map, show a + 1 - 1 = a from by omega]
    refine List.map_eq_map_iff.mpr ?_
    intro i hi
    simp only [Function.comp]
    rw [show a + 1 - Nat.succ i = a - i from by omega]
    rw [List.take_append_of_le_length (by omega : a - i ≤ (splitSlash q).length)]

theorem ancestors_mem_classify_aux : ∀ (n : Nat) (t : Pathname), t.length ≤ n →
    ∀ (q a : Pathname), a ∈ ancestors (q ++ '/' :: t) →
    (∃ u ∈ ancestors t, a = q ++ '/' :: u) ∨ a = q ∨ a ∈ ancestors q := by
  intro n
  induction n with
  | zero =>
    intro t ht q a ha
    have ht0 : t = [] := List.length_eq_zero.mp (Nat.le_zero.mp ht)
    subst ht0
    rw [ancestors_append_single q [] (by simp)] at ha
    rcases List.mem_cons.mp ha with h | h
    · exact Or.inr (Or.inl h)
    · exact Or.inr (Or.inr h)
  | succ n ih =>
    intro t ht q a ha
    rcases pathname_decomp_last t with hfree | ⟨t1, t2, hsplit, hfree2⟩
    · rw [ancestors_append_single q t hfree] at ha
      rcases List.mem_cons.mp ha with h | h
      · exact Or.inr (Or.inl h)
      · exact Or.inr (Or.inr h)
    · subst hsplit
      rw [show q ++ '/' :: (t1 ++ '/' :: t2) = (q ++ '/' :: t1) ++ '/' :: t2 from
        by simp] at ha
      rw [ancestors_append_single _ t2 hfree2] at ha
      rcases List.mem_cons.mp ha with h | h
      · refine Or.inl ⟨t1, ?_, h⟩
        rw [ancestors_append_single t1 t2 hfree2]
        exact List.mem_cons_self _ _
      · have ht1 : t1.length ≤ n := by
          simp only [List.length_append, List.length_cons] at ht
          omega
        rcases ih t1 ht1 q a h with ⟨u, hu, hau⟩ | h2 | h2
        · refine Or.inl ⟨u, ?_, hau⟩
          rw [ancestors_append_single t1 t2 hfree2]
          exact List.mem_cons_of_mem _ hu
        · exact Or.inr (Or.inl h2)
        · exact Or.inr (Or.inr h2)

theorem ancestors_mem_classify (q t a : Pathname) (ha : a ∈ ancestors (q ++ '/' :: t)) :
    (∃ u ∈ ancestors t, a = q ++ '/' :: u) ∨ a = q ∨ a ∈ ancestors q :=
  ancestors_mem_classify_aux t.length t (le_refl _) q a ha

theorem ancestors_decomp_aux : ∀ (n : Nat) (q : Pathname), q.length ≤ n →
    ∀ (l1 : List Pathname) (a : Pathname) (l2 : List Pathname),
    ancestors q = l1 ++ a :: l2 → ancestors a = l2 := by
  intro n
  induction n with
  | zero =>
    intro q hq l1 a l2 h
    have hq0 : q = [] := List.length_eq_zero.mp (Nat.le_zero.mp hq)
    subst hq0
    rw [show ancestors [] = [] from rfl] at h
    exact absurd h.symm (by simp)
  | succ n ih =>
    intro q hq l1 a l2 h
    rcases pathname_decomp_last q with hfree | ⟨q1, t, hsplit, hfree2⟩
    · rw [ancestors_single q hfree] at h
      exact absurd h.symm (by simp)
    · subst hsplit
      rw [ancestors_append_single q1 t hfree2] at h
      cases l1 with
      | nil =>
        rw [List.nil_append] at h
        injection h with h1 h2
        rw [← h1]
        exact h2
      | cons x l1b =>
        rw [List.cons_append] at h
        injection h with h1 h2
        have hq1 : q1.length ≤ n := by
          simp only [List.length_append, List.length_cons] at hq
          omega
        exact ih q1 hq1 l1b a l2 h2

theorem ancestors_decomp (q : Pathname) (l1 : List Pathname) (a : Pathname)
    (l2 : List Pathname) (h : ancestors q = l1 ++ a :: l2) : ancestors a = l2 :=
  ancestors_decomp_aux q.length q (le_refl _) l1 a l2 h

theorem ancestors_nodup_aux : ∀ (n : Nat) (q : Pathname), q.length ≤ n →
    (ancestors q).Nodup := by
  intro n
  induction n with
  | zero =>
    intro q hq
    have hq0 : q = [] := List.length_eq_zero.mp (Nat.le_zero.mp hq)
    subst hq0
    rw [show ancestors [] = [] from rfl]
    exact List.nodup_nil
  | succ n ih =>
    intro q hq
    rcases pathname_decomp_last q with hfree | ⟨q1, t, hsplit, hfree2⟩
    · rw [ancestors_single q hfree]
      exact List.nodup_nil
    · subst hsplit
      rw [ancestors_append_single q1 t hfree2]
      rw [List.nodup_cons]
      constructor
      · intro hmem
        obtain ⟨r, hr⟩ := ancestors_mem_slash q1 q1 hmem
        have := congrArg List.length hr
        simp [List.length_append] at this
      · have hq1 : q1.length ≤ n := by
          simp only [List.length_append, List.length_cons] at hq
          omega
        exact ih q1 hq1

theorem ancestors_nodup (q : Pathname) : (ancestors q).Nodup :=
  ancestors_nodup_aux q.length q (le_refl _)

theorem isPrefixOf_exists_suffix (l t : List Char) (h : l.isPrefixOf t = true) :
    ∃ r, t = l ++ r := by
  induction l generalizing t with
  | nil => exact ⟨t, rfl⟩
  | cons c cs ih =>
    cases t with
    | nil => exact Bool.noConfusion h
    | cons d ds =>
      have h2 : (c == d && cs.isPrefixOf ds) = true := h
      rw [Bool.and_eq_true] at h2
      obtain ⟨r, hr⟩ := ih ds h2.2
      have hcd : c = d := beq_iff_eq.mp h2.1
      exact ⟨r, by rw [List.cons_append, hcd, ← hr]⟩

theorem delTree_del_outside (m : PathState) (q k : Pathname)
    (h1 : k ≠ q) (h2 : ∀ r, k ≠ q ++ '/' :: r) :
    delTree (del m q) q k = m k := by
  show (if (q ++ ['/']).isPrefixOf k then none else if k = q then none else m k) = m k
  rw [if_neg ?hpre, if_neg h1]
  case hpre =>
    intro hp
    obtain ⟨r, hr⟩ := isPrefixOf_exists_suffix (q ++ ['/']) k hp
    exact h2 r (hr.trans (by simp))

theorem ancestors_mem_ne_self (q a : Pathname) (h : a ∈ ancestors q) : a ≠ q := by
  obtain ⟨r, hr⟩ := ancestors_mem_slash q a h
  intro he
  rw [he] at hr
  have hl := congrArg List.length hr
  simp only [List.length_append, List.length_cons] at hl
  omega

theorem ancestors_mem_not_subtree (q a : Pathname) (h : a ∈ ancestors q) :
    ∀ r, a ≠ q ++ '/' :: r := by
  intro r he
  obtain ⟨w, hw⟩ := ancestors_mem_slash q a h
  rw [he] at hw
  have hl := congrArg List.length hw
  simp only [List.length_append, List.length_cons] at hl
  omega

theorem foldl_upd_cases {α : Type} (wkey : α → Pathname) (wval : α → Entry)
    (l : List α) (m : PathState) (k : Pathname) :
    (l.foldl (fun acc c => upd acc (wkey c) (wval c)) m) k = m k ∨
      ∃ c ∈ l, wkey c = k ∧
        (l.foldl (fun acc c => upd acc (wkey c) (wval c)) m) k = some (wval c) := by
  induction l generalizing m with
  | nil => exact Or.inl rfl
  | cons c0 rest ih =>
    simp only [List.foldl_cons]
    rcases ih (upd m (wkey c0) (wval c0)) with h | ⟨c, hc, hck, hcv⟩
    · by_cases hk0 : k = wkey c0
      · right
        refine ⟨c0, List.mem_cons_self _ _, hk0.symm, ?_⟩
        rw [h]
        show (if k = wkey c0 then some (wval c0) else m k) = some (wval c0)
        rw [if_pos hk0]
      · left
        rw [h]
        show (if k = wkey c0 then some (wval c0) else m k) = m k
        rw [if_neg hk0]
    · right
      exact ⟨c, List.mem_cons_of_mem _ hc, hck, hcv⟩

theorem foldl_upd_present_rv {α : Type} (rv : Revid) (wkey : α → Pathname)
    (wval : α → Entry) (hval : ∀ c, (wval c).2 = rv) (l : List α)
    (m : PathState) (k : Pathname) (hw : ∃ c ∈ l, wkey c = k) :
    ∃ e, (l.foldl (fun acc c => upd acc (wkey c) (wval c)) m) k = some e ∧
      e.2 = rv := by
  induction l generalizing m with
  | nil => rcases hw with ⟨c, hc, _⟩; exact absurd hc (List.not_mem_nil c)
  | cons c0 rest ih =>
    simp only [List.foldl_cons]
    by_cases hrest : ∃ c ∈ rest, wkey c = k
    · exact ih (upd m (wkey c0) (wval c0)) hrest
    · rcases hw with ⟨c, hc, hck⟩
      have hc0 : wkey c0 = k := by
        rcases List.mem_cons.mp hc with hce | hcr
        · rw [← hce]; exact hck
        · exact absurd ⟨c, hcr, hck⟩ hrest
      refine ⟨wval c0, ?_, hval c0⟩
      rw [foldl_upd_skip _ _ _ _ _ (fun x hx he => hrest ⟨x, hx, he⟩)]
      show (if k = wkey c0 then some (wval c0) else m k) = some (wval c0)
      rw [if_pos hc0.symm]

theorem touchParents_pointwise (rv : Revid) (p0 : Pathname) :
    ∀ (l : List Pathname) (m m' : PathState),
    touchParents rv p0 l m = .ok m' → ∀ k,
    m' k = m k ∨ ∃ ea, m k = some ea ∧ m' k = some (ea.1, rv) := by
  intro l
  induction l with
  | nil =>
    intro m m' h k
    cases h
    exact Or.inl rfl
  | cons a rest ih =>
    intro m m' h k
    rw [touchParents] at h
    cases hma : m a with
    | none => rw [hma] at h; cases h
    | some e =>
      rw [hma] at h
      dsimp only at h
      by_cases he : e.2 = rv
      · rw [if_pos he] at h
        cases h
        exact Or.inl rfl
      · rw [if_neg he] at h
        rcases ih _ _ h k with h2 | ⟨ea, hk1, hk2⟩
        · by_cases hka : k = a
          · right
            refine ⟨e, by rw [hka]; exact hma, ?_⟩
            rw [h2]
            show (if k = a then some (e.1, rv) else m k) = some (e.1, rv)
            rw [if_pos hka]
          · left
            rw [h2]
            show (if k = a then some (e.1, rv) else m k) = m k
            rw [if_neg hka]
        · have h3 : (if k = a then some (e.1, rv) else m k) = some ea := hk1
          by_cases hka : k = a
          · rw [if_pos hka] at h3
            right
            refine ⟨e, by rw [hka]; exact hma, ?_⟩
            rw [hk2]
            have he2 : ea = (e.1, rv) := (Option.some.inj h3).symm
            rw [he2]
          · rw [if_neg hka] at h3
            exact Or.inr ⟨ea, h3, hk2⟩

theorem touchParents_all_rv (rv : Revid) (p0 : Pathname) :
    ∀ (l : List Pathname) (m m' : PathState), l.Nodup →
    (∀ l1 a l2, l = l1 ++ a :: l2 → ∀ ea, m a = some ea → ea.2 = rv →
      ∀ b ∈ l2, ∃ eb, m b = some eb ∧ eb.2 = rv) →
    touchParents rv p0 l m = .ok m' →
    ∀ b ∈ l, ∃ eb, m' b = some eb ∧ eb.2 = rv := by
  intro l
  induction l with
  | nil =>
    intro m m' _ _ _ b hb
    exact absurd hb (List.not_mem_nil b)
  | cons a0 rest ih =>
    intro m m' hnd hchain h b hb
    rw [touchParents] at h
    cases hma : m a0 with
    | none => rw [hma] at h; cases h
    | some e =>
      rw [hma] at h
      dsimp only at h
      by_cases he : e.2 = rv
      · rw [if_pos he] at h
        cases h
        rcases List.mem_cons.mp hb with hba | hbr
        · exact ⟨e, by rw [hba]; exact hma, he⟩
        · exact hchain [] a0 rest rfl e hma he b hbr
      · rw [if_neg he] at h
        have hnd2 := List.nodup_cons.mp hnd
        rcases List.mem_cons.mp hb with hba | hbr
        · have h4 := touchParents_lookup_not_mem rv p0 rest _ m' b h
            (by rw [hba]; exact hnd2.1)
          refine ⟨(e.1, rv), ?_, rfl⟩
          rw [h4]
          show (if b = a0 then some (e.1, rv) else m b) = some (e.1, rv)
          rw [if_pos hba]
        · refine ih _ m' hnd2.2 ?_ h b hbr
          intro l1 c l2 hdec ec hc hcrv b2 hb2
          have hc0 : c ≠ a0 := by
            intro hce
            rw [hce] at hdec
            exact hnd2.1 (by
              rw [hdec]
              exact List.mem_append_right _ (List.mem_cons_self _ _))
          have hc2 : m c = some ec := by
            have h5 : (if c = a0 then some (e.1, rv) else m c) = some ec := hc
            rw [if_neg hc0] at h5
            exact h5
          obtain ⟨eb, heb1, heb2⟩ := hchain (a0 :: l1) c l2
            (by rw [List.cons_append, hdec]) ec hc2 hcrv b2 hb2
          have hb2a : b2 ≠ a0 := by
            intro hbe
            rw [hbe] at hb2
            exact hnd2.1 (by
              rw [hdec]
              exact List.mem_append_right _ (List.mem_cons_of_mem _ hb2))
          refine ⟨eb, ?_, heb2⟩
          show (if b2 = a0 then some (e.1, rv) else m b2) = some eb
          rw [if_neg hb2a]
          exact heb1

theorem touchParents_error_absent (rv : Revid) (p0 : Pathname) :
    ∀ (l : List Pathname) (m : PathState) (e : ConsistencyError),
    touchParents rv p0 l m = .error e → ∃ a ∈ l, m a = none := by
  intro l
  induction l with
  | nil => intro m e h; cases h
  | cons a0 rest ih =>
    intro m e h
    rw [touchParents] at h
    cases hma : m a0 with
    | none => exact ⟨a0, List.mem_cons_self _ _, hma⟩
    | some e0 =>
      rw [hma] at h
      dsimp only at h
      by_cases he : e0.2 = rv
      · rw [if_pos he] at h; cases h
      · rw [if_neg he] at h
        obtain ⟨b, hb, hbn⟩ := ih _ e h
        refine ⟨b, List.mem_cons_of_mem _ hb, ?_⟩
        have h5 : (if b = a0 then some (e0.1, rv) else m b) = none := hbn
        by_cases hba : b = a0
        · rw [if_pos hba] at h5; cases h5
        · rw [if_neg hba] at h5; exact h5

theorem touchParents_not_ok_of_absent (rv : Revid) (p0 : Pathname) :
    ∀ (l : List Pathname) (m : PathState), l.Nodup →
    (∀ l1 a l2, l = l1 ++ a :: l2 → ∀ ea, m a = some ea → ea.2 = rv →
      ∀ b ∈ l2, ∃ eb, m b = some eb ∧ eb.2 = rv) →
    (∃ a ∈ l, m a = none) →
    ∀ m', touchParents rv p0 l m ≠ .ok m' := by
  intro l
  induction l with
  | nil =>
    intro m _ _ habs m' h
    rcases habs with ⟨a, ha, _⟩
    exact absurd ha (List.not_mem_nil a)
  | cons a0 rest ih =>
    intro m hnd hchain habs m' h
    rw [touchParents] at h
    cases hma : m a0 with
    | none => rw [hma] at h; cases h
    | some e =>
      rw [hma] at h
      dsimp only at h
      obtain ⟨b, hb, hbn⟩ := habs
      have hba : b ≠ a0 := by
        intro hbe
        rw [hbe, hma] at hbn
        cases hbn
      have hbr : b ∈ rest := by
        rcases List.mem_cons.mp hb with hbe | h2
        · exact absurd hbe hba
        · exact h2
      by_cases he : e.2 = rv
      · rw [if_pos he] at h
        obtain ⟨eb, heb, _⟩ := hchain [] a0 rest rfl e hma he b hbr
        rw [hbn] at heb
        cases heb
      · rw [if_neg he] at h
        have hnd2 := List.nodup_cons.mp hnd
        refine ih _ hnd2.2 ?_ ⟨b, hbr, ?_⟩ m' h
        · intro l1 c l2 hdec ec hc hcrv b2 hb2
          have hc0 : c ≠ a0 := by
            intro hce
            rw [hce] at hdec
            exact hnd2.1 (by
              rw [hdec]
              exact List.mem_append_right _ (List.mem_cons_self _ _))
          have hc2 : m c = some ec := by
            have h5 : (if c = a0 then some (e.1, rv) else m c) = some ec := hc
            rw [if_neg hc0] at h5
            exact h5
          obtain ⟨eb2, heb1, heb2⟩ := hchain (a0 :: l1) c l2
            (by rw [List.cons_append, hdec]) ec hc2 hcrv b2 hb2
          have hb2a : b2 ≠ a0 := by
            intro hbe
            rw [hbe] at hb2
            exact hnd2.1 (by
              rw [hdec]
              exact List.mem_append_right _ (List.mem_cons_of_mem _ hb2))
          refine ⟨eb2, ?_, heb2⟩
          show (if b2 = a0 then some (e.1, rv) else m b2) = some eb2
          rw [if_neg hb2a]
          exact heb1
        · show (if b = a0 then some (e.1, rv) else m b) = none
          rw [if_neg hba]
          exact hbn

/-- Closure invariant for the current revision id: every entry already
marked with it has all its ancestors present and marked with it (this is
what makes the ancestor-walk short-circuit sound). -/
def rMarkedClosed (rv : Revid) (m : PathState) : Prop :=
  ∀ k e, m k = some e → e.2 = rv → ∀ a ∈ ancestors k,
    ∃ ea, m a = some ea ∧ ea.2 = rv

theorem phase1_cases (m : PathState) (q : Pathname) (act : Char) (m1 : PathState)
    (h : (if act = 'D' ∨ act = 'R' then
            match m q with
            | none => Except.error (ConsistencyError.deleteAbsent q)
            | some _ => Except.ok (delTree (del m q) q)
          else Except.ok m) = .ok m1) :
    (¬(act = 'D' ∨ act = 'R') ∧ m1 = m) ∨
      ((act = 'D' ∨ act = 'R') ∧ (∃ e0, m q = some e0) ∧
        m1 = delTree (del m q) q) := by
  by_cases hact : act = 'D' ∨ act = 'R'
  · rw [if_pos hact] at h
    cases hmq : m q with
    | none => rw [hmq] at h; cases h
    | some e0 =>
      rw [hmq] at h
      refine Or.inr ⟨hact, ⟨e0, rfl⟩, ?_⟩
      cases h
      rfl
  · rw [if_neg hact] at h
    cases h
    exact Or.inl ⟨hact, rfl⟩

theorem phase2_cases (fc : Pathname → Revid → List Pathname)
    (rn : Pathname → Option FileId) (rv : Revid) (m1 : PathState) (q : Pathname)
    (data : LocalChange) (m2 : PathState)
    (h : (if data.1 = 'A' ∨ data.1 = 'R' then
            match data.2 with
            | none => Except.ok (upd m1 q (new_file_id rn rv q, rv))
            | some sr =>
              Except.ok ((fc sr.1 sr.2).foldl
                (fun acc c => upd acc (replaceOnce sr.1 q c)
                  (new_file_id rn rv c, rv))
                (upd m1 q (new_file_id rn rv q, rv)))
          else if data.1 = 'M' then
            match m1 q with
            | none => Except.error (ConsistencyError.modifyAbsent q)
            | some e => Except.ok (upd m1 q (e.1, rv))
          else Except.ok m1) = .ok m2) :
    ((data.1 = 'A' ∨ data.1 = 'R') ∧ data.2 = none ∧
        m2 = upd m1 q (new_file_id rn rv q, rv)) ∨
    ((data.1 = 'A' ∨ data.1 = 'R') ∧ ∃ sr, data.2 = some sr ∧
        m2 = (fc sr.1 sr.2).foldl
          (fun acc c => upd acc (replaceOnce sr.1 q c) (new_file_id rn rv c, rv))
          (upd m1 q (new_file_id rn rv q, rv))) ∨
    (data.1 = 'M' ∧ ¬(data.1 = 'A' ∨ data.1 = 'R') ∧ ∃ e0, m1 q = some e0 ∧
        m2 = upd m1 q (e0.1, rv)) ∨
    (¬(data.1 = 'A' ∨ data.1 = 'R') ∧ ¬ data.1 = 'M' ∧ m2 = m1) := by
  by_cases hact : data.1 = 'A' ∨ data.1 = 'R'
  · rw [if_pos hact] at h
    cases hcs : data.2 with
    | none =>
      rw [hcs] at h
      refine Or.inl ⟨hact, rfl, ?_⟩
      cases h
      rfl
    | some sr =>
      rw [hcs] at h
      refine Or.inr (Or.inl ⟨hact, sr, rfl, ?_⟩)
      cases h
      rfl
  · rw [if_neg hact] at h
    by_cases hM : data.1 = 'M'
    · rw [if_pos hM] at h
      cases hmq : m1 q with
      | none => rw [hmq] at h; cases h
      | some e0 =>
        rw [hmq] at h
        refine Or.inr (Or.inr (Or.inl ⟨hM, hact, e0, rfl, ?_⟩))
        cases h
        rfl
    · rw [if_neg hM] at h
      cases h
      exact Or.inr (Or.inr (Or.inr ⟨hact, hM, rfl⟩))

theorem applyOne_parts (fc : Pathname → Revid → List Pathname)
    (rn : Pathname → Option FileId) (rv : Revid) (m : PathState)
    (q : Pathname) (data : LocalChange) (m' : PathState)
    (hok : applyOne fc rn rv m (q, data) = .ok m') :
    ∃ m1 m2,
      ((¬(data.1 = 'D' ∨ data.1 = 'R') ∧ m1 = m) ∨
        ((data.1 = 'D' ∨ data.1 = 'R') ∧ (∃ e0, m q = some e0) ∧
          m1 = delTree (del m q) q)) ∧
      (((data.1 = 'A' ∨ data.1 = 'R') ∧ data.2 = none ∧
          m2 = upd m1 q (new_file_id rn rv q, rv)) ∨
       ((data.1 = 'A' ∨ data.1 = 'R') ∧ ∃ sr, data.2 = some sr ∧
          m2 = (fc sr.1 sr.2).foldl
            (fun acc c => upd acc (replaceOnce sr.1 q c) (new_file_id rn rv c, rv))
            (upd m1 q (new_file_id rn rv q, rv))) ∨
       (data.1 = 'M' ∧ ¬(data.1 = 'A' ∨ data.1 = 'R') ∧ ∃ e0, m1 q = some e0 ∧
          m2 = upd m1 q (e0.1, rv)) ∨
       (¬(data.1 = 'A' ∨ data.1 = 'R') ∧ ¬ data.1 = 'M' ∧ m2 = m1)) ∧
      touchParents rv q (ancestors q) m2 = .ok m' := by
  rw [applyOne_eq] at hok
  obtain ⟨m1, h1, hrest⟩ := except_bind_ok _ _ _ hok
  obtain ⟨m2, h2, h3⟩ := except_bind_ok _ _ _ hrest
  exact ⟨m1, m2, phase1_cases m q data.1 m1 h1,
    phase2_cases fc rn rv m1 q data m2 h2, h3⟩

theorem self_not_mem_ancestors (q : Pathname) : q ∉ ancestors q :=
  fun h => (ancestors_mem_ne_self q q h) rfl

theorem applyOne_m2_agree (fc : Pathname → Revid → List Pathname)
    (rn : Pathname → Option FileId) (rv : Revid) (m : PathState)
    (q : Pathname) (data : LocalChange) (m1 m2 : PathState)
    (hfc : ∀ s r c, c ∈ fc s r → ∃ rest, c = s ++ '/' :: rest)
    (hp1 : (¬(data.1 = 'D' ∨ data.1 = 'R') ∧ m1 = m) ∨
      ((data.1 = 'D' ∨ data.1 = 'R') ∧ (∃ e0, m q = some e0) ∧
        m1 = delTree (del m q) q))
    (hp2 : ((data.1 = 'A' ∨ data.1 = 'R') ∧ data.2 = none ∧
          m2 = upd m1 q (new_file_id rn rv q, rv)) ∨
       ((data.1 = 'A' ∨ data.1 = 'R') ∧ ∃ sr, data.2 = some sr ∧
          m2 = (fc sr.1 sr.2).foldl
            (fun acc c => upd acc (replaceOnce sr.1 q c) (new_file_id rn rv c, rv))
            (upd m1 q (new_file_id rn rv q, rv))) ∨
       (data.1 = 'M' ∧ ¬(data.1 = 'A' ∨ data.1 = 'R') ∧ ∃ e0, m1 q = some e0 ∧
          m2 = upd m1 q (e0.1, rv)) ∨
       (¬(data.1 = 'A' ∨ data.1 = 'R') ∧ ¬ data.1 = 'M' ∧ m2 = m1)) :
    ∀ a ∈ ancestors q, m2 a = m a := by
  intro a ha
  have hane : a ≠ q := ancestors_mem_ne_self q a ha
  have hans : ∀ r, a ≠ q ++ '/' :: r := ancestors_mem_not_subtree q a ha
  have h1 : m1 a = m a := by
    rcases hp1 with ⟨_, he⟩ | ⟨_, _, he⟩
    · rw [he]
    · rw [he]
      exact delTree_del_outside m q a hane hans
  rcases hp2 with ⟨_, _, he⟩ | ⟨_, sr, _, he⟩ | ⟨_, _, e0, _, he⟩ | ⟨_, _, he⟩
  · rw [he]
    show (if a = q then some (new_file_id rn rv q, rv) else m1 a) = m a
    rw [if_neg hane]
    exact h1
  · rw [he]
    have hskip : ∀ c ∈ fc sr.1 sr.2, (fun c => replaceOnce sr.1 q c) c ≠ a := by
      intro c hc
      obtain ⟨rest, hce⟩ := hfc sr.1 sr.2 c hc
      show replaceOnce sr.1 q c ≠ a
      rw [hce, replaceOnce_child]
      exact fun he2 => (hans rest) he2.symm
    rw [foldl_upd_skip (fun c => replaceOnce sr.1 q c)
      (fun c => (new_file_id rn rv c, rv)) (fc sr.1 sr.2)
      (upd m1 q (new_file_id rn rv q, rv)) a hskip]
    show (if a = q then some (new_file_id rn rv q, rv) else m1 a) = m a
    rw [if_neg hane]
    exact h1
  · rw [he]
    show (if a = q then some (e0.1, rv) else m1 a) = m a
    rw [if_neg hane]
    exact h1
  · rw [he]
    exact h1

theorem applyOne_ancestors_rv (fc : Pathname → Revid → List Pathname)
    (rn : Pathname → Option FileId) (rv : Revid) (m : PathState)
    (q : Pathname) (data : LocalChange) (m' : PathState)
    (hfc : ∀ s r c, c ∈ fc s r → ∃ rest, c = s ++ '/' :: rest)
    (hJ3 : rMarkedClosed rv m)
    (hok : applyOne fc rn rv m (q, data) = .ok m') :
    ∀ a ∈ ancestors q, ∃ ea, m' a = some ea ∧ ea.2 = rv := by
  obtain ⟨m1, m2, hp1, hp2, h3⟩ := applyOne_parts fc rn rv m q data m' hok
  have hagree := applyOne_m2_agree fc rn rv m q data m1 m2 hfc hp1 hp2
  refine touchParents_all_rv rv q (ancestors q) m2 m' (ancestors_nodup q) ?_ h3
  intro l1 a l2 hdec ea ha harv b hb
  have hamem : a ∈ ancestors q := by
    rw [hdec]
    exact List.mem_append_right _ (List.mem_cons_self _ _)
  have hma : m a = some ea := by
    rw [← hagree a hamem]
    exact ha
  have hanc : ancestors a = l2 := ancestors_decomp q l1 a l2 hdec
  obtain ⟨eb, hb1, hb2⟩ := hJ3 a ea hma harv b (by rw [hanc]; exact hb)
  have hbmem : b ∈ ancestors q := by
    rw [hdec]
    exact List.mem_append_right _ (List.mem_cons_of_mem _ hb)
  exact ⟨eb, by rw [hagree b hbmem]; exact hb1, hb2⟩

theorem applyOne_q_rv (fc : Pathname → Revid → List Pathname)
    (rn : Pathname → Option FileId) (rv : Revid) (m : PathState)
    (q : Pathname) (data : LocalChange) (m' : PathState)
    (hfc : ∀ s r c, c ∈ fc s r → ∃ rest, c = s ++ '/' :: rest)
    (hok : applyOne fc rn rv m (q, data) = .ok m')
    (hact : data.1 = 'A' ∨ data.1 = 'R' ∨ data.1 = 'M') :
    ∃ e, m' q = some e ∧ e.2 = rv := by
  obtain ⟨m1, m2, hp1, hp2, h3⟩ := applyOne_parts fc rn rv m q data m' hok
  have htp : m' q = m2 q :=
    touchParents_lookup_not_mem rv q (ancestors q) m2 m' q h3
      (self_not_mem_ancestors q)
  have hm2 : ∃ e, m2 q = some e ∧ e.2 = rv := by
    rcases hp2 with ⟨_, _, he⟩ | ⟨_, sr, _, he⟩ | ⟨_, _, e0, _, he⟩ | ⟨hna, hnm, _⟩
    · refine ⟨(new_file_id rn rv q, rv), ?_, rfl⟩
      rw [he]
      show (if q = q then some (new_file_id rn rv q, rv) else m1 q) =
        some (new_file_id rn rv q, rv)
      rw [if_pos rfl]
    · refine ⟨(new_file_id rn rv q, rv), ?_, rfl⟩
      rw [he]
      have hskip : ∀ c ∈ fc sr.1 sr.2, (fun c => replaceOnce sr.1 q c) c ≠ q := by
        intro c hc
        obtain ⟨rest, hce⟩ := hfc sr.1 sr.2 c hc
        show replaceOnce sr.1 q c ≠ q
        rw [hce, replaceOnce_child]
        intro he2
        have hl := congrArg List.length he2
        simp only [List.length_append, List.length_cons] at hl
        omega
      rw [foldl_upd_skip (fun c => replaceOnce sr.1 q c)
        (fun c => (new_file_id rn rv c, rv)) (fc sr.1 sr.2)
        (upd m1 q (new_file_id rn rv q, rv)) q hskip]
      show (if q = q then some (new_file_id rn rv q, rv) else m1 q) =
        some (new_file_id rn rv q, rv)
      rw [if_pos rfl]
    · refine ⟨(e0.1, rv), ?_, rfl⟩
      rw [he]
      show (if q = q then some (e0.1, rv) else m1 q) = some (e0.1, rv)
      rw [if_pos rfl]
    · rcases hact with h | h | h
      · exact absurd (Or.inl h) hna
      · exact absurd (Or.inr h) hna
      · exact absurd h hnm
  obtain ⟨e, he1, he2⟩ := hm2
  exact ⟨e, by rw [htp]; exact he1, he2⟩

theorem applyOne_dest_rv (fc : Pathname → Revid → List Pathname)
    (rn : Pathname → Option FileId) (rv : Revid) (m : PathState)
    (q : Pathname) (data : LocalChange) (m' : PathState)
    (hfc : ∀ s r c, c ∈ fc s r → ∃ rest, c = s ++ '/' :: rest)
    (hok : applyOne fc rn rv m (q, data) = .ok m')
    (sr : Pathname × Revid) (hcs : data.2 = some sr)
    (hact : data.1 = 'A' ∨ data.1 = 'R')
    (c : Pathname) (hc : c ∈ fc sr.1 sr.2) :
    ∃ e, m' (replaceOnce sr.1 q c) = some e ∧ e.2 = rv := by
  obtain ⟨m1, m2, hp1, hp2, h3⟩ := applyOne_parts fc rn rv m q data m' hok
  obtain ⟨rest, hce⟩ := hfc sr.1 sr.2 c hc
  have hkey : replaceOnce sr.1 q c = q ++ '/' :: rest := by
    rw [hce, replaceOnce_child]
  have hnotanc : replaceOnce sr.1 q c ∉ ancestors q := by
    rw [hkey]
    intro hmem
    exact (ancestors_mem_not_subtree q _ hmem) rest rfl
  have htp : m' (replaceOnce sr.1 q c) = m2 (replaceOnce sr.1 q c) :=
    touchParents_lookup_not_mem rv q (ancestors q) m2 m' _ h3 hnotanc
  rcases hp2 with ⟨_, hnone, _⟩ | ⟨_, sr2, hsr2, he⟩ | ⟨_, hna, _⟩ | ⟨hna, _, _⟩
  · rw [hcs] at hnone; cases hnone
  · rw [hcs] at hsr2
    have hsr2e : sr2 = sr := (Option.some.inj hsr2).symm
    rw [hsr2e] at he
    obtain ⟨e, he1, he2⟩ := foldl_upd_present_rv rv
      (fun c => replaceOnce sr.1 q c) (fun c => (new_file_id rn rv c, rv))
      (fun _ => rfl) (fc sr.1 sr.2)
      (upd m1 q (new_file_id rn rv q, rv)) (replaceOnce sr.1 q c)
      ⟨c, hc, rfl⟩
    rw [← he] at he1
    exact ⟨e, by rw [htp]; exact he1, he2⟩
  · exact absurd hact hna
  · exact absurd hact hna

theorem applyOne_gone (fc : Pathname → Revid → List Pathname)
    (rn : Pathname → Option FileId) (rv : Revid) (m : PathState)
    (q : Pathname) (data : LocalChange) (m' : PathState)
    (hok : applyOne fc rn rv m (q, data) = .ok m')
    (x : Pathname) (hx : m x ≠ none) (hx2 : m' x = none) :
    (data.1 = 'D' ∨ data.1 = 'R') ∧ inSubtree q x := by
  obtain ⟨m1, m2, hp1, hp2, h3⟩ := applyOne_parts fc rn rv m q data m' hok
  have hm2 : m2 x = none := by
    rcases touchParents_pointwise rv q (ancestors q) m2 m' h3 x with h | ⟨ea, _, hb⟩
    · rw [← h]; exact hx2
    · rw [hb] at hx2; cases hx2
  have hm1 : m1 x = none := by
    rcases hp2 with ⟨_, _, he⟩ | ⟨_, sr, _, he⟩ | ⟨_, _, e0, _, he⟩ | ⟨_, _, he⟩
    · rw [he] at hm2
      have h5 : (if x = q then some (new_file_id rn rv q, rv) else m1 x) = none := hm2
      by_cases hxq : x = q
      · rw [if_pos hxq] at h5; cases h5
      · rw [if_neg hxq] at h5; exact h5
    · rw [he] at hm2
      rcases foldl_upd_cases (fun c => replaceOnce sr.1 q c)
        (fun c => (new_file_id rn rv c, rv)) (fc sr.1 sr.2)
        (upd m1 q (new_file_id rn rv q, rv)) x with h6 | ⟨c, _, _, h7⟩
      · rw [h6] at hm2
        have h5 : (if x = q then some (new_file_id rn rv q, rv) else m1 x) = none := hm2
        by_cases hxq : x = q
        · rw [if_pos hxq] at h5; cases h5
        · rw [if_neg hxq] at h5; exact h5
      · rw [h7] at hm2; cases hm2
    · rw [he] at hm2
      have h5 : (if x = q then some (e0.1, rv) else m1 x) = none := hm2
      by_cases hxq : x = q
      · rw [if_pos hxq] at h5; cases h5
      · rw [if_neg hxq] at h5; exact h5
    · rw [← he]; exact hm2
  rcases hp1 with ⟨_, he⟩ | ⟨hdr, _, he⟩
  · rw [he] at hm1
    exact absurd hm1 hx
  · refine ⟨hdr, ?_⟩
    rw [he] at hm1
    by_cases hxq : x = q
    · exact Or.inl hxq
    · by_cases hsub : ∃ r, x = q ++ '/' :: r
      · exact Or.inr hsub
      · exfalso
        rw [delTree_del_outside m q x hxq (fun r hr => hsub ⟨r, hr⟩)] at hm1
        exact hx hm1

theorem applyOne_subtree_alive (fc : Pathname → Revid → List Pathname)
    (rn : Pathname → Option FileId) (rv : Revid) (m : PathState)
    (q : Pathname) (data : LocalChange) (m' : PathState)
    (hok : applyOne fc rn rv m (q, data) = .ok m')
    (hdr : data.1 = 'D' ∨ data.1 = 'R') (x : Pathname) (hsub : inSubtree q x)
    (e' : Entry) (hx : m' x = some e') :
    x = q ∨ ((data.1 = 'A' ∨ data.1 = 'R') ∧ ∃ sr, data.2 = some sr ∧
      ∃ c ∈ fc sr.1 sr.2, x = replaceOnce sr.1 q c) := by
  by_cases hxq : x = q
  · exact Or.inl hxq
  obtain ⟨m1, m2, hp1, hp2, h3⟩ := applyOne_parts fc rn rv m q data m' hok
  have hm1 : m1 x = none := by
    rcases hp1 with ⟨hna, _⟩ | ⟨_, _, he⟩
    · exact absurd hdr hna
    · rw [he]
      exact delTree_del_subtreeFree m q x hsub
  have hxanc : x ∉ ancestors q := by
    intro hmem
    rcases hsub with hs | ⟨r, hs⟩
    · exact hxq hs
    · exact (ancestors_mem_not_subtree q x hmem) r hs
  have htp : m' x = m2 x :=
    touchParents_lookup_not_mem rv q (ancestors q) m2 m' x h3 hxanc
  have hm2 : m2 x = some e' := by rw [← htp]; exact hx
  rcases hp2 with ⟨_, _, he⟩ | ⟨hactf, sr, hsr, he⟩ | ⟨hM, _, _⟩ | ⟨_, _, he⟩
  · rw [he] at hm2
    have h5 : (if x = q then some (new_file_id rn rv q, rv) else m1 x) = some e' := hm2
    rw [if_neg hxq, hm1] at h5
    cases h5
  · rw [he] at hm2
    rcases foldl_upd_cases (fun c => replaceOnce sr.1 q c)
      (fun c => (new_file_id rn rv c, rv)) (fc sr.1 sr.2)
      (upd m1 q (new_file_id rn rv q, rv)) x with h6 | ⟨c, hcm, hck, _⟩
    · rw [h6] at hm2
      have h5 : (if x = q then some (new_file_id rn rv q, rv) else m1 x) = some e' := hm2
      rw [if_neg hxq, hm1] at h5
      cases h5
    · exact Or.inr ⟨hactf, sr, hsr, c, hcm, hck.symm⟩
  · rcases hdr with h | h <;> rw [h] at hM <;> exact absurd hM (by decide)
  · rw [he, hm1] at hm2
    cases hm2

theorem applyOne_write_inversion (fc : Pathname → Revid → List Pathname)
    (rn : Pathname → Option FileId) (rv : Revid) (m : PathState)
    (q : Pathname) (data : LocalChange) (m' : PathState)
    (hfc : ∀ s r c, c ∈ fc s r → ∃ rest, c = s ++ '/' :: rest)
    (hok : applyOne fc rn rv m (q, data) = .ok m') (x : Pathname) :
    m' x = m x ∨ x = q ∨ x ∈ ancestors q ∨
      ((data.1 = 'A' ∨ data.1 = 'R') ∧ ∃ sr, data.2 = some sr ∧
        ∃ c ∈ fc sr.1 sr.2, x = replaceOnce sr.1 q c) ∨
      (inSubtree q x ∧ m' x = none) := by
  by_cases hxq : x = q
  · exact Or.inr (Or.inl hxq)
  by_cases hxanc : x ∈ ancestors q
  · exact Or.inr (Or.inr (Or.inl hxanc))
  by_cases hxdest : (data.1 = 'A' ∨ data.1 = 'R') ∧ ∃ sr, data.2 = some sr ∧
      ∃ c ∈ fc sr.1 sr.2, x = replaceOnce sr.1 q c
  · exact Or.inr (Or.inr (Or.inr (Or.inl hxdest)))
  by_cases hxsub : ∃ r, x = q ++ '/' :: r
  · obtain ⟨m1, m2, hp1, hp2, h3⟩ := applyOne_parts fc rn rv m q data m' hok
    rcases hp1 with ⟨_, he1⟩ | ⟨hdr, _, he1⟩
    · -- no scrub: x untouched by every phase
      left
      have htp : m' x = m2 x :=
        touchParents_lookup_not_mem rv q (ancestors q) m2 m' x h3 hxanc
      have hm2 : m2 x = m1 x := by
        rcases hp2 with ⟨_, _, he⟩ | ⟨hactf, sr, hsr, he⟩ | ⟨_, _, e0, _, he⟩ | ⟨_, _, he⟩
        · rw [he]
          show (if x = q then some (new_file_id rn rv q, rv) else m1 x) = m1 x
          rw [if_neg hxq]
        · rw [he]
          have hskip : ∀ c ∈ fc sr.1 sr.2, (fun c => replaceOnce sr.1 q c) c ≠ x :=
            fun c hc he2 => hxdest ⟨hactf, sr, hsr, c, hc, he2.symm⟩
          rw [foldl_upd_skip (fun c => replaceOnce sr.1 q c)
            (fun c => (new_file_id rn rv c, rv)) (fc sr.1 sr.2)
            (upd m1 q (new_file_id rn rv q, rv)) x hskip]
          show (if x = q then some (new_file_id rn rv q, rv) else m1 x) = m1 x
          rw [if_neg hxq]
        · rw [he]
          show (if x = q then some (e0.1, rv) else m1 x) = m1 x
          rw [if_neg hxq]
        · rw [he]
      rw [htp, hm2, he1]
    · -- scrub ran and x is inside the subtree: x ends up none unless re-added,
      -- and re-adding was excluded above
      right; right; right; right
      refine ⟨Or.inr hxsub, ?_⟩
      cases hx' : m' x with
      | none => rfl
      | some e' =>
        rcases applyOne_subtree_alive fc rn rv m q data m' hok hdr x
          (Or.inr hxsub) e' hx' with h | h
        · exact absurd h hxq
        · exact absurd h hxdest
  · -- x outside every written region
    left
    obtain ⟨m1, m2, hp1, hp2, h3⟩ := applyOne_parts fc rn rv m q data m' hok
    have htp : m' x = m2 x :=
      touchParents_lookup_not_mem rv q (ancestors q) m2 m' x h3 hxanc
    have hm2 : m2 x = m1 x := by
      rcases hp2 with ⟨_, _, he⟩ | ⟨hactf, sr, hsr, he⟩ | ⟨_, _, e0, _, he⟩ | ⟨_, _, he⟩
      · rw [he]
        show (if x = q then some (new_file_id rn rv q, rv) else m1 x) = m1 x
        rw [if_neg hxq]
      · rw [he]
        have hskip : ∀ c ∈ fc sr.1 sr.2, (fun c => replaceOnce sr.1 q c) c ≠ x :=
          fun c hc he2 => hxdest ⟨hactf, sr, hsr, c, hc, he2.symm⟩
        rw [foldl_upd_skip (fun c => replaceOnce sr.1 q c)
          (fun c => (new_file_id rn rv c, rv)) (fc sr.1 sr.2)
          (upd m1 q (new_file_id rn rv q, rv)) x hskip]
        show (if x = q then some (new_file_id rn rv q, rv) else m1 x) = m1 x
        rw [if_neg hxq]
      · rw [he]
        show (if x = q then some (e0.1, rv) else m1 x) = m1 x
        rw [if_neg hxq]
      · rw [he]
    have hm1 : m1 x = m x := by
      rcases hp1 with ⟨_, he⟩ | ⟨_, _, he⟩
      · rw [he]
      · rw [he]
        exact delTree_del_outside m q x hxq (fun r hr => hxsub ⟨r, hr⟩)
    rw [htp, hm2, hm1]

/-- Processing one change preserves the closure invariant: every entry
marked with the current revision id keeps all its ancestors present and
so marked.  Needs the child finder to return descendants of the source
and to be closed under intermediate directories. -/
theorem applyOne_preserves_rMarkedClosed (fc : Pathname → Revid → List Pathname)
    (rn : Pathname → Option FileId) (rv : Revid) (m : PathState)
    (q : Pathname) (data : LocalChange) (m' : PathState)
    (hfc : ∀ s r c, c ∈ fc s r → ∃ rest, c = s ++ '/' :: rest)
    (hcl : ∀ s r rest, (s ++ '/' :: rest) ∈ fc s r →
      ∀ u ∈ ancestors rest, (s ++ '/' :: u) ∈ fc s r)
    (hJ3 : rMarkedClosed rv m)
    (hok : applyOne fc rn rv m (q, data) = .ok m') :
    rMarkedClosed rv m' := by
  have hG1 := applyOne_ancestors_rv fc rn rv m q data m' hfc hJ3 hok
  have hdest : ∀ sr, data.2 = some sr → (data.1 = 'A' ∨ data.1 = 'R') →
      ∀ c ∈ fc sr.1 sr.2, ∀ a ∈ ancestors (replaceOnce sr.1 q c),
      ∃ ea, m' a = some ea ∧ ea.2 = rv := by
    intro sr hcs hact c hc a ha
    obtain ⟨rest, hce⟩ := hfc sr.1 sr.2 c hc
    have hkey : replaceOnce sr.1 q c = q ++ '/' :: rest := by
      rw [hce, replaceOnce_child]
    rw [hkey] at ha
    rcases ancestors_mem_classify q rest a ha with ⟨u, hu, hau⟩ | hau | hau
    · have hcu : (sr.1 ++ '/' :: u) ∈ fc sr.1 sr.2 := by
        refine hcl sr.1 sr.2 rest ?_ u hu
        rw [← hce]
        exact hc
      obtain ⟨e2, he1, he2⟩ := applyOne_dest_rv fc rn rv m q data m' hfc hok
        sr hcs hact (sr.1 ++ '/' :: u) hcu
      rw [replaceOnce_child] at he1
      exact ⟨e2, by rw [hau]; exact he1, he2⟩
    · obtain ⟨e2, he1, he2⟩ := applyOne_q_rv fc rn rv m q data m' hfc hok
        (by rcases hact with h | h; exact Or.inl h; exact Or.inr (Or.inl h))
      exact ⟨e2, by rw [hau]; exact he1, he2⟩
    · exact hG1 a hau
  intro k e' hk hrv a ha
  by_cases hwr : m' k = m k
  · have hmk : m k = some e' := by rw [← hwr]; exact hk
    obtain ⟨ea, hma, hearv⟩ := hJ3 k e' hmk hrv a ha
    rcases applyOne_write_inversion fc rn rv m q data m' hfc hok a with
      h | h | h | h | ⟨hsub, hnone⟩
    · exact ⟨ea, by rw [h]; exact hma, hearv⟩
    · -- a = q
      by_cases hactm : data.1 = 'A' ∨ data.1 = 'R' ∨ data.1 = 'M'
      · obtain ⟨e2, he1, he2⟩ := applyOne_q_rv fc rn rv m q data m' hfc hok hactm
        exact ⟨e2, by rw [h]; exact he1, he2⟩
      · by_cases hD : data.1 = 'D'
        · exfalso
          obtain ⟨w, hw⟩ := ancestors_mem_slash k a ha
          have hsubk : inSubtree q k := by
            right
            exact ⟨w, by rw [← h]; exact hw⟩
          rcases applyOne_subtree_alive fc rn rv m q data m' hok (Or.inl hD)
            k hsubk e' hk with h2 | ⟨hact2, _⟩
          · rw [h2, ← h] at hw
            have hl := congrArg List.length hw
            simp only [List.length_append, List.length_cons] at hl
            omega
          · rcases hact2 with h3 | h3
            · exact hactm (Or.inl h3)
            · exact hactm (Or.inr (Or.inl h3))
        · obtain ⟨m1, m2, hp1, hp2, h3⟩ := applyOne_parts fc rn rv m q data m' hok
          have hm1 : m1 = m := by
            rcases hp1 with ⟨_, he⟩ | ⟨hdr, _, _⟩
            · exact he
            · rcases hdr with h4 | h4
              · exact absurd h4 hD
              · exact absurd (Or.inr h4) (fun h5 => hactm (h5.imp id Or.inl))
          have hm2 : m2 = m1 := by
            rcases hp2 with ⟨hact2, _, _⟩ | ⟨hact2, _, _, _⟩ | ⟨hM, _, _⟩ | ⟨_, _, he⟩
            · exact absurd (hact2.imp id Or.inl) hactm
            · exact absurd (hact2.imp id Or.inl) hactm
            · exact absurd (Or.inr (Or.inr hM)) hactm
            · exact he
          have htp : m' q = m2 q :=
            touchParents_lookup_not_mem rv q (ancestors q) m2 m' q h3
              (self_not_mem_ancestors q)
          refine ⟨ea, ?_, hearv⟩
          rw [h, htp, hm2, hm1]
          rw [← h]
          exact hma
    · exact hG1 a h
    · obtain ⟨hact2, sr, hcs, c, hc, hac⟩ := h
      obtain ⟨e2, he1, he2⟩ := applyOne_dest_rv fc rn rv m q data m' hfc hok
        sr hcs hact2 c hc
      exact ⟨e2, by rw [hac]; exact he1, he2⟩
    · -- a scrubbed: impossible since k below a survived with its old value
      exfalso
      have hgone := applyOne_gone fc rn rv m q data m' hok a
        (by rw [hma]; exact fun h5 => Option.noConfusion h5) hnone
      obtain ⟨w, hw⟩ := ancestors_mem_slash k a ha
      have hsubk : inSubtree q k := by
        rcases hgone.2 with h5 | ⟨r, h5⟩
        · right
          exact ⟨w, by rw [← h5]; exact hw⟩
        · right
          refine ⟨r ++ '/' :: w, ?_⟩
          rw [hw, h5]
          simp
      rcases applyOne_subtree_alive fc rn rv m q data m' hok hgone.1
        k hsubk e' hk with h2 | ⟨hact2, sr, hcs, c, hc, hkc⟩
      · -- k = q: then a ∈ ancestors q, not in the subtree of q
        rw [h2] at ha
        rcases hgone.2 with h5 | ⟨r, h5⟩
        · exact (ancestors_mem_ne_self q a ha) h5
        · exact (ancestors_mem_not_subtree q a ha) r h5
      · obtain ⟨ea2, ha2, _⟩ := hdest sr hcs hact2 c hc a (by rw [← hkc]; exact ha)
        rw [hnone] at ha2
        cases ha2
  · rcases applyOne_write_inversion fc rn rv m q data m' hfc hok k with
      h | h | h | h | ⟨_, hnone⟩
    · exact absurd h hwr
    · rw [h] at ha
      exact hG1 a ha
    · obtain ⟨l1, l2, hdec⟩ := List.append_of_mem h
      have hanck : ancestors k = l2 := ancestors_decomp q l1 k l2 hdec
      refine hG1 a ?_
      rw [hdec]
      refine List.mem_append_right _ (List.mem_cons_of_mem _ ?_)
      rw [← hanck]
      exact ha
    · obtain ⟨hact2, sr, hcs, c, hc, hkc⟩ := h
      exact hdest sr hcs hact2 c hc a (by rw [← hkc]; exact ha)
    · rw [hnone] at hk
      cases hk

theorem except_bind_error {ε α β : Type} (x : Except ε α) (f : α → Except ε β)
    (e : ε) (h : x >>= f = .error e) :
    x = .error e ∨ ∃ a, x = .ok a ∧ f a = .error e := by
  cases x with
  | error e2 =>
    left
    have h2 : (Except.error e2 : Except ε β) = .error e := h
    rw [Except.error.injEq] at h2
    rw [h2]
  | ok a =>
    right
    exact ⟨a, rfl, h⟩

/-- The three failure conditions of the claim, read off the state at the
moment the change is processed: delete/replace of an absent path, modify of
an absent path, or an absent ancestor directory of the changed path. -/
def badStep (m : PathState) (pc : Pathname × LocalChange) : Prop :=
  ((pc.2.1 = 'D' ∨ pc.2.1 = 'R') ∧ m pc.1 = none) ∨
  (pc.2.1 = 'M' ∧ m pc.1 = none) ∨
  (∃ a ∈ ancestors pc.1, m a = none)

theorem applyOne_error_badStep (fc : Pathname → Revid → List Pathname)
    (rn : Pathname → Option FileId) (rv : Revid) (q : Pathname)
    (data : LocalChange) (m : PathState) (e : ConsistencyError)
    (hfc : ∀ s r c, c ∈ fc s r → ∃ rest, c = s ++ '/' :: rest)
    (h : applyOne fc rn rv m (q, data) = .error e) : badStep m (q, data) := by
  rw [applyOne_eq] at h
  rcases except_bind_error _ _ _ h with h1 | ⟨m1, h1, h2⟩
  · -- phase 1 errored: delete/replace of an absent path
    by_cases hact : data.1 = 'D' ∨ data.1 = 'R'
    · rw [if_pos hact] at h1
      cases hmq : m q with
      | none => exact Or.inl ⟨hact, hmq⟩
      | some e0 => rw [hmq] at h1; cases h1
    · rw [if_neg hact] at h1
      cases h1
  · rcases except_bind_error _ _ _ h2 with h3 | ⟨m2, h3, h4⟩
    · -- phase 2 errored: modify of an absent path
      by_cases hact : data.1 = 'A' ∨ data.1 = 'R'
      · rw [if_pos hact] at h3
        cases hcs : data.2 with
        | none => rw [hcs] at h3; cases h3
        | some sr => rw [hcs] at h3; cases h3
      · rw [if_neg hact] at h3
        by_cases hM : data.1 = 'M'
        · rw [if_pos hM] at h3
          have hm1 : m1 = m := by
            rcases phase1_cases m q data.1 m1 h1 with ⟨_, he⟩ | ⟨hdr, _, _⟩
            · exact he
            · rcases hdr with h5 | h5 <;> rw [h5] at hM <;>
                exact absurd hM (by decide)
          cases hmq : m1 q with
          | none =>
            refine Or.inr (Or.inl ⟨hM, ?_⟩)
            rw [← hm1]
            exact hmq
          | some e0 => rw [hmq] at h3; cases h3
        · rw [if_neg hM] at h3
          cases h3
    · -- the ancestor walk errored: an absent ancestor
      obtain ⟨a, ha, han⟩ := touchParents_error_absent rv q (ancestors q) m2 e h4
      have hagree := applyOne_m2_agree fc rn rv m q data m1 m2 hfc
        (phase1_cases m q data.1 m1 h1) (phase2_cases fc rn rv m1 q data m2 h3)
      refine Or.inr (Or.inr ⟨a, ha, ?_⟩)
      rw [← hagree a ha]
      exact han

theorem applyOne_badStep_not_ok (fc : Pathname → Revid → List Pathname)
    (rn : Pathname → Option FileId) (rv : Revid) (q : Pathname)
    (data : LocalChange) (m : PathState)
    (hfc : ∀ s r c, c ∈ fc s r → ∃ rest, c = s ++ '/' :: rest)
    (hJ3 : rMarkedClosed rv m)
    (hbad : badStep m (q, data)) :
    ∀ m', applyOne fc rn rv m (q, data) ≠ .ok m' := by
  intro m' hok
  obtain ⟨m1, m2, hp1, hp2, h3⟩ := applyOne_parts fc rn rv m q data m' hok
  have hagree := applyOne_m2_agree fc rn rv m q data m1 m2 hfc hp1 hp2
  rcases hbad with ⟨hdr, hmq⟩ | ⟨hM, hmq⟩ | ⟨a, ha, han⟩
  · rcases hp1 with ⟨hna, _⟩ | ⟨_, ⟨e0, he0⟩, _⟩
    · exact hna hdr
    · rw [hmq] at he0; cases he0
  · rcases hp2 with ⟨hact, _, _⟩ | ⟨hact, _, _⟩ | ⟨_, _, e0, he0, _⟩ | ⟨_, hnm, _⟩
    · rcases hact with h5 | h5 <;> rw [h5] at hM <;> exact absurd hM (by decide)
    · rcases hact with h5 | h5 <;> rw [h5] at hM <;> exact absurd hM (by decide)
    · have hm1 : m1 = m := by
        rcases hp1 with ⟨_, he⟩ | ⟨hdr, _, _⟩
        · exact he
        · rcases hdr with h5 | h5 <;> rw [h5] at hM <;> exact absurd hM (by decide)
      rw [hm1, hmq] at he0
      cases he0
    · exact hnm hM
  · refine touchParents_not_ok_of_absent rv q (ancestors q) m2 (ancestors_nodup q)
      ?_ ⟨a, ha, ?_⟩ m' h3
    · intro l1 c l2 hdec ec hc hcrv b hb
      have hcmem : c ∈ ancestors q := by
        rw [hdec]
        exact List.mem_append_right _ (List.mem_cons_self _ _)
      have hmc : m c = some ec := by
        rw [← hagree c hcmem]
        exact hc
      have hanc : ancestors c = l2 := ancestors_decomp q l1 c l2 hdec
      obtain ⟨eb, hb1, hb2⟩ := hJ3 c ec hmc hcrv b (by rw [hanc]; exact hb)
      have hbmem : b ∈ ancestors q := by
        rw [hdec]
        exact List.mem_append_right _ (List.mem_cons_of_mem _ hb)
      exact ⟨eb, by rw [hagree b hbmem]; exact hb1, hb2⟩
    · rw [hagree a ha]
      exact han

theorem applyList_error_iff (fc : Pathname → Revid → List Pathname)
    (rn : Pathname → Option FileId) (rv : Revid)
    (hfc : ∀ s r c, c ∈ fc s r → ∃ rest, c = s ++ '/' :: rest)
    (hcl : ∀ s r rest, (s ++ '/' :: rest) ∈ fc s r →
      ∀ u ∈ ancestors rest, (s ++ '/' :: u) ∈ fc s r) :
    ∀ (l : List (Pathname × LocalChange)) (m : PathState),
    rMarkedClosed rv m →
    ((∃ e, applyList fc rn rv l m = .error e) ↔
      ∃ l1 x l2 mid, l = l1 ++ x :: l2 ∧
        applyList fc rn rv l1 m = .ok mid ∧ badStep mid x) := by
  intro l
  induction l with
  | nil =>
    intro m _
    constructor
    · intro ⟨e, he⟩
      cases he
    · intro ⟨l1, x, l2, mid, hdec, _, _⟩
      exact absurd hdec.symm (by simp)
  | cons x0 rest ih =>
    intro m hJ3
    constructor
    · intro ⟨e, he⟩
      rw [applyList] at he
      rcases except_bind_error _ _ _ he with h1 | ⟨mid0, h1, h2⟩
      · refine ⟨[], x0, rest, m, rfl, rfl, ?_⟩
        exact applyOne_error_badStep fc rn rv x0.1 x0.2 m e hfc h1
      · have hJ3b : rMarkedClosed rv mid0 :=
          applyOne_preserves_rMarkedClosed fc rn rv m x0.1 x0.2 mid0 hfc hcl hJ3 h1
        obtain ⟨l1, x, l2, mid, hdec, hok1, hbad⟩ := (ih mid0 hJ3b).mp ⟨e, h2⟩
        refine ⟨x0 :: l1, x, l2, mid, by rw [List.cons_append, hdec], ?_, hbad⟩
        rw [applyList, h1]
        exact hok1
    · intro ⟨l1, x, l2, mid, hdec, hok1, hbad⟩
      cases l1 with
      | nil =>
        rw [List.nil_append] at hdec
        injection hdec with hx hrest
        cases hok0 : applyOne fc rn rv m x0 with
        | error e =>
          refine ⟨e, ?_⟩
          rw [applyList, hok0]
          rfl
        | ok mid2 =>
          exfalso
          have hmid : mid = m := by
            cases hok1
            rfl
          refine applyOne_badStep_not_ok fc rn rv x0.1 x0.2 m hfc hJ3 ?_ mid2 hok0
          rw [← hmid]
          rw [hx]
          exact hbad
      | cons y l1b =>
        rw [List.cons_append] at hdec
        injection hdec with hy hrest
        rw [applyList] at hok1
        obtain ⟨mid1, h1, h2⟩ := except_bind_ok _ _ _ hok1
        have hJ3b : rMarkedClosed rv mid1 := by
          refine applyOne_preserves_rMarkedClosed fc rn rv m y.1 y.2 mid1 hfc hcl hJ3 ?_
          exact h1
        obtain ⟨e, he⟩ := (ih mid1 hJ3b).mpr ⟨l1b, x, l2, mid, hrest.symm ▸ rfl, h2, hbad⟩
        refine ⟨e, ?_⟩
        rw [applyList, hy, h1]
        exact he

/-- Claim C4: _apply_changes signals a ConsistencyError exactly when, at the
moment a changed path is processed (in ascending lexical order), the change
deletes or replaces a path absent from the evolving state, modifies a path
absent from it, or the changed path has an absent ancestor directory.
Requires the closure invariant for the current revision id on the incoming
state (trivially true for states carrying no mark of the new revision) and
a child finder returning a descendant-closed set of descendants, which makes
the walk short-circuit sound. -/
theorem C4_consistency_error_characterization (fc : Pathname → Revid → List Pathname)
    (rn : Pathname → Option FileId) (rv : Revid)
    (changes : List (Pathname × LocalChange)) (m : PathState)
    (hfc : ∀ s r c, c ∈ fc s r → ∃ rest, c = s ++ '/' :: rest)
    (hcl : ∀ s r rest, (s ++ '/' :: rest) ∈ fc s r →
      ∀ u ∈ ancestors rest, (s ++ '/' :: u) ∈ fc s r)
    (hJ3 : rMarkedClosed rv m) :
    (∃ e, apply_changes fc rn rv changes m = .error e) ↔
    ∃ l1 x l2 mid, sortBy (fun a b => lexLe a.1 b.1) changes = l1 ++ x :: l2 ∧
      applyList fc rn rv l1 m = .ok mid ∧ badStep mid x := by
  rw [apply_changes]
  exact applyList_error_iff fc rn rv hfc hcl
    (sortBy (fun a b => lexLe a.1 b.1) changes) m hJ3

/-- Witness for C4: modifying "a" in the empty state is a bad step, and the
projection indeed signals a ConsistencyError. -/
theorem C4_consistency_error_characterization_witness :
    rMarkedClosed Revid.null emptyState ∧
    (∃ e, apply_changes (fun _ _ => []) (fun _ => none) Revid.null
      [(['a'], ('M', (none : Option (Pathname × Revid))))] emptyState
      = .error e) := by
  have hJ3 : rMarkedClosed Revid.null emptyState := by
    intro k e hk
    cases hk
  refine ⟨hJ3, ?_⟩
  exact (C4_consistency_error_characterization (fun _ _ => []) (fun _ => none)
    Revid.null [(['a'], ('M', none))] emptyState
    (fun s r c hc => absurd hc (List.not_mem_nil c))
    (fun s r rest hr => absurd hr (List.not_mem_nil _))
    hJ3).mpr ⟨[], (['a'], ('M', none)), [], emptyState, rfl, rfl,
      Or.inr (Or.inl ⟨rfl, rfl⟩)⟩

/-- The revision number denoted by a revision id (NULL_REVISION acts as
revision 0 of the branch). -/
def revnumOf : Revid → Nat
  | .null => 0
  | .svn _ _ n => n

theorem applyOne_pointwise (fc : Pathname → Revid → List Pathname)
    (rn : Pathname → Option FileId) (rv : Revid) (m : PathState)
    (q : Pathname) (data : LocalChange) (m' : PathState)
    (hok : applyOne fc rn rv m (q, data) = .ok m') (x : Pathname) :
    m' x = m x ∨ m' x = none ∨ ∃ e, m' x = some e ∧ e.2 = rv := by
  obtain ⟨m1, m2, hp1, hp2, h3⟩ := applyOne_parts fc rn rv m q data m' hok
  have hm1 : m1 x = m x ∨ m1 x = none := by
    rcases hp1 with ⟨_, he⟩ | ⟨_, _, he⟩
    · rw [he]; exact Or.inl rfl
    · rw [he]
      by_cases h5 : (q ++ ['/']).isPrefixOf x
      · right
        show (if (q ++ ['/']).isPrefixOf x then none
          else if x = q then none else m x) = none
        rw [if_pos h5]
      · by_cases h6 : x = q
        · right
          show (if (q ++ ['/']).isPrefixOf x then none
            else if x = q then none else m x) = none
          rw [if_neg h5, if_pos h6]
        · left
          show (if (q ++ ['/']).isPrefixOf x then none
            else if x = q then none else m x) = m x
          rw [if_neg h5, if_neg h6]
  have hm2 : m2 x = m x ∨ m2 x = none ∨ ∃ e, m2 x = some e ∧ e.2 = rv := by
    rcases hp2 with ⟨_, _, he⟩ | ⟨_, sr, _, he⟩ | ⟨_, _, e0, _, he⟩ | ⟨_, _, he⟩
    · rw [he]
      by_cases hxq : x = q
      · refine Or.inr (Or.inr ⟨(new_file_id rn rv q, rv), ?_, rfl⟩)
        show (if x = q then some (new_file_id rn rv q, rv) else m1 x) = _
        rw [if_pos hxq]
      · have h5 : upd m1 q (new_file_id rn rv q, rv) x = m1 x := by
          show (if x = q then some (new_file_id rn rv q, rv) else m1 x) = m1 x
          rw [if_neg hxq]
        rw [h5]
        rcases hm1 with h6 | h6
        · exact Or.inl h6
        · exact Or.inr (Or.inl h6)
    · rw [he]
      rcases foldl_upd_cases (fun c => replaceOnce sr.1 q c)
        (fun c => (new_file_id rn rv c, rv)) (fc sr.1 sr.2)
        (upd m1 q (new_file_id rn rv q, rv)) x with h6 | ⟨c, _, _, h7⟩
      · rw [h6]
        by_cases hxq : x = q
        · refine Or.inr (Or.inr ⟨(new_file_id rn rv q, rv), ?_, rfl⟩)
          show (if x = q then some (new_file_id rn rv q, rv) else m1 x) = _
          rw [if_pos hxq]
        · have h5 : upd m1 q (new_file_id rn rv q, rv) x = m1 x := by
            show (if x = q then some (new_file_id rn rv q, rv) else m1 x) = m1 x
            rw [if_neg hxq]
          rw [h5]
          rcases hm1 with h8 | h8
          · exact Or.inl h8
          · exact Or.inr (Or.inl h8)
      · exact Or.inr (Or.inr ⟨(new_file_id rn rv c, rv), h7, rfl⟩)
    · rw [he]
      by_cases hxq : x = q
      · refine Or.inr (Or.inr ⟨(e0.1, rv), ?_, rfl⟩)
        show (if x = q then some (e0.1, rv) else m1 x) = _
        rw [if_pos hxq]
      · have h5 : upd m1 q (e0.1, rv) x = m1 x := by
          show (if x = q then some (e0.1, rv) else m1 x) = m1 x
          rw [if_neg hxq]
        rw [h5]
        rcases hm1 with h6 | h6
        · exact Or.inl h6
        · exact Or.inr (Or.inl h6)
    · rw [he]
      rcases hm1 with h6 | h6
      · exact Or.inl h6
      · exact Or.inr (Or.inl h6)
  rcases touchParents_pointwise rv q (ancestors q) m2 m' h3 x with h5 | ⟨ea, _, hb⟩
  · rw [h5]
    exact hm2
  · exact Or.inr (Or.inr ⟨(ea.1, rv), hb, rfl⟩)

/-- The projection invariant at revision number n: every live entry was
last touched at revision at most n, all its ancestors are live, and every
ancestor carries a revision at least as new as the entry itself. -/
def invariantAt (n : Nat) (m : PathState) : Prop :=
  ∀ k e, m k = some e → revnumOf e.2 ≤ n ∧
    ∀ a ∈ ancestors k, ∃ ea, m a = some ea ∧ revnumOf e.2 ≤ revnumOf ea.2

theorem invariantAt_mono (n n2 : Nat) (m : PathState) (h : invariantAt n m)
    (hle : n ≤ n2) : invariantAt n2 m := by
  intro k e hk
  obtain ⟨h1, h2⟩ := h k e hk
  exact ⟨le_trans h1 hle, h2⟩

theorem invariantAt_rMarkedClosed (n : Nat) (m : PathState) (rv : Revid)
    (h : invariantAt n m) (hgt : n < revnumOf rv) : rMarkedClosed rv m := by
  intro k e hk herv
  exfalso
  have h1 := (h k e hk).1
  rw [herv] at h1
  omega

theorem applyOne_preserves_invariantAt (fc : Pathname → Revid → List Pathname)
    (rn : Pathname → Option FileId) (rv : Revid) (m : PathState)
    (q : Pathname) (data : LocalChange) (m' : PathState)
    (hfc : ∀ s r c, c ∈ fc s r → ∃ rest, c = s ++ '/' :: rest)
    (hcl : ∀ s r rest, (s ++ '/' :: rest) ∈ fc s r →
      ∀ u ∈ ancestors rest, (s ++ '/' :: u) ∈ fc s r)
    (hinv : invariantAt (revnumOf rv) m)
    (hJ3 : rMarkedClosed rv m)
    (hok : applyOne fc rn rv m (q, data) = .ok m') :
    invariantAt (revnumOf rv) m' := by
  have hJ3b : rMarkedClosed rv m' :=
    applyOne_preserves_rMarkedClosed fc rn rv m q data m' hfc hcl hJ3 hok
  intro k e' hk
  constructor
  · rcases applyOne_pointwise fc rn rv m q data m' hok k with h | h | ⟨e2, he2, hrv2⟩
    · exact (hinv k e' (by rw [← h]; exact hk)).1
    · rw [h] at hk; cases hk
    · rw [he2] at hk
      rw [Option.some.inj hk] at hrv2
      rw [hrv2]
  · intro a ha
    by_cases hrvk : e'.2 = rv
    · obtain ⟨ea, h1, h2⟩ := hJ3b k e' hk hrvk a ha
      refine ⟨ea, h1, ?_⟩
      rw [hrvk, h2]
    · have hkm : m' k = m k := by
        rcases applyOne_pointwise fc rn rv m q data m' hok k with h | h | ⟨e2, he2, hrv2⟩
        · exact h
        · rw [h] at hk; cases hk
        · exfalso
          rw [he2] at hk
          rw [Option.some.inj hk] at hrv2
          exact hrvk hrv2
      have hmk : m k = some e' := by rw [← hkm]; exact hk
      obtain ⟨ea, hma, hle⟩ := (hinv k e' hmk).2 a ha
      rcases applyOne_pointwise fc rn rv m q data m' hok a with h | h | ⟨e2, he2, hrv2⟩
      · exact ⟨ea, by rw [h]; exact hma, hle⟩
      · exfalso
        have hgone := applyOne_gone fc rn rv m q data m' hok a
          (by rw [hma]; exact fun h5 => Option.noConfusion h5) h
        obtain ⟨w, hw⟩ := ancestors_mem_slash k a ha
        have hsubk : inSubtree q k := by
          rcases hgone.2 with h5 | ⟨r2, h5⟩
          · right
            exact ⟨w, by rw [← h5]; exact hw⟩
          · right
            refine ⟨r2 ++ '/' :: w, ?_⟩
            rw [hw, h5]
            simp
        rcases applyOne_subtree_alive fc rn rv m q data m' hok hgone.1
          k hsubk e' hk with h2 | ⟨hact2, sr, hcs, c, hc, hkc⟩
        · rw [h2] at ha
          rcases hgone.2 with h5 | ⟨r2, h5⟩
          · exact (ancestors_mem_ne_self q a ha) h5
          · exact (ancestors_mem_not_subtree q a ha) r2 h5
        · obtain ⟨e3, he3, hrv3⟩ := applyOne_dest_rv fc rn rv m q data m' hfc hok
            sr hcs hact2 c hc
          rw [← hkc] at he3
          rw [hk] at he3
          rw [Option.some.inj he3] at hrvk
          exact hrvk hrv3
      · refine ⟨e2, he2, ?_⟩
        rw [hrv2]
        exact (hinv k e' hmk).1

theorem applyList_preserves_invariantAt (fc : Pathname → Revid → List Pathname)
    (rn : Pathname → Option FileId) (rv : Revid)
    (hfc : ∀ s r c, c ∈ fc s r → ∃ rest, c = s ++ '/' :: rest)
    (hcl : ∀ s r rest, (s ++ '/' :: rest) ∈ fc s r →
      ∀ u ∈ ancestors rest, (s ++ '/' :: u) ∈ fc s r) :
    ∀ (l : List (Pathname × LocalChange)) (m m' : PathState),
    invariantAt (revnumOf rv) m → rMarkedClosed rv m →
    applyList fc rn rv l m = .ok m' → invariantAt (revnumOf rv) m' := by
  intro l
  induction l with
  | nil =>
    intro m m' h1 _ h
    cases h
    exact h1
  | cons x rest ih =>
    intro m m' h1 h2 h
    rw [applyList] at h
    obtain ⟨m1, hx, hrest⟩ := except_bind_ok _ _ _ h
    exact ih m1 m'
      (applyOne_preserves_invariantAt fc rn rv m x.1 x.2 m1 hfc hcl h1 h2 hx)
      (applyOne_preserves_rMarkedClosed fc rn rv m x.1 x.2 m1 hfc hcl h2 hx)
      hrest

theorem apply_changes_preserves_invariantAt (fc : Pathname → Revid → List Pathname)
    (rn : Pathname → Option FileId) (rv : Revid)
    (changes : List (Pathname × LocalChange)) (m m' : PathState)
    (hfc : ∀ s r c, c ∈ fc s r → ∃ rest, c = s ++ '/' :: rest)
    (hcl : ∀ s r rest, (s ++ '/' :: rest) ∈ fc s r →
      ∀ u ∈ ancestors rest, (s ++ '/' :: u) ∈ fc s r)
    (h1 : invariantAt (revnumOf rv) m) (h2 : rMarkedClosed rv m)
    (h : apply_changes fc rn rv changes m = .ok m') :
    invariantAt (revnumOf rv) m' := by
  rw [apply_changes] at h
  exact applyList_preserves_invariantAt fc rn rv hfc hcl _ m m' h1 h2 h

theorem foldTodo_invariant (log : Log) (uuid : List Char)
    (rncb : Revid → Pathname → Option FileId) (r : Nat)
    (hfc : ∀ s rv c, c ∈ findChildrenVia log s rv → ∃ rest, c = s ++ '/' :: rest)
    (hcl : ∀ s rv rest, (s ++ '/' :: rest) ∈ findChildrenVia log s rv →
      ∀ u ∈ ancestors rest, (s ++ '/' :: u) ∈ findChildrenVia log s rv) :
    ∀ (todo : List (Revid × List (Pathname × RawChange))) (n : Nat)
      (m mf : PathState),
    invariantAt n m → n ≤ r →
    todo.Pairwise (fun a b => revnumOf a.1 < revnumOf b.1) →
    (∀ e ∈ todo, n < revnumOf e.1 ∧ revnumOf e.1 ≤ r) →
    foldTodo log uuid rncb todo m = .ok mf → invariantAt r mf := by
  intro todo
  induction todo with
  | nil =>
    intro n m mf hinv hnr _ _ h
    cases h
    exact invariantAt_mono n r m hinv hnr
  | cons e0 rest ih =>
    intro n m mf hinv hnr hpw hbnd h
    rw [foldTodo] at h
    obtain ⟨m1, h1, h2⟩ := except_bind_ok _ _ _ h
    have hgt : n < revnumOf e0.1 := (hbnd e0 (List.mem_cons_self _ _)).1
    have hJ3 := invariantAt_rMarkedClosed n m e0.1 hinv hgt
    have hinv0 : invariantAt (revnumOf e0.1) m :=
      invariantAt_mono n _ m hinv (le_of_lt hgt)
    have hinv1 : invariantAt (revnumOf e0.1) m1 :=
      apply_changes_preserves_invariantAt (findChildrenVia log) (rncb e0.1) e0.1
        _ m m1 hfc hcl hinv0 hJ3 h1
    refine ih (revnumOf e0.1) m1 mf hinv1 (hbnd e0 (List.mem_cons_self _ _)).2
      (List.pairwise_cons.mp hpw).2 ?_ h2
    intro e2 he2
    exact ⟨(List.pairwise_cons.mp hpw).1 e2 he2,
      (hbnd e2 (List.mem_cons_of_mem _ he2)).2⟩

theorem genesisState_invariant (log : Log) (uuid : List Char) :
    invariantAt 0 (genesisState log uuid) := by
  intro k e hk
  rw [genesisState] at hk
  by_cases hb : log.scheme.is_branch []
  · rw [if_pos hb] at hk
    have h5 : (if k = [] then some (generate_svn_file_id uuid 0 [] [], Revid.null)
      else none) = some e := hk
    by_cases hk0 : k = []
    · rw [if_pos hk0] at h5
      have he : e = (generate_svn_file_id uuid 0 [] [], Revid.null) :=
        (Option.some.inj h5).symm
      constructor
      · rw [he]
        exact le_refl 0
      · intro a ha
        rw [hk0] at ha
        rw [show ancestors [] = [] from rfl] at ha
        exact absurd ha (List.not_mem_nil a)
    · rw [if_neg hk0] at h5
      cases h5
  · rw [if_neg hb] at hk
    cases hk

theorem get_map_emptyCache_inversion (log : Log) (uuid : List Char) (r : Nat)
    (branch : Pathname) (rncb : Revid → Pathname → Option FileId) (mf : PathState)
    (hok : get_map log emptyCache false uuid r branch rncb = .ok mf) :
    (r = 0 ∧ mf = emptyState) ∨
    ((todoOf uuid (log.follow_history branch r)).isEmpty = true ∧
      mf = genesisState log uuid) ∨
    foldTodo log uuid rncb (todoOf uuid (log.follow_history branch r)).reverse
      (genesisState log uuid) = .ok mf := by
  rw [get_map] at hok
  by_cases h0 : r = 0
  · rw [if_pos h0] at hok
    exact Or.inl ⟨h0, (Except.ok.inj hok).symm⟩
  · rw [if_neg h0] at hok
    simp only [getMapAux] at hok
    rw [findCached_none emptyCache uuid _ (fun x _ => rfl)] at hok
    dsimp only at hok
    by_cases hemp : (todoOf uuid (log.follow_history branch r)).isEmpty
    · rw [if_pos hemp] at hok
      exact Or.inr (Or.inl ⟨hemp, (Except.ok.inj hok).symm⟩)
    · rw [if_neg hemp] at hok
      right; right
      cases hfold : foldTodo log uuid rncb
          (todoOf uuid (log.follow_history branch r)).reverse
          (genesisState log uuid) with
      | error e =>
        rw [hfold] at hok
        cases hok
      | ok m2 =>
        rw [hfold] at hok
        dsimp only at hok
        rw [if_neg Bool.false_ne_true] at hok
        rw [← Except.ok.inj hok]

def c6hist : List (Pathname × List (Pathname × RawChange) × Nat) :=
  [([], [(['a'], ('M', none))], 3),
   ([], [(('a' :: '/' :: 'x' :: []), ('A', none))], 2),
   ([], [(['a'], ('A', none))], 1)]

def c6log : Log := ⟨sampleScheme, fun _ _ => c6hist, fun _ _ => []⟩

/-- Counterexample to claim C6 as stated: after projecting the history
add a (r1); add a/x (r2); modify a (r3) to revision 3, the parent a was
last touched at revision 3 while its child a/x was last touched at
revision 2, so parent.lastTouched ≤ child.lastTouched fails. -/
theorem C6_monotonicity_counterexample :
    ∃ m ex ep, get_map c6log emptyCache false ['u'] 3 [] (fun _ _ => none) = .ok m ∧
      m ('a' :: '/' :: 'x' :: []) = some ex ∧ m ['a'] = some ep ∧
      ¬ revnumOf ep.2 ≤ revnumOf ex.2 :=
  ⟨_, _, _, rfl, rfl, rfl, by decide⟩

/-- Claim C6 amended: the true ancestor invariant of the projection runs
the other way.  In every state produced by get_map from a cold cache to
revision r (over a newest-first history with strictly decreasing positive
revision numbers at most r, and a descendant-closed child finder), every
live path was last touched at revision at most r, all its ancestor paths
inside the branch are live, and each ancestor was last touched at least
as recently as the path itself; the branch root has no ancestor entry in
the walk and is exempt. -/
theorem C6_ancestor_monotonicity (log : Log) (uuid : List Char) (r : Nat)
    (branch : Pathname) (rncb : Revid → Pathname → Option FileId) (mf : PathState)
    (hfc : ∀ s rv c, c ∈ findChildrenVia log s rv → ∃ rest, c = s ++ '/' :: rest)
    (hcl : ∀ s rv rest, (s ++ '/' :: rest) ∈ findChildrenVia log s rv →
      ∀ u ∈ ancestors rest, (s ++ '/' :: u) ∈ findChildrenVia log s rv)
    (hhist : (log.follow_history branch r).Pairwise (fun a b => b.2.2 < a.2.2))
    (hbnd : ∀ e ∈ log.follow_history branch r, 1 ≤ e.2.2 ∧ e.2.2 ≤ r)
    (hok : get_map log emptyCache false uuid r branch rncb = .ok mf) :
    ∀ k e, mf k = some e → revnumOf e.2 ≤ r ∧
      ∀ a ∈ ancestors k, ∃ ea, mf a = some ea ∧
        revnumOf e.2 ≤ revnumOf ea.2 := by
  rcases get_map_emptyCache_inversion log uuid r branch rncb mf hok with
    ⟨_, hmf⟩ | ⟨_, hmf⟩ | hfold
  · rw [hmf]
    intro k e hk
    cases hk
  · rw [hmf]
    exact invariantAt_mono 0 r _ (genesisState_invariant log uuid) (Nat.zero_le r)
  · refine foldTodo_invariant log uuid rncb r hfc hcl
      (todoOf uuid (log.follow_history branch r)).reverse 0
      (genesisState log uuid) mf (genesisState_invariant log uuid) (Nat.zero_le r)
      ?_ ?_ hfold
    · rw [todoOf, List.pairwise_reverse, List.pairwise_map]
      exact hhist
    · intro e2 he2
      rw [todoOf, List.mem_reverse, List.mem_map] at he2
      obtain ⟨x, hx, hxe⟩ := he2
      have hrv : revnumOf e2.1 = x.2.2 := by
        rw [← hxe]
        rfl
      obtain ⟨h1, h2⟩ := hbnd x hx
      rw [hrv]
      omega

/-- Witness for the amended claim C6 at the three-revision sample history:
the child a/x is live with revision at most 3 and its parent a is live and
at least as recently touched. -/
theorem C6_ancestor_monotonicity_witness :
    ∃ mf ex, get_map c6log emptyCache false ['u'] 3 [] (fun _ _ => none) = .ok mf ∧
      mf ('a' :: '/' :: 'x' :: []) = some ex ∧
      revnumOf ex.2 ≤ 3 ∧
      ∃ ea, mf ['a'] = some ea ∧ revnumOf ex.2 ≤ revnumOf ea.2 := by
  refine ⟨_, _, rfl, rfl, ?_, ?_⟩
  · exact (C6_ancestor_monotonicity c6log ['u'] 3 [] (fun _ _ => none) _
      (fun s rv c hc => by cases rv <;> exact absurd hc (List.not_mem_nil c))
      (fun s rv rest hr => by cases rv <;> exact absurd hr (List.not_mem_nil _))
      (by decide) (by decide) rfl ('a' :: '/' :: 'x' :: []) _ rfl).1
  · exact (C6_ancestor_monotonicity c6log ['u'] 3 [] (fun _ _ => none) _
      (fun s rv c hc => by cases rv <;> exact absurd hc (List.not_mem_nil c))
      (fun s rv rest hr => by cases rv <;> exact absurd hr (List.not_mem_nil _))
      (by decide) (by decide) rfl ('a' :: '/' :: 'x' :: []) _ rfl).2 ['a'] (by decide)

def c7changes : List (Pathname × LocalChange) :=
  [(['b'], ('A', some (['s'], Revid.null))),
   (('b' :: '/' :: 'x' :: []), ('A', none))]

def c7fc : Pathname → Revid → List Pathname := fun s _ =>
  if s = ['s'] then [('s' :: '/' :: 'x' :: [])] else []

def c7state : PathState := fun q =>
  if q = ['b'] then some (generate_svn_file_id ['u'] 0 [] ['b'], Revid.null)
  else none

def c7rev : Revid := Revid.svn ['u'] [] 1

/-- Counterexample to claim C7 as stated: on a state holding b, the
changeset adding b with copy source s (child s/x) and adding b/x succeeds
in the engine's sorted order and in the reversed order, but the sorted
order leaves b/x with the id derived from b/x while the reversed order
leaves it with the id derived from s/x. -/
theorem C7_order_independence_counterexample :
    sortBy (fun a b => lexLe a.1 b.1) c7changes = c7changes ∧
    c7changes.reverse.Perm c7changes ∧
    (∃ mA, applyList c7fc (fun _ => none) c7rev c7changes c7state = .ok mA ∧
      mA ('b' :: '/' :: 'x' :: []) =
        some (generate_svn_file_id ['u'] 1 [] ('b' :: '/' :: 'x' :: []), c7rev)) ∧
    (∃ mB, applyList c7fc (fun _ => none) c7rev c7changes.reverse c7state = .ok mB ∧
      mB ('b' :: '/' :: 'x' :: []) =
        some (generate_svn_file_id ['u'] 1 [] ('s' :: '/' :: 'x' :: []), c7rev)) :=
  ⟨by decide, by decide, ⟨_, rfl, rfl⟩, ⟨_, rfl, rfl⟩⟩

/-- The walked prefix of an ancestor list: the entries the touch loop
updates before it breaks at an entry already carrying the revision id;
none if it hits an absent entry first.  Reads the state statically, which
matches the loop because each entry is read before it could be updated. -/
def touchWalk (rv : Revid) : List Pathname → PathState → Option (List Pathname)
  | [], _ => some []
  | a :: rest, m =>
    match m a with
    | none => none
    | some e => if e.2 = rv then some [] else (touchWalk rv rest m).map (a :: ·)

/-- Apply a walk: stamp the walked entries with the revision id. -/
def touchApply (rv : Revid) (m : PathState) (ws : List Pathname) : PathState :=
  fun k => if k ∈ ws then
    (match m k with
     | some e => some (e.1, rv)
     | none => none)
  else m k

theorem touchWalk_stable (rv : Revid) :
    ∀ (l : List Pathname) (m m2 : PathState), (∀ b ∈ l, m b = m2 b) →
    touchWalk rv l m = touchWalk rv l m2 := by
  intro l
  induction l with
  | nil => intro m m2 _; rfl
  | cons a rest ih =>
    intro m m2 hag
    rw [touchWalk, touchWalk, ← hag a (List.mem_cons_self _ _),
      ih m m2 (fun b hb => hag b (List.mem_cons_of_mem _ hb))]

theorem touchWalk_isPrefix (rv : Revid) :
    ∀ (l : List Pathname) (m : PathState) (ws : List Pathname),
    touchWalk rv l m = some ws → ws <+: l := by
  intro l
  induction l with
  | nil =>
    intro m ws h
    rw [touchWalk] at h
    rw [← Option.some.inj h]
  | cons a rest ih =>
    intro m ws h
    rw [touchWalk] at h
    cases hma : m a with
    | none => rw [hma] at h; cases h
    | some e =>
      rw [hma] at h
      dsimp only at h
      by_cases he : e.2 = rv
      · rw [if_pos he] at h
        rw [← Option.some.inj h]
        exact List.nil_prefix
      · rw [if_neg he] at h
        cases hw : touchWalk rv rest m with
        | none => rw [hw] at h; cases h
        | some ws2 =>
          rw [hw] at h
          dsimp only [Option.map] at h
          rw [← Option.some.inj h]
          obtain ⟨t, ht⟩ := ih m ws2 hw
          exact ⟨t, by rw [List.cons_append, ht]⟩

theorem touchParents_of_touchWalk (rv : Revid) (p0 : Pathname) :
    ∀ (l : List Pathname) (m : PathState) (ws : List Pathname), l.Nodup →
    touchWalk rv l m = some ws →
    touchParents rv p0 l m = .ok (touchApply rv m ws) := by
  intro l
  induction l with
  | nil =>
    intro m ws _ h
    rw [touchWalk] at h
    rw [touchParents, ← Option.some.inj h]
    refine congrArg Except.ok (funext fun k => ?_)
    show m k = (if k ∈ ([] : List Pathname) then _ else m k)
    rw [if_neg (List.not_mem_nil k)]
  | cons a rest ih =>
    intro m ws hnd h
    rw [touchWalk] at h
    cases hma : m a with
    | none => rw [hma] at h; cases h
    | some e =>
      rw [hma] at h
      dsimp only at h
      rw [touchParents, hma]
      dsimp only
      by_cases he : e.2 = rv
      · rw [if_pos he] at h
        rw [if_pos he, ← Option.some.inj h]
        refine congrArg Except.ok (funext fun k => ?_)
        show m k = (if k ∈ ([] : List Pathname) then _ else m k)
        rw [if_neg (List.not_mem_nil k)]
      · rw [if_neg he] at h
        rw [if_neg he]
        cases hw : touchWalk rv rest m with
        | none => rw [hw] at h; cases h
        | some ws2 =>
          rw [hw] at h
          dsimp only [Option.map] at h
          have hnd2 := List.nodup_cons.mp hnd
          have hws2 : touchWalk rv rest (upd m a (e.1, rv)) = some ws2 := by
            rw [touchWalk_stable rv rest (upd m a (e.1, rv)) m ?_]
            · exact hw
            · intro b hb
              show (if b = a then some (e.1, rv) else m b) = m b
              rw [if_neg (fun hba => hnd2.1 (by rw [← hba]; exact hb))]
          rw [ih (upd m a (e.1, rv)) ws2 hnd2.2 hws2]
          rw [← Option.some.inj h]
          refine congrArg Except.ok (funext fun k => ?_)
          have hsub := touchWalk_isPrefix rv rest m ws2 hw
          show (if k ∈ ws2 then _ else upd m a (e.1, rv) k) =
            (if k ∈ a :: ws2 then _ else m k)
          by_cases hka : k = a
          · have hkn : k ∉ ws2 := fun hks =>
              hnd2.1 (hka ▸ hsub.subset hks)
            rw [if_neg hkn, if_pos (by rw [hka]; exact List.mem_cons_self _ _)]
            show (if k = a then some (e.1, rv) else m k) = _
            rw [if_pos hka, hka, hma]
          · by_cases hks : k ∈ ws2
            · rw [if_pos hks, if_pos (List.mem_cons_of_mem _ hks)]
              have : upd m a (e.1, rv) k = m k := by
                show (if k = a then some (e.1, rv) else m k) = m k
                rw [if_neg hka]
              rw [this]
            · rw [if_neg hks, if_neg (by
                intro hmem
                rcases List.mem_cons.mp hmem with h5 | h5
                · exact hka h5
                · exact hks h5)]
              show (if k = a then some (e.1, rv) else m k) = m k
              rw [if_neg hka]

theorem touchParents_of_touchWalk_none (rv : Revid) (p0 : Pathname) :
    ∀ (l : List Pathname) (m : PathState), l.Nodup →
    touchWalk rv l m = none →
    ∀ m', touchParents rv p0 l m ≠ .ok m' := by
  intro l
  induction l with
  | nil =>
    intro m _ h
    rw [touchWalk] at h
    cases h
  | cons a rest ih =>
    intro m hnd h m' hok
    rw [touchWalk] at h
    rw [touchParents] at hok
    cases hma : m a with
    | none => rw [hma] at hok; cases hok
    | some e =>
      rw [hma] at h hok
      dsimp only at h hok
      by_cases he : e.2 = rv
      · rw [if_pos he] at h
        cases h
      · rw [if_neg he] at h hok
        have hnd2 := List.nodup_cons.mp hnd
        cases hw : touchWalk rv rest m with
        | some ws2 => rw [hw] at h; cases h
        | none =>
          have hws2 : touchWalk rv rest (upd m a (e.1, rv)) = none := by
            rw [touchWalk_stable rv rest (upd m a (e.1, rv)) m ?_]
            · exact hw
            · intro b hb
              show (if b = a then some (e.1, rv) else m b) = m b
              rw [if_neg (fun hba => hnd2.1 (by rw [← hba]; exact hb))]
          exact ih (upd m a (e.1, rv)) hnd2.2 hws2 m' hok

theorem touchWalk_append (rv : Revid) :
    ∀ (P S : List Pathname) (m : PathState),
    touchWalk rv (P ++ S) m =
      match touchWalk rv P m with
      | none => none
      | some ws => if ws = P then (touchWalk rv S m).map (P ++ ·) else some ws := by
  intro P
  induction P with
  | nil =>
    intro S m
    rw [List.nil_append]
    show touchWalk rv S m = if ([] : List Pathname) = [] then
      (touchWalk rv S m).map ([] ++ ·) else some []
    rw [if_pos rfl]
    cases hw : touchWalk rv S m with
    | none => rfl
    | some ws =>
      dsimp only [Option.map]
      rw [List.nil_append]
  | cons a P2 ih =>
    intro S m
    rw [List.cons_append, touchWalk, touchWalk]
    cases hma : m a with
    | none => rfl
    | some e =>
      dsimp only
      by_cases he : e.2 = rv
      · rw [if_pos he, if_pos he]
        dsimp only
        rw [if_neg (by simp : ([] : List Pathname) ≠ a :: P2)]
      · rw [if_neg he, if_neg he]
        rw [ih S m]
        cases hw : touchWalk rv P2 m with
        | none => rfl
        | some ws2 =>
          dsimp only [Option.map]
          by_cases hc : ws2 = P2
          · rw [if_pos hc]
            rw [if_pos (by rw [hc])]
            cases hs : touchWalk rv S m with
            | none => rfl
            | some ws3 =>
              rfl
          · rw [if_neg hc, if_neg (fun h5 => hc (List.cons.inj h5).2)]

theorem list_find_first {α : Type} (L2 : List α) :
    ∀ (l : List α), (∀ a ∈ l, a ∉ L2) ∨
      ∃ P a S, l = P ++ a :: S ∧ a ∈ L2 ∧ ∀ b ∈ P, b ∉ L2 := by
  intro l
  induction l with
  | nil => left; intro a ha; exact absurd ha (List.not_mem_nil a)
  | cons x rest ih =>
    by_cases hx : x ∈ L2
    · right
      exact ⟨[], x, rest, rfl, hx, fun b hb => absurd hb (List.not_mem_nil b)⟩
    · rcases ih with h | ⟨P, a, S, hdec, haL, hP⟩
      · left
        intro a ha
        rcases List.mem_cons.mp ha with h5 | h5
        · rw [h5]; exact hx
        · exact h a h5
      · right
        refine ⟨x :: P, a, S, by rw [List.cons_append, hdec], haL, ?_⟩
        intro b hb
        rcases List.mem_cons.mp hb with h5 | h5
        · rw [h5]; exact hx
        · exact hP b h5

/-- The common ancestors of two paths form a common suffix of their
ancestor lists: either the lists are disjoint, or they agree from the
nearest common ancestor downward. -/
theorem ancestors_shared_suffix (p q : Pathname) :
    (∀ a ∈ ancestors p, a ∉ ancestors q) ∨
    ∃ a P Q, ancestors p = P ++ a :: ancestors a ∧
      ancestors q = Q ++ a :: ancestors a ∧
      (∀ b ∈ P, b ∉ ancestors q) ∧ (∀ b ∈ Q, b ∉ ancestors p) := by
  rcases list_find_first (ancestors q) (ancestors p) with h | ⟨P, a, S, hdec, haq, hP⟩
  · left; exact h
  · right
    obtain ⟨Q, S2, hdec2⟩ := List.append_of_mem haq
    have hS : S = ancestors a := (ancestors_decomp p P a S hdec).symm
    have hS2 : S2 = ancestors a := (ancestors_decomp q Q a S2 hdec2).symm
    refine ⟨a, P, Q, by rw [hdec, hS], by rw [hdec2, hS2], hP, ?_⟩
    intro b hbQ hbp
    -- b ∈ Q is strictly above a in the ancestors of q, and b ∈ ancestors p;
    -- the first element of ancestors p that lies in ancestors q is a, so b
    -- must be a or below it in ancestors p, i.e. in a :: ancestors a,
    -- but Q-members precede a in ancestors q and the list has no duplicates.
    have hbq : b ∈ ancestors q := by
      rw [hdec2]
      exact List.mem_append_left _ hbQ
    -- locate b in ancestors p: not in P (hP), so in a :: S
    have hbPS : b ∈ P ++ a :: S := by rw [← hdec]; exact hbp
    rcases List.mem_append.mp hbPS with h5 | h5
    · exact hP b h5 hbq
    · -- b ∈ a :: ancestors a, which is a suffix of ancestors q after Q;
      -- nodup of ancestors q forbids b appearing in Q as well
      have hnd := ancestors_nodup q
      rw [hdec2] at hnd
      rw [hS] at h5
      have h6 := (List.nodup_append.mp hnd).2.2
      exact h6 hbQ (by rw [hS2]; exact h5)

/-- Two paths neither equal nor one inside the subtree of the other. -/
def unrelatedP (p q : Pathname) : Prop :=
  p ≠ q ∧ (q ++ ['/']).isPrefixOf p = false ∧ (p ++ ['/']).isPrefixOf q = false

theorem unrelatedP_symm (p q : Pathname) (h : unrelatedP p q) : unrelatedP q p :=
  ⟨fun he => h.1 he.symm, h.2.2, h.2.1⟩

theorem unrelatedP_not_slash (p q : Pathname) (h : unrelatedP p q) :
    ∀ r, p ≠ q ++ '/' :: r := by
  intro r he
  have h2 : (q ++ ['/']).isPrefixOf p = true := by
    rw [he, show q ++ '/' :: r = (q ++ ['/']) ++ r from by simp]
    exact isPrefixOf_append_self _ _
  rw [h.2.1] at h2
  cases h2

theorem unrelatedP_not_inSubtree (p q : Pathname) (h : unrelatedP p q) :
    ¬ inSubtree q p := by
  intro hs
  rcases hs with hs | ⟨r, hs⟩
  · exact h.1 hs
  · exact unrelatedP_not_slash p q h r hs

theorem unrelated_subtrees_disjoint (p q : Pathname) (h : unrelatedP p q) :
    ∀ k, inSubtree p k → ¬ inSubtree q k := by
  intro k hp hq
  rcases hp with hp1 | ⟨r1, hp1⟩ <;> rcases hq with hq1 | ⟨r2, hq1⟩
  · exact h.1 (hp1.symm.trans hq1)
  · exact unrelatedP_not_slash p q h r2 (hp1.symm.trans hq1)
  · exact unrelatedP_not_slash q p (unrelatedP_symm p q h) r1 (hq1.symm.trans hp1)
  · rw [hp1] at hq1
    rcases slashPrefix_comparable p r1 q r2 hq1 with h5 | ⟨r, h5⟩ | ⟨r, h5⟩
    · exact h.1 h5
    · exact unrelatedP_not_slash q p (unrelatedP_symm p q h) r h5
    · exact unrelatedP_not_slash p q h r h5

theorem unrelated_subtree_ancestors (p q : Pathname) (h : unrelatedP p q) :
    ∀ k, inSubtree p k → k ∉ ancestors q := by
  intro k hp hk
  obtain ⟨w, hw⟩ := ancestors_mem_slash q k hk
  rcases hp with hp1 | ⟨r1, hp1⟩
  · exact unrelatedP_not_slash q p (unrelatedP_symm p q h) w (by rw [hw, hp1])
  · refine unrelatedP_not_slash q p (unrelatedP_symm p q h) (r1 ++ '/' :: w) ?_
    rw [hw, hp1]
    simp

/-- The delete/replace pre-step and the add/copy/modify step of one loop
iteration, without the ancestor touch. -/
def phase12 (fc : Pathname → Revid → List Pathname)
    (rn : Pathname → Option FileId) (rv : Revid) (m : PathState)
    (pc : Pathname × LocalChange) : Except ConsistencyError PathState :=
  (if pc.2.1 = 'D' ∨ pc.2.1 = 'R' then
     match m pc.1 with
     | none => Except.error (ConsistencyError.deleteAbsent pc.1)
     | some _ => Except.ok (delTree (del m pc.1) pc.1)
   else Except.ok m) >>= fun m1 =>
  (if pc.2.1 = 'A' ∨ pc.2.1 = 'R' then
     match pc.2.2 with
     | none => Except.ok (upd m1 pc.1 (new_file_id rn rv pc.1, rv))
     | some sr =>
       Except.ok ((fc sr.1 sr.2).foldl
         (fun acc c => upd acc (replaceOnce sr.1 pc.1 c) (new_file_id rn rv c, rv))
         (upd m1 pc.1 (new_file_id rn rv pc.1, rv)))
   else if pc.2.1 = 'M' then
     match m1 pc.1 with
     | none => Except.error (ConsistencyError.modifyAbsent pc.1)
     | some e => Except.ok (upd m1 pc.1 (e.1, rv))
   else Except.ok m1)

theorem except_bind_assoc {ε α β γ : Type} (x : Except ε α) (f : α → Except ε β)
    (g : β → Except ε γ) : (x >>= f) >>= g = x >>= fun a => f a >>= g := by
  cases x <;> rfl

theorem applyOne_as_phase12 (fc : Pathname → Revid → List Pathname)
    (rn : Pathname → Option FileId) (rv : Revid) (m : PathState)
    (q : Pathname) (data : LocalChange) :
    applyOne fc rn rv m (q, data) =
      phase12 fc rn rv m (q, data) >>= touchParents rv q (ancestors q) := by
  rw [applyOne_eq]
  exact (except_bind_assoc _ _ _).symm

theorem phase12_parts (fc : Pathname → Revid → List Pathname)
    (rn : Pathname → Option FileId) (rv : Revid) (m : PathState)
    (q : Pathname) (data : LocalChange) (w : PathState)
    (h : phase12 fc rn rv m (q, data) = .ok w) :
    ∃ m1,
      ((¬(data.1 = 'D' ∨ data.1 = 'R') ∧ m1 = m) ∨
        ((data.1 = 'D' ∨ data.1 = 'R') ∧ (∃ e0, m q = some e0) ∧
          m1 = delTree (del m q) q)) ∧
      (((data.1 = 'A' ∨ data.1 = 'R') ∧ data.2 = none ∧
          w = upd m1 q (new_file_id rn rv q, rv)) ∨
       ((data.1 = 'A' ∨ data.1 = 'R') ∧ ∃ sr, data.2 = some sr ∧
          w = (fc sr.1 sr.2).foldl
            (fun acc c => upd acc (replaceOnce sr.1 q c) (new_file_id rn rv c, rv))
            (upd m1 q (new_file_id rn rv q, rv))) ∨
       (data.1 = 'M' ∧ ¬(data.1 = 'A' ∨ data.1 = 'R') ∧ ∃ e0, m1 q = some e0 ∧
          w = upd m1 q (e0.1, rv)) ∨
       (¬(data.1 = 'A' ∨ data.1 = 'R') ∧ ¬ data.1 = 'M' ∧ w = m1)) := by
  obtain ⟨m1, h1, h2⟩ := except_bind_ok _ _ _ h
  exact ⟨m1, phase1_cases m q data.1 m1 h1, phase2_cases fc rn rv m1 q data w h2⟩

theorem foldl_upd_base_congr {α : Type} (wkey : α → Pathname) (wval : α → Entry)
    (l : List α) (b1 b2 : PathState) (k : Pathname) (hb : b1 k = b2 k) :
    (l.foldl (fun acc c => upd acc (wkey c) (wval c)) b1) k =
    (l.foldl (fun acc c => upd acc (wkey c) (wval c)) b2) k := by
  induction l generalizing b1 b2 with
  | nil => exact hb
  | cons c0 rest ih =>
    simp only [List.foldl_cons]
    refine ih (upd b1 (wkey c0) (wval c0)) (upd b2 (wkey c0) (wval c0)) ?_
    show (if k = wkey c0 then some (wval c0) else b1 k) =
      (if k = wkey c0 then some (wval c0) else b2 k)
    by_cases hk : k = wkey c0
    · rw [if_pos hk, if_pos hk]
    · rw [if_neg hk, if_neg hk]
      exact hb

theorem phase12_intro (fc : Pathname → Revid → List Pathname)
    (rn : Pathname → Option FileId) (rv : Revid) (m : PathState)
    (q : Pathname) (data : LocalChange) (m1 w : PathState)
    (hp1 : (¬(data.1 = 'D' ∨ data.1 = 'R') ∧ m1 = m) ∨
        ((data.1 = 'D' ∨ data.1 = 'R') ∧ (∃ e0, m q = some e0) ∧
          m1 = delTree (del m q) q))
    (hp2 : ((data.1 = 'A' ∨ data.1 = 'R') ∧ data.2 = none ∧
          w = upd m1 q (new_file_id rn rv q, rv)) ∨
       ((data.1 = 'A' ∨ data.1 = 'R') ∧ ∃ sr, data.2 = some sr ∧
          w = (fc sr.1 sr.2).foldl
            (fun acc c => upd acc (replaceOnce sr.1 q c) (new_file_id rn rv c, rv))
            (upd m1 q (new_file_id rn rv q, rv))) ∨
       (data.1 = 'M' ∧ ¬(data.1 = 'A' ∨ data.1 = 'R') ∧ ∃ e0, m1 q = some e0 ∧
          w = upd m1 q (e0.1, rv)) ∨
       (¬(data.1 = 'A' ∨ data.1 = 'R') ∧ ¬ data.1 = 'M' ∧ w = m1)) :
    phase12 fc rn rv m (q, data) = .ok w := by
  have hstep1 : (if data.1 = 'D' ∨ data.1 = 'R' then
      match m q with
      | none => Except.error (ConsistencyError.deleteAbsent q)
      | some _ => Except.ok (delTree (del m q) q)
    else Except.ok m) = Except.ok m1 := by
    rcases hp1 with ⟨hna, he1⟩ | ⟨hdr, ⟨e0, he0⟩, he1⟩
    · rw [if_neg hna, he1]
    · rw [if_pos hdr, he0, he1]
  have hstep2 : (if data.1 = 'A' ∨ data.1 = 'R' then
      match data.2 with
      | none => Except.ok (upd m1 q (new_file_id rn rv q, rv))
      | some sr =>
        Except.ok ((fc sr.1 sr.2).foldl
          (fun acc c => upd acc (replaceOnce sr.1 q c) (new_file_id rn rv c, rv))
          (upd m1 q (new_file_id rn rv q, rv)))
    else if data.1 = 'M' then
      match m1 q with
      | none => Except.error (ConsistencyError.modifyAbsent q)
      | some e => Except.ok (upd m1 q (e.1, rv))
    else Except.ok m1) = Except.ok w := by
    rcases hp2 with ⟨ha, hn, he⟩ | ⟨ha, sr, hs, he⟩ | ⟨hM, hna, e0, he0, he⟩ |
      ⟨hna, hnm, he⟩
    · rw [if_pos ha, hn, he]
    · rw [if_pos ha, hs, he]
    · rw [if_neg hna, if_pos hM, he0, he]
    · rw [if_neg hna, if_neg hnm, he]
  show (phase12 fc rn rv m (q, data)) = Except.ok w
  rw [phase12]
  dsimp only
  rw [hstep1]
  exact hstep2

theorem phase12_transport_aux (fc : Pathname → Revid → List Pathname)
    (rn : Pathname → Option FileId) (rv : Revid) (m m2 : PathState)
    (p : Pathname) (data : LocalChange) (w m1 M1b : PathState)
    (hfc : ∀ s r c, c ∈ fc s r → ∃ rest, c = s ++ '/' :: rest)
    (hp2 : ((data.1 = 'A' ∨ data.1 = 'R') ∧ data.2 = none ∧
          w = upd m1 p (new_file_id rn rv p, rv)) ∨
       ((data.1 = 'A' ∨ data.1 = 'R') ∧ ∃ sr, data.2 = some sr ∧
          w = (fc sr.1 sr.2).foldl
            (fun acc c => upd acc (replaceOnce sr.1 p c) (new_file_id rn rv c, rv))
            (upd m1 p (new_file_id rn rv p, rv))) ∨
       (data.1 = 'M' ∧ ¬(data.1 = 'A' ∨ data.1 = 'R') ∧ ∃ e0, m1 p = some e0 ∧
          w = upd m1 p (e0.1, rv)) ∨
       (¬(data.1 = 'A' ∨ data.1 = 'R') ∧ ¬ data.1 = 'M' ∧ w = m1))
    (hp1b : (¬(data.1 = 'D' ∨ data.1 = 'R') ∧ M1b = m2) ∨
        ((data.1 = 'D' ∨ data.1 = 'R') ∧ (∃ e0, m2 p = some e0) ∧
          M1b = delTree (del m2 p) p))
    (hm1in : ∀ k, inSubtree p k → M1b k = m1 k)
    (hm1out : ∀ k, ¬ inSubtree p k → M1b k = m2 k)
    (hm1out0 : ∀ k, ¬ inSubtree p k → m1 k = m k) :
    ∃ w2, phase12 fc rn rv m2 (p, data) = .ok w2 ∧
      (∀ k, inSubtree p k → w2 k = w k) ∧
      (∀ k, ¬ inSubtree p k → w2 k = m2 k) ∧
      (∀ k, ¬ inSubtree p k → w k = m k) := by
  rcases hp2 with ⟨ha, hn, he⟩ | ⟨ha, sr, hs, he⟩ | ⟨hM, hna, e0, he0, he⟩ |
    ⟨hna, hnm, he⟩
  · refine ⟨upd M1b p (new_file_id rn rv p, rv),
      phase12_intro fc rn rv m2 p data M1b _ hp1b (Or.inl ⟨ha, hn, rfl⟩),
      ?_, ?_, ?_⟩
    · intro k hk
      rw [he]
      show (if k = p then _ else M1b k) = (if k = p then _ else m1 k)
      by_cases hkp : k = p
      · rw [if_pos hkp, if_pos hkp]
      · rw [if_neg hkp, if_neg hkp]
        exact hm1in k hk
    · intro k hk
      have hkp : k ≠ p := fun he2 => hk (Or.inl he2)
      show (if k = p then _ else M1b k) = m2 k
      rw [if_neg hkp]
      exact hm1out k hk
    · intro k hk
      rw [he]
      have hkp : k ≠ p := fun he2 => hk (Or.inl he2)
      show (if k = p then _ else m1 k) = m k
      rw [if_neg hkp]
      exact hm1out0 k hk
  · refine ⟨(fc sr.1 sr.2).foldl
      (fun acc c => upd acc (replaceOnce sr.1 p c) (new_file_id rn rv c, rv))
      (upd M1b p (new_file_id rn rv p, rv)),
      phase12_intro fc rn rv m2 p data M1b _ hp1b
        (Or.inr (Or.inl ⟨ha, sr, hs, rfl⟩)), ?_, ?_, ?_⟩
    · intro k hk
      rw [he]
      refine foldl_upd_base_congr (fun c => replaceOnce sr.1 p c)
        (fun c => (new_file_id rn rv c, rv)) (fc sr.1 sr.2) _ _ k ?_
      show (if k = p then _ else M1b k) = (if k = p then _ else m1 k)
      by_cases hkp : k = p
      · rw [if_pos hkp, if_pos hkp]
      · rw [if_neg hkp, if_neg hkp]
        exact hm1in k hk
    · intro k hk
      have hskip : ∀ c ∈ fc sr.1 sr.2, (fun c => replaceOnce sr.1 p c) c ≠ k := by
        intro c hc heq
        obtain ⟨rest, hce⟩ := hfc sr.1 sr.2 c hc
        have heq2 : replaceOnce sr.1 p c = k := heq
        rw [hce, replaceOnce_child] at heq2
        exact hk (Or.inr ⟨rest, heq2.symm⟩)
      rw [foldl_upd_skip (fun c => replaceOnce sr.1 p c)
        (fun c => (new_file_id rn rv c, rv)) (fc sr.1 sr.2) _ k hskip]
      have hkp : k ≠ p := fun he2 => hk (Or.inl he2)
      show (if k = p then _ else M1b k) = m2 k
      rw [if_neg hkp]
      exact hm1out k hk
    · intro k hk
      rw [he]
      have hskip : ∀ c ∈ fc sr.1 sr.2, (fun c => replaceOnce sr.1 p c) c ≠ k := by
        intro c hc heq
        obtain ⟨rest, hce⟩ := hfc sr.1 sr.2 c hc
        have heq2 : replaceOnce sr.1 p c = k := heq
        rw [hce, replaceOnce_child] at heq2
        exact hk (Or.inr ⟨rest, heq2.symm⟩)
      rw [foldl_upd_skip (fun c => replaceOnce sr.1 p c)
        (fun c => (new_file_id rn rv c, rv)) (fc sr.1 sr.2) _ k hskip]
      have hkp : k ≠ p := fun he2 => hk (Or.inl he2)
      show (if k = p then _ else m1 k) = m k
      rw [if_neg hkp]
      exact hm1out0 k hk
  · have hMp : M1b p = some e0 := by
      rw [hm1in p (Or.inl rfl)]
      exact he0
    refine ⟨upd M1b p (e0.1, rv),
      phase12_intro fc rn rv m2 p data M1b _ hp1b
        (Or.inr (Or.inr (Or.inl ⟨hM, hna, e0, hMp, rfl⟩))), ?_, ?_, ?_⟩
    · intro k hk
      rw [he]
      show (if k = p then _ else M1b k) = (if k = p then _ else m1 k)
      by_cases hkp : k = p
      · rw [if_pos hkp, if_pos hkp]
      · rw [if_neg hkp, if_neg hkp]
        exact hm1in k hk
    · intro k hk
      have hkp : k ≠ p := fun he2 => hk (Or.inl he2)
      show (if k = p then _ else M1b k) = m2 k
      rw [if_neg hkp]
      exact hm1out k hk
    · intro k hk
      rw [he]
      have hkp : k ≠ p := fun he2 => hk (Or.inl he2)
      show (if k = p then _ else m1 k) = m k
      rw [if_neg hkp]
      exact hm1out0 k hk
  · refine ⟨M1b,
      phase12_intro fc rn rv m2 p data M1b _ hp1b
        (Or.inr (Or.inr (Or.inr ⟨hna, hnm, rfl⟩))), ?_, ?_, ?_⟩
    · intro k hk
      rw [he]
      exact hm1in k hk
    · exact hm1out
    · intro k hk
      rw [he]
      exact hm1out0 k hk

theorem phase12_transport (fc : Pathname → Revid → List Pathname)
    (rn : Pathname → Option FileId) (rv : Revid) (m : PathState)
    (p : Pathname) (data : LocalChange) (w : PathState)
    (hfc : ∀ s r c, c ∈ fc s r → ∃ rest, c = s ++ '/' :: rest)
    (h : phase12 fc rn rv m (p, data) = .ok w) (m2 : PathState)
    (hq : m2 p = m p) (hsub : ∀ k, inSubtree p k → m2 k = m k) :
    ∃ w2, phase12 fc rn rv m2 (p, data) = .ok w2 ∧
      (∀ k, inSubtree p k → w2 k = w k) ∧
      (∀ k, ¬ inSubtree p k → w2 k = m2 k) ∧
      (∀ k, ¬ inSubtree p k → w k = m k) := by
  obtain ⟨m1, hp1, hp2⟩ := phase12_parts fc rn rv m p data w h
  rcases hp1 with ⟨hna, he1⟩ | ⟨hdr, ⟨e0, he0⟩, he1⟩
  · refine phase12_transport_aux fc rn rv m m2 p data w m1 m2 hfc hp2
      (Or.inl ⟨hna, rfl⟩) ?_ (fun k _ => rfl) ?_
    · intro k hk
      rw [he1]
      exact hsub k hk
    · intro k _
      rw [he1]
  · refine phase12_transport_aux fc rn rv m m2 p data w m1
      (delTree (del m2 p) p) hfc hp2
      (Or.inr ⟨hdr, ⟨e0, by rw [hq]; exact he0⟩, rfl⟩) ?_ ?_ ?_
    · intro k hk
      rw [he1, delTree_del_subtreeFree m2 p k hk, delTree_del_subtreeFree m p k hk]
    · intro k hk
      have hkp : k ≠ p := fun he2 => hk (Or.inl he2)
      have hks : ∀ r, k ≠ p ++ '/' :: r := fun r hr => hk (Or.inr ⟨r, hr⟩)
      exact delTree_del_outside m2 p k hkp hks
    · intro k hk
      have hkp : k ≠ p := fun he2 => hk (Or.inl he2)
      have hks : ∀ r, k ≠ p ++ '/' :: r := fun r hr => hk (Or.inr ⟨r, hr⟩)
      rw [he1]
      exact delTree_del_outside m p k hkp hks

theorem touchApply_not_mem (rv : Revid) (m : PathState) (ws : List Pathname)
    (k : Pathname) (h : k ∉ ws) : touchApply rv m ws k = m k := by
  show (if k ∈ ws then _ else m k) = m k
  rw [if_neg h]

theorem touchApply_mem (rv : Revid) (m : PathState) (ws : List Pathname)
    (k : Pathname) (h : k ∈ ws) :
    touchApply rv m ws k =
      (match m k with
       | some e => some (e.1, rv)
       | none => none) := by
  show (if k ∈ ws then _ else m k) = _
  rw [if_pos h]

/-- Re-walking a list whose walked prefix was already stamped stops at
once. -/
theorem touchWalk_stamp_self (rv : Revid) (S : List Pathname) (m : PathState)
    (ws : List Pathname) (h : touchWalk rv S m = some ws)
    (m2 : PathState) (hag : ∀ b ∈ S, m2 b = touchApply rv m ws b) :
    touchWalk rv S m2 = some [] := by
  cases S with
  | nil => rfl
  | cons s0 S2 =>
    rw [touchWalk] at h ⊢
    cases hms : m s0 with
    | none => rw [hms] at h; cases h
    | some e =>
      rw [hms] at h
      dsimp only at h
      by_cases he : e.2 = rv
      · rw [if_pos he] at h
        have hws : ws = [] := (Option.some.inj h).symm
        have h2 : m2 s0 = some e := by
          rw [hag s0 (List.mem_cons_self _ _), hws,
            touchApply_not_mem rv m [] s0 (List.not_mem_nil s0), hms]
        rw [h2]
        dsimp only
        rw [if_pos he]
      · rw [if_neg he] at h
        cases hw2 : touchWalk rv S2 m with
        | none => rw [hw2] at h; cases h
        | some ws2 =>
          rw [hw2] at h
          dsimp only [Option.map] at h
          have hws : ws = s0 :: ws2 := (Option.some.inj h).symm
          have h2 : m2 s0 = some (e.1, rv) := by
            rw [hag s0 (List.mem_cons_self _ _), hws,
              touchApply_mem rv m (s0 :: ws2) s0 (List.mem_cons_self _ _), hms]
          rw [h2]
          dsimp only
          rw [if_pos rfl]

theorem walk_swap (rv : Revid) (P Q S : List Pathname) (m0 : PathState)
    (hPq : ∀ b ∈ P, b ∉ Q ++ S) (hQp : ∀ b ∈ Q, b ∉ P ++ S)
    (wsP : List Pathname) (hwsP : touchWalk rv (P ++ S) m0 = some wsP)
    (wsQ1 : List Pathname)
    (hwsQ1 : touchWalk rv (Q ++ S) (touchApply rv m0 wsP) = some wsQ1) :
    ∃ wsQ wsP1, touchWalk rv (Q ++ S) m0 = some wsQ ∧
      touchWalk rv (P ++ S) (touchApply rv m0 wsQ) = some wsP1 ∧
      ∀ k, (k ∈ wsP ∨ k ∈ wsQ1) ↔ (k ∈ wsQ ∨ k ∈ wsP1) := by
  have hwsPsub : ∀ b ∈ wsP, b ∈ P ++ S :=
    fun b hb => (touchWalk_isPrefix rv (P ++ S) m0 wsP hwsP).subset hb
  have hwsQ1sub : ∀ b ∈ wsQ1, b ∈ Q ++ S :=
    fun b hb => (touchWalk_isPrefix rv (Q ++ S) _ wsQ1 hwsQ1).subset hb
  rw [touchWalk_append] at hwsP
  cases hwp : touchWalk rv P m0 with
  | none => rw [hwp] at hwsP; cases hwsP
  | some wsp0 =>
    rw [hwp] at hwsP
    dsimp only at hwsP
    have hwsp0P : ∀ b ∈ wsp0, b ∈ P :=
      fun b hb => (touchWalk_isPrefix rv P m0 wsp0 hwp).subset hb
    by_cases hcomp : wsp0 = P
    · rw [if_pos hcomp] at hwsP
      cases hws : touchWalk rv S m0 with
      | none => rw [hws] at hwsP; cases hwsP
      | some wsS =>
        rw [hws] at hwsP
        dsimp only [Option.map] at hwsP
        have hwsPe : wsP = P ++ wsS := (Option.some.inj hwsP).symm
        have hwsSS : ∀ b ∈ wsS, b ∈ S :=
          fun b hb => (touchWalk_isPrefix rv S m0 wsS hws).subset hb
        -- the Q-part of the second walk saw unchanged marks
        have hQstab : touchWalk rv Q (touchApply rv m0 wsP) = touchWalk rv Q m0 := by
          refine touchWalk_stable rv Q _ m0 ?_
          intro b hb
          refine touchApply_not_mem rv m0 wsP b ?_
          rw [hwsPe]
          intro hmem
          rcases List.mem_append.mp hmem with h5 | h5
          · exact hPq b h5 (List.mem_append_left _ hb)
          · exact hQp b hb (List.mem_append_right _ (hwsSS b h5))
        rw [touchWalk_append, hQstab] at hwsQ1
        cases hwq : touchWalk rv Q m0 with
        | none => rw [hwq] at hwsQ1; cases hwsQ1
        | some wsq0 =>
          rw [hwq] at hwsQ1
          dsimp only at hwsQ1
          have hwsq0Q : ∀ b ∈ wsq0, b ∈ Q :=
            fun b hb => (touchWalk_isPrefix rv Q m0 wsq0 hwq).subset hb
          by_cases hqcomp : wsq0 = Q
          · -- both own parts complete: the shared suffix is walked once
            rw [if_pos hqcomp] at hwsQ1
            have hSstamp : touchWalk rv S (touchApply rv m0 wsP) = some [] := by
              refine touchWalk_stamp_self rv S m0 wsS hws _ ?_
              intro b hb
              rw [hwsPe]
              by_cases hbw : b ∈ wsS
              · rw [touchApply_mem rv m0 (P ++ wsS) b
                  (List.mem_append_right _ hbw), touchApply_mem rv m0 wsS b hbw]
              · rw [touchApply_not_mem rv m0 wsS b hbw]
                refine touchApply_not_mem rv m0 (P ++ wsS) b ?_
                intro hmem
                rcases List.mem_append.mp hmem with h5 | h5
                · exact hPq b h5 (List.mem_append_right _ hb)
                · exact hbw h5
            rw [hSstamp] at hwsQ1
            dsimp only [Option.map] at hwsQ1
            have hwsQ1e : wsQ1 = Q ++ [] := (Option.some.inj hwsQ1).symm
            refine ⟨Q ++ wsS, P ++ [], ?_, ?_, ?_⟩
            · rw [touchWalk_append, hwq]
              dsimp only
              rw [if_pos hqcomp, hws]
              rfl
            · rw [touchWalk_append]
              have hPstab : touchWalk rv P (touchApply rv m0 (Q ++ wsS)) =
                  touchWalk rv P m0 := by
                refine touchWalk_stable rv P _ m0 ?_
                intro b hb
                refine touchApply_not_mem rv m0 (Q ++ wsS) b ?_
                intro hmem
                rcases List.mem_append.mp hmem with h5 | h5
                · exact hPq b hb (List.mem_append_left _ h5)
                · exact hPq b hb (List.mem_append_right _ (hwsSS b h5))
              rw [hPstab, hwp]
              dsimp only
              rw [if_pos hcomp]
              have hSstamp2 : touchWalk rv S (touchApply rv m0 (Q ++ wsS)) =
                  some [] := by
                refine touchWalk_stamp_self rv S m0 wsS hws _ ?_
                intro b hb
                by_cases hbw : b ∈ wsS
                · rw [touchApply_mem rv m0 (Q ++ wsS) b
                    (List.mem_append_right _ hbw), touchApply_mem rv m0 wsS b hbw]
                · rw [touchApply_not_mem rv m0 wsS b hbw]
                  refine touchApply_not_mem rv m0 (Q ++ wsS) b ?_
                  intro hmem
                  rcases List.mem_append.mp hmem with h5 | h5
                  · exact hQp b h5 (List.mem_append_right _ hb)
                  · exact hbw h5
              rw [hSstamp2]
              rfl
            · intro k
              rw [hwsPe, hwsQ1e]
              simp only [List.mem_append, List.not_mem_nil, or_false]
              constructor
              · intro h5
                rcases h5 with (h6 | h6) | h6
                · exact Or.inr h6
                · exact Or.inl (Or.inr h6)
                · exact Or.inl (Or.inl h6)
              · intro h5
                rcases h5 with (h6 | h6) | h6
                · exact Or.inr h6
                · exact Or.inl (Or.inr h6)
                · exact Or.inl (Or.inl h6)
          · -- q's own part breaks: the shared suffix stays as p left it
            rw [if_neg hqcomp] at hwsQ1
            have hwsQ1e : wsQ1 = wsq0 := (Option.some.inj hwsQ1).symm
            refine ⟨wsq0, P ++ wsS, ?_, ?_, ?_⟩
            · rw [touchWalk_append, hwq]
              dsimp only
              rw [if_neg hqcomp]
            · rw [touchWalk_append]
              have hPstab : touchWalk rv P (touchApply rv m0 wsq0) =
                  touchWalk rv P m0 := by
                refine touchWalk_stable rv P _ m0 ?_
                intro b hb
                exact touchApply_not_mem rv m0 wsq0 b
                  (fun h5 => hPq b hb (List.mem_append_left _ (hwsq0Q b h5)))
              rw [hPstab, hwp]
              dsimp only
              rw [if_pos hcomp]
              have hSstab : touchWalk rv S (touchApply rv m0 wsq0) =
                  touchWalk rv S m0 := by
                refine touchWalk_stable rv S _ m0 ?_
                intro b hb
                exact touchApply_not_mem rv m0 wsq0 b
                  (fun h5 => hQp (b) (hwsq0Q b h5) (List.mem_append_right _ hb))
              rw [hSstab, hws]
              rfl
            · intro k
              rw [hwsPe, hwsQ1e]
              constructor
              · intro h5
                rcases h5 with h6 | h6
                · exact Or.inr h6
                · exact Or.inl h6
              · intro h5
                rcases h5 with h6 | h6
                · exact Or.inr h6
                · exact Or.inl h6
    · -- p's own part breaks: nothing of the shared suffix was stamped
      rw [if_neg hcomp] at hwsP
      have hwsPe : wsP = wsp0 := (Option.some.inj hwsP).symm
      have hQSstab : touchWalk rv (Q ++ S) (touchApply rv m0 wsP) =
          touchWalk rv (Q ++ S) m0 := by
        refine touchWalk_stable rv (Q ++ S) _ m0 ?_
        intro b hb
        refine touchApply_not_mem rv m0 wsP b ?_
        rw [hwsPe]
        intro h5
        exact hPq b (hwsp0P b h5) hb
      rw [hQSstab] at hwsQ1
      refine ⟨wsQ1, wsp0, hwsQ1, ?_, ?_⟩
      · rw [touchWalk_append]
        have hPstab : touchWalk rv P (touchApply rv m0 wsQ1) =
            touchWalk rv P m0 := by
          refine touchWalk_stable rv P _ m0 ?_
          intro b hb
          exact touchApply_not_mem rv m0 wsQ1 b
            (fun h5 => hPq b hb (hwsQ1sub b h5))
        rw [hPstab, hwp]
        dsimp only
        rw [if_neg hcomp]
      · intro k
        rw [hwsPe]
        constructor
        · intro h5
          rcases h5 with h6 | h6
          · exact Or.inr h6
          · exact Or.inl h6
        · intro h5
          rcases h5 with h6 | h6
          · exact Or.inr h6
          · exact Or.inl h6

def stampOpt (rv : Revid) : Option Entry → Option Entry
  | some e => some (e.1, rv)
  | none => none

theorem touchApply_eq_stampOpt (rv : Revid) (m : PathState) (ws : List Pathname)
    (k : Pathname) :
    touchApply rv m ws k = if k ∈ ws then stampOpt rv (m k) else m k := by
  show (if k ∈ ws then
    (match m k with
     | some e => some (e.1, rv)
     | none => none) else m k) = _
  cases m k <;> rfl

theorem stampOpt_idem (rv : Revid) (o : Option Entry) :
    stampOpt rv (stampOpt rv o) = stampOpt rv o := by
  cases o <;> rfl

theorem stamp_double (rv : Revid) (o : Option Entry) (b1 b2 : Prop)
    [Decidable b1] [Decidable b2] :
    (if b1 then stampOpt rv (if b2 then stampOpt rv o else o)
     else (if b2 then stampOpt rv o else o)) =
    (if b1 ∨ b2 then stampOpt rv o else o) := by
  by_cases h1 : b1 <;> by_cases h2 : b2 <;>
    simp [h1, h2, stampOpt_idem]

/-- Processing two changes at slash-prefix-unrelated paths commutes: if
applying p's change then q's succeeds, applying q's then p's succeeds and
yields the same state. -/
theorem applyOne_comm (fc : Pathname → Revid → List Pathname)
    (rn : Pathname → Option FileId) (rv : Revid) (p q : Pathname)
    (dp dq : LocalChange) (m m1 m2 : PathState)
    (hfc : ∀ s r c, c ∈ fc s r → ∃ rest, c = s ++ '/' :: rest)
    (hu : unrelatedP p q)
    (h1 : applyOne fc rn rv m (p, dp) = .ok m1)
    (h2 : applyOne fc rn rv m1 (q, dq) = .ok m2) :
    ∃ n1, applyOne fc rn rv m (q, dq) = .ok n1 ∧
      applyOne fc rn rv n1 (p, dp) = .ok m2 := by
  have husym := unrelatedP_symm p q hu
  have hdisjpq := unrelated_subtrees_disjoint p q hu
  have hdisjqp := unrelated_subtrees_disjoint q p husym
  have hancpq := unrelated_subtree_ancestors p q hu
  have hancqp := unrelated_subtree_ancestors q p husym
  rw [applyOne_as_phase12] at h1 h2
  obtain ⟨w1, hw1, ht1⟩ := except_bind_ok _ _ _ h1
  obtain ⟨w2, hw2, ht2⟩ := except_bind_ok _ _ _ h2
  obtain ⟨w1x, hw1x, _, _, hloc1⟩ :=
    phase12_transport fc rn rv m p dp w1 hfc hw1 m rfl (fun k _ => rfl)
  obtain ⟨w2x, hw2x, _, _, hloc2⟩ :=
    phase12_transport fc rn rv m1 q dq w2 hfc hw2 m1 rfl (fun k _ => rfl)
  -- the first walk, read off the base state
  cases hwalk1 : touchWalk rv (ancestors p) w1 with
  | none =>
    exact absurd ht1 (touchParents_of_touchWalk_none rv p _ w1
      (ancestors_nodup p) hwalk1 m1)
  | some wsP =>
  have hm1e : m1 = touchApply rv w1 wsP := by
    have h5 := touchParents_of_touchWalk rv p (ancestors p) w1 wsP
      (ancestors_nodup p) hwalk1
    rw [ht1] at h5
    exact Except.ok.inj h5
  have hwsPsub : ∀ b ∈ wsP, b ∈ ancestors p :=
    fun b hb => (touchWalk_isPrefix rv _ w1 wsP hwalk1).subset hb
  have hLpnotsub : ∀ b ∈ ancestors p, ¬ inSubtree p b := by
    intro b hb hs
    rcases hs with h5 | ⟨r, h5⟩
    · exact (ancestors_mem_ne_self p b hb) h5
    · exact (ancestors_mem_not_subtree p b hb) r h5
  have hLqnotsub : ∀ b ∈ ancestors q, ¬ inSubtree q b := by
    intro b hb hs
    rcases hs with h5 | ⟨r, h5⟩
    · exact (ancestors_mem_ne_self q b hb) h5
    · exact (ancestors_mem_not_subtree q b hb) r h5
  have hwalk1m : touchWalk rv (ancestors p) m = some wsP := by
    rw [← hwalk1]
    refine (touchWalk_stable rv (ancestors p) w1 m ?_).symm
    intro b hb
    exact hloc1 b (hLpnotsub b hb)
  -- the second walk
  cases hwalk2 : touchWalk rv (ancestors q) w2 with
  | none =>
    exact absurd ht2 (touchParents_of_touchWalk_none rv q _ w2
      (ancestors_nodup q) hwalk2 m2)
  | some wsQ1
  =>
  have hm2e : m2 = touchApply rv w2 wsQ1 := by
    have h5 := touchParents_of_touchWalk rv q (ancestors q) w2 wsQ1
      (ancestors_nodup q) hwalk2
    rw [ht2] at h5
    exact Except.ok.inj h5
  have hwsQ1sub : ∀ b ∈ wsQ1, b ∈ ancestors q :=
    fun b hb => (touchWalk_isPrefix rv _ w2 wsQ1 hwalk2).subset hb
  -- entries of the q-walk list as p left them: base marks stamped at wsP
  have hm1Lq : ∀ b ∈ ancestors q, m1 b = touchApply rv m wsP b := by
    intro b hb
    rw [hm1e, touchApply_eq_stampOpt, touchApply_eq_stampOpt]
    have hbp : ¬ inSubtree p b := by
      intro hs
      exact (hancpq b hs) hb
    by_cases hbw : b ∈ wsP
    · rw [if_pos hbw, if_pos hbw, hloc1 b hbp]
    · rw [if_neg hbw, if_neg hbw]
      exact hloc1 b hbp
  have hwalk2m : touchWalk rv (ancestors q) (touchApply rv m wsP) = some wsQ1 := by
    rw [← hwalk2]
    refine (touchWalk_stable rv (ancestors q) w2 _ ?_).symm
    intro b hb
    rw [hloc2 b (hLqnotsub b hb)]
    exact hm1Lq b hb
  -- decompose the two ancestor lists into own parts and a shared suffix
  have hdecos : ∃ P Q S, ancestors p = P ++ S ∧ ancestors q = Q ++ S ∧
      (∀ b ∈ P, b ∉ ancestors q) ∧ (∀ b ∈ Q, b ∉ ancestors p) := by
    rcases ancestors_shared_suffix p q with hdisj | ⟨a0, P, Q, hLp, hLq, hPq0, hQp0⟩
    · refine ⟨ancestors p, ancestors q, [], (List.append_nil _).symm,
        (List.append_nil _).symm, hdisj, ?_⟩
      intro b hbq hbp
      exact hdisj b hbp hbq
    · exact ⟨P, Q, a0 :: ancestors a0, hLp, hLq, hPq0, hQp0⟩
  obtain ⟨P, Q, S, hLp, hLq, hPq0, hQp0⟩ := hdecos
  obtain ⟨wsQ, wsP1, hwsQm, hwsP1, hiff⟩ := walk_swap rv P Q S m
    (by intro b hb; rw [← hLq]; exact hPq0 b hb)
    (by intro b hb; rw [← hLp]; exact hQp0 b hb)
    wsP (by rw [← hLp]; exact hwalk1m)
    wsQ1 (by rw [← hLq]; exact hwalk2m)
  rw [← hLq] at hwsQm
  rw [← hLp] at hwsP1
  have hwsQsub : ∀ b ∈ wsQ, b ∈ ancestors q :=
    fun b hb => (touchWalk_isPrefix rv _ m wsQ hwsQm).subset hb
  have hwsP1sub : ∀ b ∈ wsP1, b ∈ ancestors p :=
    fun b hb => (touchWalk_isPrefix rv _ _ wsP1 hwsP1).subset hb
  -- q's phases run the same from the base state
  obtain ⟨v1, hv1, hv1in, hv1out, _⟩ :=
    phase12_transport fc rn rv m1 q dq w2 hfc hw2 m
      (by
        rw [hm1e, touchApply_eq_stampOpt]
        rw [if_neg (fun h5 => (hancqp q (Or.inl rfl)) (hwsPsub q h5))]
        exact (hloc1 q (fun h5 => (hdisjpq q h5) (Or.inl rfl))).symm)
      (by
        intro k hk
        rw [hm1e, touchApply_eq_stampOpt]
        rw [if_neg (fun h5 => (hancqp k hk) (hwsPsub k h5))]
        exact (hloc1 k (fun h5 => (hdisjpq k h5) hk)).symm)
  -- q's walk from the base state
  have hwalkv1 : touchWalk rv (ancestors q) v1 = some wsQ := by
    rw [← hwsQm]
    refine touchWalk_stable rv (ancestors q) v1 m ?_
    intro b hb
    exact hv1out b (hLqnotsub b hb)
  have htq : touchParents rv q (ancestors q) v1 = .ok (touchApply rv v1 wsQ) :=
    touchParents_of_touchWalk rv q (ancestors q) v1 wsQ (ancestors_nodup q) hwalkv1
  -- p's phases run the same from the new intermediate state
  obtain ⟨v2, hv2, hv2in, hv2out, _⟩ :=
    phase12_transport fc rn rv m p dp w1 hfc hw1 (touchApply rv v1 wsQ)
      (by
        rw [touchApply_eq_stampOpt]
        rw [if_neg (fun h5 => (hancpq p (Or.inl rfl)) (hwsQsub p h5))]
        exact hv1out p (fun h5 => (hdisjqp p h5) (Or.inl rfl)))
      (by
        intro k hk
        rw [touchApply_eq_stampOpt]
        rw [if_neg (fun h5 => (hancpq k hk) (hwsQsub k h5))]
        exact hv1out k (fun h5 => (hdisjqp k h5) hk))
  -- p's walk from the new intermediate state
  have hwalkv2 : touchWalk rv (ancestors p) v2 = some wsP1 := by
    rw [← hwsP1]
    refine touchWalk_stable rv (ancestors p) v2 (touchApply rv m wsQ) ?_
    intro b hb
    have hbp : ¬ inSubtree p b := hLpnotsub b hb
    rw [hv2out b hbp, touchApply_eq_stampOpt, touchApply_eq_stampOpt]
    have hbq : ¬ inSubtree q b := by
      intro hs
      exact (hancqp b hs) hb
    by_cases hbw : b ∈ wsQ
    · rw [if_pos hbw, if_pos hbw, hv1out b hbq]
    · rw [if_neg hbw, if_neg hbw]
      exact hv1out b hbq
  have htp : touchParents rv p (ancestors p) v2 = .ok (touchApply rv v2 wsP1) :=
    touchParents_of_touchWalk rv p (ancestors p) v2 wsP1 (ancestors_nodup p) hwalkv2
  -- assemble the swapped run
  refine ⟨touchApply rv v1 wsQ, ?_, ?_⟩
  · rw [applyOne_as_phase12, hv1]
    exact htq
  · rw [applyOne_as_phase12, hv2]
    show touchParents rv p (ancestors p) v2 = .ok m2
    rw [htp]
    refine congrArg Except.ok (funext fun k => ?_)
    -- pointwise equality of the two final states
    rw [hm2e, touchApply_eq_stampOpt, touchApply_eq_stampOpt]
    by_cases hkq : inSubtree q k
    · have hknLq : k ∉ ancestors q := fun h5 => (hLqnotsub k h5) hkq
      have hknLp : k ∉ ancestors p := hancqp k hkq
      rw [if_neg (fun h5 => hknLp (hwsP1sub k h5)),
        if_neg (fun h5 => hknLq (hwsQ1sub k h5))]
      rw [hv2out k (fun h5 => (hdisjpq k h5) hkq)]
      rw [touchApply_eq_stampOpt, if_neg (fun h5 => hknLq (hwsQsub k h5))]
      exact hv1in k hkq
    by_cases hkp : inSubtree p k
    · have hknLp : k ∉ ancestors p := fun h5 => (hLpnotsub k h5) hkp
      have hknLq : k ∉ ancestors q := hancpq k hkp
      rw [if_neg (fun h5 => hknLp (hwsP1sub k h5)),
        if_neg (fun h5 => hknLq (hwsQ1sub k h5))]
      rw [hv2in k hkp, hloc2 k hkq, hm1e, touchApply_eq_stampOpt,
        if_neg (fun h5 => hknLp (hwsPsub k h5))]
    · -- outside both regions: only the touch stamps act
      rw [hv2out k hkp, hloc2 k hkq, hm1e]
      rw [touchApply_eq_stampOpt, touchApply_eq_stampOpt]
      rw [hloc1 k hkp, hv1out k hkq]
      rw [stamp_double, stamp_double]
      refine if_congr ?_ rfl rfl
      have h8 := hiff k
      tauto

instance (p q : Pathname) : Decidable (unrelatedP p q) :=
  inferInstanceAs (Decidable (p ≠ q ∧ (q ++ ['/']).isPrefixOf p = false ∧
    (p ++ ['/']).isPrefixOf q = false))

theorem applyList_perm_eq (fc : Pathname → Revid → List Pathname)
    (rn : Pathname → Option FileId) (rv : Revid)
    (hfc : ∀ s r c, c ∈ fc s r → ∃ rest, c = s ++ '/' :: rest) :
    ∀ (l1 l2 : List (Pathname × LocalChange)), l1.Perm l2 →
    l1.Pairwise (fun a b => unrelatedP a.1 b.1) →
    ∀ m mf, applyList fc rn rv l1 m = .ok mf →
      applyList fc rn rv l2 m = .ok mf := by
  intro l1 l2 hperm
  induction hperm with
  | nil =>
    intro _ m mf h
    exact h
  | cons x hsub ih =>
    intro hpw m mf h
    rw [applyList] at h ⊢
    obtain ⟨ma, hx, hrest⟩ := except_bind_ok _ _ _ h
    rw [hx]
    exact ih (List.pairwise_cons.mp hpw).2 ma mf hrest
  | swap x y l =>
    intro hpw m mf h
    rw [applyList] at h
    obtain ⟨a1, hy, hrest1⟩ := except_bind_ok _ _ _ h
    rw [applyList] at hrest1
    obtain ⟨a2, hx, hrest2⟩ := except_bind_ok _ _ _ hrest1
    have hu : unrelatedP y.1 x.1 :=
      (List.pairwise_cons.mp hpw).1 x (List.mem_cons_self _ _)
    obtain ⟨n1, hn1, hn2⟩ := applyOne_comm fc rn rv y.1 x.1 y.2 x.2 m a1 a2
      hfc hu hy hx
    have hn1b : applyOne fc rn rv m x = .ok n1 := hn1
    have hn2b : applyOne fc rn rv n1 y = .ok a2 := hn2
    rw [applyList, hn1b]
    show applyList fc rn rv (y :: l) n1 = .ok mf
    rw [applyList, hn2b]
    exact hrest2
  | trans p1 p2 ih1 ih2 =>
    intro hpw m mf h
    refine ih2 ?_ m mf (ih1 hpw m mf h)
    exact (p1.pairwise_iff (fun {a b} h5 => unrelatedP_symm a.1 b.1 h5)).mp hpw

/-- Claim C7 amended: order independence holds when no changed path lies
inside the subtree of another changed path.  For such changesets a
successful application yields the same final state whatever order the
changed paths are processed in; the engine's sorted order is one of them.
(With prefix-related changed paths it fails: see the counterexample, where
a copy's child entry collides with an explicitly changed descendant.) -/
theorem C7_order_independence (fc : Pathname → Revid → List Pathname)
    (rn : Pathname → Option FileId) (rv : Revid)
    (changes order2 : List (Pathname × LocalChange)) (m mf : PathState)
    (hfc : ∀ s r c, c ∈ fc s r → ∃ rest, c = s ++ '/' :: rest)
    (hpw : changes.Pairwise (fun a b => unrelatedP a.1 b.1))
    (hperm : order2.Perm changes)
    (hok : apply_changes fc rn rv changes m = .ok mf) :
    applyList fc rn rv order2 m = .ok mf := by
  rw [apply_changes] at hok
  have hps : (sortBy (fun a b => lexLe a.1 b.1) changes).Perm order2 :=
    (sortBy_perm _ changes).trans hperm.symm
  have hpws : (sortBy (fun a b => lexLe a.1 b.1) changes).Pairwise
      (fun a b => unrelatedP a.1 b.1) :=
    ((sortBy_perm _ changes).pairwise_iff
      (fun {a b} h5 => unrelatedP_symm a.1 b.1 h5)).mpr hpw
  exact applyList_perm_eq fc rn rv hfc _ order2 hps hpws m mf hok

/-- Witness for the amended claim C7: two root-level adds give the same
state in sorted and reversed order. -/
theorem C7_order_independence_witness :
    ∃ mf, apply_changes (fun _ _ => []) (fun _ => none) Revid.null
        [(['b'], ('A', (none : Option (Pathname × Revid)))),
         (['a'], ('A', none))] emptyState = .ok mf ∧
      applyList (fun _ _ => []) (fun _ => none) Revid.null
        [(['a'], ('A', none)), (['b'], ('A', none))] emptyState = .ok mf := by
  refine ⟨_, rfl, ?_⟩
  exact C7_order_independence (fun _ _ => []) (fun _ => none) Revid.null
    [(['b'], ('A', none)), (['a'], ('A', none))]
    [(['a'], ('A', none)), (['b'], ('A', none))] emptyState _
    (fun s r c hc => absurd hc (List.not_mem_nil c))
    (by decide) (by decide) rfl
